import Mathlib

/-!
# A shallow embedding of the `wasm` binary-format codec

The Go package decodes and encodes WebAssembly binary modules.  This file
embeds its functions as Lean definitions and proves properties of them.

Conventions of the embedding.

* A Go `[]byte` buffer is a `List UInt8`; the buffer is taken to have
  `cap(b) = len(b)`, so an index or a slice bound outside `[0, len(b)]`
  is a run-time panic (`Res.panic`).
* A Go `int` (64 bit) is an `Int`.  Cursors stay within `len(b) < 2^63`, so
  `i+1`, `i+2`, ... are written with the plain `+`; every sum that adds a
  decoded, input-controlled quantity (`i+l`, `i+size`, `l+1`) goes through
  `addInt`, the wrapping 64-bit addition.
* A Go `uint64` is a `Nat` kept below `2^64` by explicit `% 2^64`; an
  `int64` under bitwise operations is held as its twos-complement bit
  pattern and converted with `toInt64`.
* A `float64` is represented by its IEEE-754 bit pattern (a `Nat` below
  `2^64`): `math.Float64frombits` and `math.Float64bits` are the identity
  on that representation.
* A Go function returning `(v, i, err)` returns a `Res`: `ok v i` when
  `err == nil`, `fail i e` when it returns the error `e` with offset `i`
  (the value returned next to an error is dropped), `panic` when it panics.
* Loops are structural recursions on a fuel argument which the enclosing
  function sets to a bound the loop cannot exceed.
-/

namespace Wasm

/-! ## Errors and results -/

/-- The error values of the package.  `New` and `Wrap` stand for
`errors.New(format, args...)` and `errors.Wrap(err, format, args...)`. -/
inductive Err where
  | ErrMagic
  | ErrOverflow
  | ErrSizeMismatch
  | ErrUnexpectedEOF
  | ErrUnsupportedVersion
  | UnsupportedOpcodeError (Opcode : UInt8) (Args : List UInt8)
  | New (format : String) (args : List ℤ)
  | Wrap (err : Err) (format : String) (args : List ℤ)
  deriving DecidableEq

/-- The innermost error of a chain of `Wrap`s (what `errors.Is` compares). -/
def Err.cause : Err → Err
  | .Wrap e _ _ => e.cause
  | e => e

/-- The outcome of a decoding function. -/
inductive Res (α : Type) where
  | ok (v : α) (i : ℤ)
  | fail (i : ℤ) (e : Err)
  | panic
  deriving DecidableEq

/-! ## Machine integers and buffers -/

/-- The value of `int64(x)` for a `uint64` bit pattern `x`. -/
def toInt64 (x : Nat) : ℤ :=
  if x % 2 ^ 64 < 2 ^ 63 then ((x % 2 ^ 64 : Nat) : ℤ) else ((x % 2 ^ 64 : Nat) : ℤ) - 2 ^ 64

/-- The value of `uint64(v)` for an `int64` (or `int`) `v`. -/
def toUint64 (v : ℤ) : Nat := (v % 2 ^ 64).toNat

/-- Addition of two Go `int`s: it wraps around at 64 bits. -/
def addInt (a b : ℤ) : ℤ := toInt64 (toUint64 (a + b))

/-- The element `b[i]`; `none` when the index is out of range. -/
def index (b : List UInt8) (i : ℤ) : Option UInt8 :=
  if 0 ≤ i then b[i.toNat]? else none

/-- The slice `b[lo:hi]`; `none` when the bounds are out of range. -/
def slice (b : List UInt8) (lo hi : ℤ) : Option (List UInt8) :=
  if 0 ≤ lo ∧ lo ≤ hi ∧ hi ≤ b.length then some ((b.drop lo.toNat).take (hi.toNat - lo.toNat)) else none

/-! ## Constants of `module.go` -/

def FuncTypeHeader : UInt8 := 0x60
def LimitLo : UInt8 := 0x00
def LimitLoHi : UInt8 := 0x01

def CustomSection : UInt8 := 0
def TypeSection : UInt8 := 1
def ImportSection : UInt8 := 2
def FunctionSection : UInt8 := 3
def TableSection : UInt8 := 4
def MemorySection : UInt8 := 5
def GlobalSection : UInt8 := 6
def ExportSection : UInt8 := 7
def StartSection : UInt8 := 8
def ElementSection : UInt8 := 9
def CodeSection : UInt8 := 10
def DataSection : UInt8 := 11
def DataCountSection : UInt8 := 12

def Magic : List UInt8 := [0x00, 0x61, 0x73, 0x6d]
def MaxSupportedVersion : ℤ := 1

/-! ## The data model (module.go) -/

/-- Go `FuncType`; a `ResultType` is a vector of value-type bytes. -/
structure FuncType where
  Params : List UInt8
  Result : List UInt8
  deriving DecidableEq

/-- Go `Import`, with its raw description storage `tp`, `rawb [2]byte` and
`rawi [2]int`. -/
structure Import where
  Module : List UInt8
  Name : List UInt8
  tp : UInt8
  rawb0 : UInt8
  rawb1 : UInt8
  rawi0 : ℤ
  rawi1 : ℤ
  deriving DecidableEq

structure Export where
  Name : List UInt8
  ExportType : UInt8
  Index : ℤ
  deriving DecidableEq

structure Limits where
  Lo : ℤ
  Hi : ℤ
  deriving DecidableEq

structure Table where
  Typ : UInt8
  Limits : Limits
  deriving DecidableEq

structure Global where
  Typ : UInt8
  Mut : UInt8
  Expr : List UInt8
  deriving DecidableEq

structure Element where
  Typ : UInt8
  Expr : List UInt8
  Funcs : List ℤ
  deriving DecidableEq

structure Data where
  Expr : List UInt8
  Init : List UInt8
  deriving DecidableEq

structure Custom where
  Name : List UInt8
  Data : List UInt8
  deriving DecidableEq

structure FuncCode where
  Locals : List UInt8
  Expr : List UInt8
  deriving DecidableEq

/-- Go `Module` (the field `Type` is spelled `Typ`, here and in `Table`,
`Global` and `Element`).  Each list is the visible part (`[0:len]`) of the Go slice.
`ImportSpare` and `ElementSpare` hold the elements of the backing arrays of
`Import` and `Element` between `len` and `cap` that an earlier decoding
wrote: `Decoder.Import` and `Decoder.Element` start from the element already
stored at the position they fill, and re-slicing to `[:cap]` makes those
elements visible again.  Array elements never written are zero values.  The
other vectors are overwritten field by field or appended to, so what lies
beyond their length is never read. -/
structure Module where
  Version : ℤ
  DataCount : ℤ
  Start : ℤ
  Typ : List FuncType
  Import : List Import
  Function : List ℤ
  Table : List Table
  Memory : List Limits
  Global : List Global
  Export : List Export
  Element : List Element
  Code : List (List UInt8)
  Data : List Data
  Custom : List Custom
  Sections : List UInt8
  ImportSpare : List Wasm.Import
  ElementSpare : List Wasm.Element
  deriving DecidableEq

/-- The zero value `Import{}`. -/
def Import.zero : Import := ⟨[], [], 0, 0, 0, 0, 0⟩

/-- The zero value `Element{}`. -/
def Element.zero : Element := ⟨0, [], []⟩

/-- The zero value `Module{}` (a fresh module). -/
def Module.zero : Module := ⟨0, 0, 0, [], [], [], [], [], [], [], [], [], [], [], [], [], []⟩

/-- The outcome of a function that returns a value and an error but no
offset (`Decoder.Module`, `InstructionsDecoder.Func`). -/
inductive Out (α : Type) where
  | ok (v : α)
  | fail (e : Err)
  | panic
  deriving DecidableEq

/-! ## `LowDecoder` (decoder.go) -/

namespace LowDecoder

/-- Go `LowDecoder.Byte`. -/
def Byte (b : List UInt8) (st : ℤ) : Res UInt8 :=
  let i := st
  if i ≥ b.length then .fail i .ErrUnexpectedEOF
  else
    match index b i with
    | none => .panic
    | some x => .ok x (i + 1)

/-- The `for i < len(b)` loop of `LowDecoder.Uint64`; `v`, `s`, `i` are the
loop variables. -/
def Uint64.loop (b : List UInt8) (st : ℤ) : Nat → Nat → Nat → ℤ → Res Nat
  | 0, _, _, _ => .fail st .ErrUnexpectedEOF
  | fuel + 1, v, s, i =>
    if i < b.length then
      match index b i with
      | none => .panic
      | some x =>
        let v := v ||| (((x.toNat &&& 0x7f) <<< s) % 2 ^ 64)
        let i := i + 1
        let s := s + 7
        if x.toNat &&& 0x80 = 0 then .ok v i
        else if s + 7 > 64 then .fail st .ErrOverflow
        else Uint64.loop b st fuel v s i
    else .fail st .ErrUnexpectedEOF

/-- Go `LowDecoder.Uint64`: an unsigned LEB128 integer.  Every iteration
advances `i` by one, so `len(b) + 1` iterations are never exceeded. -/
def Uint64 (b : List UInt8) (st : ℤ) : Res Nat :=
  Uint64.loop b st (b.length + 1) 0 0 st

/-- Go `LowDecoder.Int`: `int(x)` of the unsigned LEB128 integer `x`. -/
def Int (b : List UInt8) (st : ℤ) : Res ℤ :=
  match Uint64 b st with
  | .ok x i => .ok (toInt64 x) i
  | .fail i e => .fail i e
  | .panic => .panic

/-- The `for i < len(b)` loop of `LowDecoder.Int64`; `v` is the bit pattern
of the accumulated `int64`. -/
def Int64.loop (b : List UInt8) (st : ℤ) : Nat → Nat → Nat → ℤ → Res ℤ
  | 0, _, _, _ => .fail st .ErrUnexpectedEOF
  | fuel + 1, v, s, i =>
    if i < b.length then
      match index b i with
      | none => .panic
      | some x =>
        let v := v ||| (((x.toNat &&& 0x7f) <<< s) % 2 ^ 64)
        let i := i + 1
        let s := s + 7
        if x.toNat &&& 0x80 = 0 then
          .ok (toInt64 ((v <<< (64 - s)) % 2 ^ 64) >>> (64 - s)) i
        else if s + 7 > 64 then .fail st .ErrOverflow
        else Int64.loop b st fuel v s i
    else .fail st .ErrUnexpectedEOF

/-- Go `LowDecoder.Int64`: a signed LEB128 integer. -/
def Int64 (b : List UInt8) (st : ℤ) : Res ℤ :=
  Int64.loop b st (b.length + 1) 0 0 st

/-- Go `LowDecoder.Float64`.  The named result `i` is never assigned before the
bytes are read, so the reads are at `b[i]`, ..., `b[i+7]` with `i = 0`.  The
result is the bit pattern handed to `math.Float64frombits`. -/
def Float64 (b : List UInt8) (st : ℤ) : Res Nat :=
  let i : ℤ := 0
  if st + 8 > b.length then .fail st .ErrUnexpectedEOF
  else
    match index b i, index b (i + 1), index b (i + 2), index b (i + 3),
          index b (i + 4), index b (i + 5), index b (i + 6), index b (i + 7) with
    | some x0, some x1, some x2, some x3, some x4, some x5, some x6, some x7 =>
      let x := x0.toNat ||| (x1.toNat <<< 8) % 2 ^ 64 ||| (x2.toNat <<< 16) % 2 ^ 64
        ||| (x3.toNat <<< 24) % 2 ^ 64 ||| (x4.toNat <<< 32) % 2 ^ 64
        ||| (x5.toNat <<< 40) % 2 ^ 64 ||| (x6.toNat <<< 48) % 2 ^ 64
        ||| (x7.toNat <<< 56) % 2 ^ 64
      .ok x (st + 8)
    | _, _, _, _, _, _, _, _ => .panic

/-- Go `LowDecoder.Name`. -/
def Name (b : List UInt8) (st : ℤ) : Res (List UInt8) :=
  match Int b st with
  | .panic => .panic
  | .fail _ e => .fail st e
  | .ok l i =>
    if addInt i l > b.length then .fail st .ErrUnexpectedEOF
    else
      match slice b i (addInt i l) with
      | none => .panic
      | some v => .ok v (addInt i l)

/-- Go `LowDecoder.BasicType`. -/
def BasicType (b : List UInt8) (st : ℤ) : Res UInt8 :=
  if st = b.length then .fail st .ErrUnexpectedEOF
  else
    match index b st with
    | none => .panic
    | some x => .ok x (st + 1)

/-- Go `LowDecoder.ResultType`.  `appendOrSet(false, tp, r1...)` returns `r1`, so
the buffer argument `buf` does not contribute to a successful result. -/
def ResultType (b : List UInt8) (st : ℤ) : Res (List UInt8) :=
  match Int b st with
  | .panic => .panic
  | .fail _ e => .fail st e
  | .ok l i =>
    if addInt i l > b.length then .fail st .ErrUnexpectedEOF
    else
      match slice b i (addInt i l) with
      | none => .panic
      | some r => .ok r (addInt i l)

/-- Go `LowDecoder.FuncType`.  Both fields of the result are assigned from the
input, so the buffer argument `buf` does not contribute to a successful
result. -/
def FuncType (b : List UInt8) (st : ℤ) : Res FuncType :=
  let i := st
  if i + 3 > b.length then .fail st .ErrUnexpectedEOF
  else
    match index b i with
    | none => .panic
    | some h =>
      if h ≠ FuncTypeHeader then .fail st (.New "expected function type, got 0x%2x" [h.toNat])
      else
        let i := i + 1
        match ResultType b i with
        | .panic => .panic
        | .fail i e => .fail i (.Wrap e "func params" [])
        | .ok params i =>
          match ResultType b i with
          | .panic => .panic
          | .fail i e => .fail i (.Wrap e "func result" [])
          | .ok result i => .ok ⟨params, result⟩ i

/-- Go `LowDecoder.Limits`; the value is the pair `(lo, hi)`. -/
def Limits (b : List UInt8) (st : ℤ) : Res (ℤ × ℤ) :=
  match Byte b st with
  | .panic => .panic
  | .fail i e => .fail i e
  | .ok tp i =>
    if tp ≠ LimitLo ∧ tp ≠ LimitLoHi then .fail st (.New "expected limit, got 0x%02x" [tp.toNat])
    else
      match Int b i with
      | .panic => .panic
      | .fail i e => .fail i e
      | .ok lo i =>
        if tp = LimitLo then .ok (lo, -1) i
        else
          match Int b i with
          | .panic => .panic
          | .fail i e => .fail i e
          | .ok hi i => .ok (lo, hi) i

/-- Go `LowDecoder.TableType`; the value is `(tp, lo, hi)`. -/
def TableType (b : List UInt8) (st : ℤ) : Res (UInt8 × ℤ × ℤ) :=
  let i := st
  if i + 3 > b.length then .fail i .ErrUnexpectedEOF
  else
    match BasicType b i with
    | .panic => .panic
    | .fail i e => .fail i e
    | .ok tp i =>
      match Limits b i with
      | .panic => .panic
      | .fail i e => .fail i e
      | .ok (lo, hi) i => .ok (tp, lo, hi) i

/-- Go `LowDecoder.GlobalType`; the value is `(tp, mut)` of the source. -/
def GlobalType (b : List UInt8) (st : ℤ) : Res (UInt8 × UInt8) :=
  let i := st
  if i + 2 > b.length then .fail i .ErrUnexpectedEOF
  else
    match index b i, index b (i + 1) with
    | some tp, some mu => .ok (tp, mu) (i + 2)
    | _, _ => .panic

/-- Go `LowDecoder.Section`: one section envelope; the value is `(id, data)`. -/
def Section (b : List UInt8) (st : ℤ) : Res (UInt8 × List UInt8) :=
  let i := st
  if i + 2 > b.length then .fail i .ErrUnexpectedEOF
  else
    match index b i with
    | none => .panic
    | some id =>
      let i := i + 1
      match Int b i with
      | .panic => .panic
      | .fail _ e => .fail st e
      | .ok l i =>
        if addInt i l > b.length then .fail st .ErrUnexpectedEOF
        else
          match slice b i (addInt i l) with
          | none => .panic
          | some data => .ok (id, data) (addInt i l)

end LowDecoder

/-! ## `InstructionsDecoder` (instructions_decoder.go) -/

def Unreachable : UInt8 := 0x00
def Nop : UInt8 := 0x01
def Block : UInt8 := 0x02
def Loop : UInt8 := 0x03
def If : UInt8 := 0x04
def Else : UInt8 := 0x05
def End : UInt8 := 0x0b
def Br : UInt8 := 0x0c
def BrIf : UInt8 := 0x0d
def BrTable : UInt8 := 0x0e
def Ret : UInt8 := 0x0f
def Call : UInt8 := 0x10
def CallIndir : UInt8 := 0x11
def Drop : UInt8 := 0x1a
def Select : UInt8 := 0x1b
def LocalGet : UInt8 := 0x20
def GlobalSet : UInt8 := 0x24
def I32Load : UInt8 := 0x28
def I64Store32 : UInt8 := 0x3e
def MemorySize : UInt8 := 0x3f
def MemoryGrow : UInt8 := 0x40
def I32Const : UInt8 := 0x41
def F64Const : UInt8 := 0x44
def I32EqZ : UInt8 := 0x45
def F64CopySign : UInt8 := 0xa6
def FCExt : UInt8 := 0xfc
def FCMemoryCopy : UInt8 := 0x0a
def FCMemoryFill : UInt8 := 0x0b

namespace InstructionsDecoder

/-- Go `InstructionsDecoder.fcExt`; it returns an offset and an error only. -/
def fcExt (b : List UInt8) (st : ℤ) : Res Unit :=
  match LowDecoder.Byte b st with
  | .panic => .panic
  | .fail i e => .fail i e
  | .ok op i =>
    if op ≠ FCExt then .fail st (.New "fc ext expected" [])
    else
      match LowDecoder.Byte b i with
      | .panic => .panic
      | .fail i e => .fail i e
      | .ok op i =>
        if op = FCMemoryCopy ∨ op = FCMemoryFill then .ok () i
        else
          match slice b (i - 1) i with
          | none => .panic
          | some args => .fail st (.UnsupportedOpcodeError FCExt args)

/-- What the `switch` of one iteration of `InstructionsDecoder.Expr` does:
it either returns from `Expr` with an error (`ret`), panics, or falls out
of the `switch` with new values of `i`, `err` and `depth` (`next`). -/
inductive Step where
  | ret (e : Err)
  | next (i : ℤ) (err : Option Err) (depth : ℤ)
  | panic
  deriving DecidableEq

/-- The result of `_, i, err = d.Int64(b, i)` as the continuation of a
`switch` case. -/
def Step.ofInt64 (r : Res ℤ) (depth : ℤ) : Step :=
  match r with
  | .panic => .panic
  | .fail i e => .next i (some e) depth
  | .ok _ i => .next i none depth

/-- The loop `for j := 0; j < l+1; j++` of the `BrTable` case, run for `k`
more iterations from offset `i`; the value is the offset reached. -/
def brTableLoop (b : List UInt8) : Nat → ℤ → Res Unit
  | 0, i => .ok () i
  | k + 1, i =>
    match LowDecoder.Int b i with
    | .panic => .panic
    | .fail i e => .fail i e
    | .ok _ i => brTableLoop b k i

/-- The `switch` of `InstructionsDecoder.Expr` for the opcode `op` read at
`opst`, with `i = opst + 1`. -/
def Expr.step (b : List UInt8) (opst : ℤ) (op : UInt8) (i : ℤ) (depth : ℤ) : Step :=
  if op ≤ Nop ∨ op = Else ∨ op = Ret then .next i none depth
  else if op = Block ∨ op = Loop ∨ op = If then .next i none (depth + 1)
  else if op = End then .next i none (depth - 1)
  else if op = Br ∨ op = BrIf then Step.ofInt64 (LowDecoder.Int64 b i) depth
  else if op = BrTable then
    match LowDecoder.Int b i with
    | .panic => .panic
    | .fail _ e => .ret e
    | .ok l i =>
      match brTableLoop b (addInt l 1).toNat i with
      | .panic => .panic
      | .fail _ e => .ret e
      | .ok _ i => .next i none depth
  else if op = Call then Step.ofInt64 (LowDecoder.Int64 b i) depth
  else if op = CallIndir then
    match LowDecoder.Int64 b i with
    | .panic => .panic
    | .fail i e => .next (i + 1) (some e) depth
    | .ok _ i => .next (i + 1) none depth
  else if op = Drop ∨ op = Select then .next i none depth
  else if op ≥ LocalGet ∧ op ≤ GlobalSet then Step.ofInt64 (LowDecoder.Int64 b i) depth
  else if op ≥ I32Load ∧ op ≤ I64Store32 then
    match LowDecoder.Int64 b i with
    | .panic => .panic
    | .fail _ e => .ret e
    | .ok _ i =>
      match LowDecoder.Int64 b i with
      | .panic => .panic
      | .fail _ e => .ret e
      | .ok _ i => .next i none depth
  else if op = MemorySize ∨ op = MemoryGrow then .next i none depth
  else if op ≥ I32Const ∧ op ≤ F64Const then Step.ofInt64 (LowDecoder.Int64 b i) depth
  else if op ≥ I32EqZ ∧ op ≤ F64CopySign then .next i none depth
  else if op = FCExt then
    match fcExt b opst with
    | .panic => .panic
    | .fail i e => .next i (some e) depth
    | .ok _ i => .next i none depth
  else .next i (some (.Wrap (.UnsupportedOpcodeError op []) "at pos 0x%x" [opst])) depth

/-- The `for i < len(b)` loop of `InstructionsDecoder.Expr`.  After the
`switch` the argument `b[opst:i]` of the log call is evaluated (a panic when
out of range), then `err` and `depth` are tested. -/
def Expr.loop (b : List UInt8) (st : ℤ) : Nat → ℤ → ℤ → Res (List UInt8)
  | 0, _, _ => .fail st .ErrUnexpectedEOF
  | fuel + 1, depth, i =>
    if i < b.length then
      let opst := i
      match index b i with
      | none => .panic
      | some op =>
        match Expr.step b opst op (i + 1) depth with
        | .panic => .panic
        | .ret e => .fail opst e
        | .next i err depth =>
          match slice b opst i with
          | none => .panic
          | some _ =>
            match err with
            | some e => .fail opst e
            | none =>
              if depth < 0 then
                match slice b st i with
                | none => .panic
                | some code => .ok code i
              else Expr.loop b st fuel depth i
    else .fail st .ErrUnexpectedEOF

/-- Go `InstructionsDecoder.Expr`.  An iteration that does not leave the loop
advances `i` by at least one, so `len(b) + 1` iterations are never
exceeded. -/
def Expr (b : List UInt8) (st : ℤ) : Res (List UInt8) :=
  Expr.loop b st (b.length + 1) 0 st

/-- One iteration of the loop of `InstructionsDecoder.Expr` that goes on to
the next iteration, as a transition of the loop state `(depth, i)`: the
opcode at `i` is consumed without an error and the expression is not closed
by it.  The value is `none` when the loop test `i < len(b)` fails or the
iteration leaves the loop (a return or a panic). -/
def Expr.iter (b : List UInt8) (depth i : ℤ) : Option (ℤ × ℤ) :=
  if i < b.length then
    match index b i with
    | none => none
    | some op =>
      match Expr.step b i op (i + 1) depth with
      | .next j none d =>
        match slice b i j with
        | none => none
        | some _ => if d < 0 then none else some (d, j)
      | _ => none
  else none

/-- The loop state `(depth, i)` of `InstructionsDecoder.Expr(b, st)` at the
start of iteration `n`, when none of the `n` iterations before it left the
loop. -/
def Expr.reach (b : List UInt8) (st : ℤ) : Nat → Option (ℤ × ℤ)
  | 0 => some (0, st)
  | n + 1 =>
    match Expr.reach b st n with
    | none => none
    | some (depth, i) => Expr.iter b depth i

/-- The loop `for n := 0; n < l; n++` of `InstructionsDecoder.Func`, run for
`k` more iterations; the value is `f.Locals`. -/
def Func.loop (b : List UInt8) : Nat → ℤ → List UInt8 → Res (List UInt8)
  | 0, i, locals => .ok locals i
  | k + 1, i, locals =>
    match LowDecoder.Int b i with
    | .panic => .panic
    | .fail i e => .fail i e
    | .ok cnt i =>
      match LowDecoder.Byte b i with
      | .panic => .panic
      | .fail i e => .fail i e
      | .ok tp i => Func.loop b k i (locals ++ List.replicate cnt.toNat tp)

/-- Go `InstructionsDecoder.Func`.  `f.Locals` is truncated before it is
filled and `f.Expr` is assigned, so the argument `buf` does not contribute
to a successful result. -/
def Func (b : List UInt8) : Out FuncCode :=
  match LowDecoder.Int b 0 with
  | .panic => .panic
  | .fail _ e => .fail e
  | .ok l i =>
    match Func.loop b l.toNat i [] with
    | .panic => .panic
    | .fail _ e => .fail e
    | .ok locals i =>
      match Expr b i with
      | .panic => .panic
      | .fail _ e => .fail (.Wrap e "expr" [])
      | .ok code i =>
        if i ≠ b.length then .fail .ErrSizeMismatch
        else .ok ⟨locals, code⟩

end InstructionsDecoder

/-! ## `Decoder` (decoder.go) -/

/-- The function `common`: the length of the longest common beginning. -/
def common : List UInt8 → List UInt8 → ℤ
  | x :: a, y :: b => if x = y then common a b + 1 else 0
  | _, _ => 0

/-- The value of `binary.LittleEndian.Uint32(s)`; `none` when `s` is shorter
than four bytes (a panic). -/
def leUint32 : List UInt8 → Option Nat
  | x0 :: x1 :: x2 :: x3 :: _ =>
    some (x0.toNat ||| x1.toNat <<< 8 ||| x2.toNat <<< 16 ||| x3.toNat <<< 24)
  | _ => none

namespace Decoder

/-- Go `Decoder.sectionHeader`; the value is `end`. -/
def sectionHeader (b : List UInt8) (st : ℤ) (sect : UInt8) : Res ℤ :=
  match LowDecoder.Byte b st with
  | .panic => .panic
  | .fail i e => .fail i e
  | .ok tp i =>
    if tp ≠ sect then .fail st (.New "unexpected section id: %d, wanted %d" [tp.toNat, sect.toNat])
    else
      match LowDecoder.Int b i with
      | .panic => .panic
      | .fail i e => .fail i (.Wrap e "section size" [])
      | .ok size i => .ok (addInt i size) i

/-- Go `Decoder.sectionHeaderLen`; the value is `(l, end)`. -/
def sectionHeaderLen (b : List UInt8) (st : ℤ) (sect : UInt8) : Res (ℤ × ℤ) :=
  match sectionHeader b st sect with
  | .panic => .panic
  | .fail i e => .fail i e
  | .ok en i =>
    match LowDecoder.Int b i with
    | .panic => .panic
    | .fail i e => .fail i (.Wrap e "vector length" [])
    | .ok l i => .ok (l, en) i

/-- Go `Decoder.CustomSection`. -/
def CustomSection (b : List UInt8) (st : ℤ) (m : Module) : Res Module :=
  match sectionHeader b st Wasm.CustomSection with
  | .panic => .panic
  | .fail i e => .fail i e
  | .ok en i =>
    match LowDecoder.Name b i with
    | .panic => .panic
    | .fail _ e => .fail st (.Wrap e "name" [])
    | .ok name i =>
      match slice b i en with
      | none => .panic
      | some data => .ok { m with Custom := m.Custom ++ [⟨name, data⟩] } en

/-- The loop of `Decoder.TypeSection`, run for `k` more iterations with
`n` the index of the next entry. -/
def TypeSection.loop (b : List UInt8) : Nat → Nat → ℤ → List FuncType → Res (List FuncType)
  | 0, _, i, acc => .ok acc i
  | k + 1, n, i, acc =>
    match LowDecoder.FuncType b i with
    | .panic => .panic
    | .fail i e => .fail i (.Wrap e "func %d" [n])
    | .ok fn i => TypeSection.loop b k (n + 1) i (acc ++ [fn])

/-- Go `Decoder.TypeSection`.  The final `m.Type[:l]` panics for a negative
`l`; the same holds in the other sections that re-slice to `[:l]`. -/
def TypeSection (b : List UInt8) (st : ℤ) (m : Module) : Res Module :=
  match sectionHeaderLen b st Wasm.TypeSection with
  | .panic => .panic
  | .fail i e => .fail i e
  | .ok (l, en) i =>
    match TypeSection.loop b l.toNat 0 i [] with
    | .panic => .panic
    | .fail i e => .fail i e
    | .ok tps i =>
      if l < 0 then .panic
      else if i ≠ en then .fail st .ErrSizeMismatch
      else .ok { m with Typ := tps } i

/-- Go `Decoder.Import`: `buf` is the element already stored at the position
being filled. -/
def Import (b : List UInt8) (st : ℤ) (buf : Import) : Res Import :=
  let im := buf
  match LowDecoder.Name b st with
  | .panic => .panic
  | .fail i e => .fail i (.Wrap e "module" [])
  | .ok x i =>
    let im := { im with Module := x }
    match LowDecoder.Name b i with
    | .panic => .panic
    | .fail i e => .fail i (.Wrap e "name" [])
    | .ok x i =>
      let im := { im with Name := x }
      if i + 2 > b.length then .fail i .ErrUnexpectedEOF
      else
        match index b i with
        | none => .panic
        | some tp =>
          let im := { im with tp := tp }
          let i := i + 1
          if tp = 0 then
            match LowDecoder.Int b i with
            | .panic => .panic
            | .fail i e => .fail i (.Wrap e "type index" [])
            | .ok x i => .ok { im with rawi0 := x } i
          else if tp = 1 then
            match LowDecoder.TableType b i with
            | .panic => .panic
            | .fail i e => .fail i (.Wrap e "table type" [])
            | .ok (t, lo, hi) i => .ok { im with rawb0 := t, rawi0 := lo, rawi1 := hi } i
          else if tp = 2 then
            match LowDecoder.Limits b i with
            | .panic => .panic
            | .fail i e => .fail i (.Wrap e "memory limits" [])
            | .ok (lo, hi) i => .ok { im with rawi0 := lo, rawi1 := hi } i
          else if tp = 3 then
            match LowDecoder.GlobalType b i with
            | .panic => .panic
            | .fail i e => .fail i (.Wrap e "global type" [])
            | .ok (t, mu) i => .ok { im with rawb0 := t, rawb1 := mu } i
          else .fail (i - 1) (.New "unsupported import description type: 0x%02x" [tp.toNat])

/-- The loop of `Decoder.ImportSection`; `old` is the backing array of
`m.Import` before the call. -/
def ImportSection.loop (b : List UInt8) (old : List Wasm.Import) :
    Nat → Nat → ℤ → List Wasm.Import → Res (List Wasm.Import)
  | 0, _, i, acc => .ok acc i
  | k + 1, n, i, acc =>
    match Import b i (old.getD n Import.zero) with
    | .panic => .panic
    | .fail i e => .fail i (.Wrap e "import %d" [n])
    | .ok im i => ImportSection.loop b old k (n + 1) i (acc ++ [im])

/-- Go `Decoder.ImportSection`. -/
def ImportSection (b : List UInt8) (st : ℤ) (m : Module) : Res Module :=
  match sectionHeaderLen b st Wasm.ImportSection with
  | .panic => .panic
  | .fail i e => .fail i e
  | .ok (l, en) i =>
    match ImportSection.loop b (m.Import ++ m.ImportSpare) l.toNat 0 i [] with
    | .panic => .panic
    | .fail i e => .fail i e
    | .ok ims i =>
      if l < 0 then .panic
      else if i ≠ en then .fail st .ErrSizeMismatch
      else .ok { m with Import := ims, ImportSpare := (m.Import ++ m.ImportSpare).drop l.toNat } i

/-- Go `Decoder.Export`.  Every field of the result is assigned, so `buf` does
not contribute to a successful result. -/
def Export (b : List UInt8) (st : ℤ) : Res Export :=
  match LowDecoder.Name b st with
  | .panic => .panic
  | .fail i e => .fail i (.Wrap e "name" [])
  | .ok x i =>
    if i + 2 > b.length then .fail i .ErrUnexpectedEOF
    else
      match index b i with
      | none => .panic
      | some et =>
        let i := i + 1
        match LowDecoder.Int b i with
        | .panic => .panic
        | .fail _ e => .fail st (.Wrap e "index" [])
        | .ok idx i => .ok ⟨x, et, idx⟩ i

/-- The loop of `Decoder.ExportSection`. -/
def ExportSection.loop (b : List UInt8) : Nat → Nat → ℤ → List Wasm.Export → Res (List Wasm.Export)
  | 0, _, i, acc => .ok acc i
  | k + 1, n, i, acc =>
    match Export b i with
    | .panic => .panic
    | .fail i e => .fail i (.Wrap e "export %d" [n])
    | .ok ex i => ExportSection.loop b k (n + 1) i (acc ++ [ex])

/-- Go `Decoder.ExportSection`. -/
def ExportSection (b : List UInt8) (st : ℤ) (m : Module) : Res Module :=
  match sectionHeaderLen b st Wasm.ExportSection with
  | .panic => .panic
  | .fail i e => .fail i e
  | .ok (l, en) i =>
    match ExportSection.loop b l.toNat 0 i [] with
    | .panic => .panic
    | .fail i e => .fail i e
    | .ok exs i =>
      if l < 0 then .panic
      else if i ≠ en then .fail st .ErrSizeMismatch
      else .ok { m with Export := exs } i

/-- The loop of `Decoder.FunctionSection`. -/
def FunctionSection.loop (b : List UInt8) : Nat → Nat → ℤ → List ℤ → Res (List ℤ)
  | 0, _, i, acc => .ok acc i
  | k + 1, n, i, acc =>
    match LowDecoder.Int b i with
    | .panic => .panic
    | .fail i e => .fail i (.Wrap e "func %d" [n])
    | .ok f i => FunctionSection.loop b k (n + 1) i (acc ++ [f])

/-- Go `Decoder.FunctionSection`. -/
def FunctionSection (b : List UInt8) (st : ℤ) (m : Module) : Res Module :=
  match sectionHeaderLen b st Wasm.FunctionSection with
  | .panic => .panic
  | .fail i e => .fail i e
  | .ok (l, en) i =>
    match FunctionSection.loop b l.toNat 0 i [] with
    | .panic => .panic
    | .fail i e => .fail i e
    | .ok fs i =>
      if i ≠ en then .fail st .ErrSizeMismatch
      else .ok { m with Function := fs } i

/-- The loop of `Decoder.TableSection`. -/
def TableSection.loop (b : List UInt8) : Nat → Nat → ℤ → List Table → Res (List Table)
  | 0, _, i, acc => .ok acc i
  | k + 1, n, i, acc =>
    match LowDecoder.TableType b i with
    | .panic => .panic
    | .fail i e => .fail i (.Wrap e "table %d" [n])
    | .ok (tp, lo, hi) i => TableSection.loop b k (n + 1) i (acc ++ [⟨tp, ⟨lo, hi⟩⟩])

/-- Go `Decoder.TableSection`. -/
def TableSection (b : List UInt8) (st : ℤ) (m : Module) : Res Module :=
  match sectionHeaderLen b st Wasm.TableSection with
  | .panic => .panic
  | .fail i e => .fail i e
  | .ok (l, en) i =>
    match TableSection.loop b l.toNat 0 i [] with
    | .panic => .panic
    | .fail i e => .fail i e
    | .ok ts i =>
      if i ≠ en then .fail st .ErrSizeMismatch
      else .ok { m with Table := ts } i

/-- The loop of `Decoder.MemorySection`. -/
def MemorySection.loop (b : List UInt8) : Nat → Nat → ℤ → List Limits → Res (List Limits)
  | 0, _, i, acc => .ok acc i
  | k + 1, n, i, acc =>
    match LowDecoder.Limits b i with
    | .panic => .panic
    | .fail i e => .fail i (.Wrap e "memory %d" [n])
    | .ok (lo, hi) i => MemorySection.loop b k (n + 1) i (acc ++ [⟨lo, hi⟩])

/-- Go `Decoder.MemorySection`. -/
def MemorySection (b : List UInt8) (st : ℤ) (m : Module) : Res Module :=
  match sectionHeaderLen b st Wasm.MemorySection with
  | .panic => .panic
  | .fail i e => .fail i e
  | .ok (l, en) i =>
    match MemorySection.loop b l.toNat 0 i [] with
    | .panic => .panic
    | .fail i e => .fail i e
    | .ok ms i =>
      if i ≠ en then .fail st .ErrSizeMismatch
      else .ok { m with Memory := ms } i

/-- The loop of `Decoder.GlobalSection`. -/
def GlobalSection.loop (b : List UInt8) : Nat → Nat → ℤ → List Global → Res (List Global)
  | 0, _, i, acc => .ok acc i
  | k + 1, n, i, acc =>
    match LowDecoder.GlobalType b i with
    | .panic => .panic
    | .fail i e => .fail i (.Wrap e "global type %d" [n])
    | .ok (tp, mu) i =>
      match InstructionsDecoder.Expr b i with
      | .panic => .panic
      | .fail i e => .fail i (.Wrap e "global code %d" [n])
      | .ok code i => GlobalSection.loop b k (n + 1) i (acc ++ [⟨tp, mu, code⟩])

/-- Go `Decoder.GlobalSection`. -/
def GlobalSection (b : List UInt8) (st : ℤ) (m : Module) : Res Module :=
  match sectionHeaderLen b st Wasm.GlobalSection with
  | .panic => .panic
  | .fail i e => .fail i e
  | .ok (l, en) i =>
    match GlobalSection.loop b l.toNat 0 i [] with
    | .panic => .panic
    | .fail i e => .fail i e
    | .ok gs i =>
      if l < 0 then .panic
      else if i ≠ en then .fail st .ErrSizeMismatch
      else .ok { m with Global := gs } i

/-- The loop `for j := 0; j < l; j++` of `Decoder.Element`. -/
def Element.loop (b : List UInt8) : Nat → ℤ → List ℤ → Res (List ℤ)
  | 0, i, funcs => .ok funcs i
  | k + 1, i, funcs =>
    match LowDecoder.Int b i with
    | .panic => .panic
    | .fail i e => .fail i (.Wrap e "func id" [])
    | .ok id i => Element.loop b k i (funcs ++ [id])

/-- Go `Decoder.Element`: `buf` is the element already stored at the position
being filled; its `Funcs` are appended to and its `Type` is kept. -/
def Element (b : List UInt8) (st : ℤ) (buf : Element) : Res Element :=
  let el := buf
  match LowDecoder.Byte b st with
  | .panic => .panic
  | .fail i e => .fail i e
  | .ok tp i =>
    if tp = 0 then
      match InstructionsDecoder.Expr b i with
      | .panic => .panic
      | .fail i e => .fail i (.Wrap e "expr" [])
      | .ok code i =>
        let el := { el with Expr := code }
        match LowDecoder.Int b i with
        | .panic => .panic
        | .fail i e => .fail i (.Wrap e "funcs" [])
        | .ok l i =>
          match Element.loop b l.toNat i el.Funcs with
          | .panic => .panic
          | .fail i e => .fail i e
          | .ok funcs i => .ok { el with Funcs := funcs } i
    else .fail st (.New "unsupported elem: 0x%02x" [tp.toNat])

/-- The loop of `Decoder.ElementSection`; `old` is the backing array of
`m.Element` before the call. -/
def ElementSection.loop (b : List UInt8) (old : List Wasm.Element) :
    Nat → Nat → ℤ → List Wasm.Element → Res (List Wasm.Element)
  | 0, _, i, acc => .ok acc i
  | k + 1, n, i, acc =>
    match Element b i (old.getD n Element.zero) with
    | .panic => .panic
    | .fail i e => .fail i (.Wrap e "element %d" [n])
    | .ok el i => ElementSection.loop b old k (n + 1) i (acc ++ [el])

/-- Go `Decoder.ElementSection`. -/
def ElementSection (b : List UInt8) (st : ℤ) (m : Module) : Res Module :=
  match sectionHeaderLen b st Wasm.ElementSection with
  | .panic => .panic
  | .fail i e => .fail i e
  | .ok (l, en) i =>
    match ElementSection.loop b (m.Element ++ m.ElementSpare) l.toNat 0 i [] with
    | .panic => .panic
    | .fail i e => .fail i e
    | .ok els i =>
      if l < 0 then .panic
      else if i ≠ en then .fail st .ErrSizeMismatch
      else .ok { m with Element := els, ElementSpare := (m.Element ++ m.ElementSpare).drop l.toNat } i

/-- Go `Decoder.DataCountSection`. -/
def DataCountSection (b : List UInt8) (st : ℤ) (m : Module) : Res Module :=
  match sectionHeaderLen b st Wasm.DataCountSection with
  | .panic => .panic
  | .fail i e => .fail i e
  | .ok (l, en) i =>
    if i ≠ en then .fail st .ErrSizeMismatch
    else .ok { m with DataCount := l } i

/-- Go `Decoder.StartSection`. -/
def StartSection (b : List UInt8) (st : ℤ) (m : Module) : Res Module :=
  match sectionHeaderLen b st Wasm.StartSection with
  | .panic => .panic
  | .fail i e => .fail i e
  | .ok (l, en) i =>
    if i ≠ en then .fail st .ErrSizeMismatch
    else .ok { m with Start := l } i

/-- The loop of `Decoder.CodeSection`. -/
def CodeSection.loop (b : List UInt8) : Nat → Nat → ℤ → List (List UInt8) → Res (List (List UInt8))
  | 0, _, i, acc => .ok acc i
  | k + 1, n, i, acc =>
    match LowDecoder.Int b i with
    | .panic => .panic
    | .fail i e => .fail i (.Wrap e "code %d" [n])
    | .ok size i =>
      if addInt i size > b.length then .fail i (.Wrap .ErrUnexpectedEOF "code %d" [n])
      else
        match slice b i (addInt i size) with
        | none => .panic
        | some code => CodeSection.loop b k (n + 1) (addInt i size) (acc ++ [code])

/-- Go `Decoder.CodeSection`. -/
def CodeSection (b : List UInt8) (st : ℤ) (m : Module) : Res Module :=
  match sectionHeaderLen b st Wasm.CodeSection with
  | .panic => .panic
  | .fail i e => .fail i e
  | .ok (l, en) i =>
    match CodeSection.loop b l.toNat 0 i [] with
    | .panic => .panic
    | .fail i e => .fail i e
    | .ok cs i =>
      if l < 0 then .panic
      else if i ≠ en then .fail st .ErrSizeMismatch
      else .ok { m with Code := cs } i

/-- The loop of `Decoder.DataSection`; `st` is the offset of the section. -/
def DataSection.loop (b : List UInt8) (st : ℤ) : Nat → Nat → ℤ → List Data → Res (List Data)
  | 0, _, i, acc => .ok acc i
  | k + 1, n, i, acc =>
    match LowDecoder.Byte b i with
    | .panic => .panic
    | .fail i e => .fail i e
    | .ok tp i =>
      if tp = 0 then
        match InstructionsDecoder.Expr b i with
        | .panic => .panic
        | .fail i e => .fail i (.Wrap e "data %d: expr" [n])
        | .ok code i =>
          match LowDecoder.Int b i with
          | .panic => .panic
          | .fail _ e => .fail st (.Wrap e "data %d: init size" [n])
          | .ok size i =>
            if addInt i size > b.length then .fail st (.Wrap .ErrUnexpectedEOF "data %d: init" [n])
            else
              match slice b i (addInt i size) with
              | none => .panic
              | some ini => DataSection.loop b st k (n + 1) (addInt i size) (acc ++ [⟨code, ini⟩])
      else .fail st (.New "data %d: unsupported data type: 0x%02x" [n, tp.toNat])

/-- Go `Decoder.DataSection`. -/
def DataSection (b : List UInt8) (st : ℤ) (m : Module) : Res Module :=
  match sectionHeaderLen b st Wasm.DataSection with
  | .panic => .panic
  | .fail i e => .fail i e
  | .ok (l, en) i =>
    match DataSection.loop b st l.toNat 0 i [] with
    | .panic => .panic
    | .fail i e => .fail i e
    | .ok ds i =>
      if l < 0 then .panic
      else if i ≠ en then .fail st .ErrSizeMismatch
      else .ok { m with Data := ds } i

/-- The `switch id` of `Decoder.Module`; `none` is the `default` case. -/
def Module.dispatch (b : List UInt8) (id : UInt8) (i : ℤ) (m : Module) : Option (Res Module) :=
  if id = Wasm.CustomSection then some (CustomSection b i m)
  else if id = Wasm.TypeSection then some (TypeSection b i m)
  else if id = Wasm.ImportSection then some (ImportSection b i m)
  else if id = Wasm.FunctionSection then some (FunctionSection b i m)
  else if id = Wasm.TableSection then some (TableSection b i m)
  else if id = Wasm.MemorySection then some (MemorySection b i m)
  else if id = Wasm.GlobalSection then some (GlobalSection b i m)
  else if id = Wasm.ExportSection then some (ExportSection b i m)
  else if id = Wasm.ElementSection then some (ElementSection b i m)
  else if id = Wasm.CodeSection then some (CodeSection b i m)
  else if id = Wasm.DataSection then some (DataSection b i m)
  else if id = Wasm.DataCountSection then some (DataCountSection b i m)
  else if id = Wasm.StartSection then some (StartSection b i m)
  else none

/-- The loop `for i < len(b)` of `Decoder.Module`.  A failure carries the
value of `i` at the `return`, which the deferred function reports. -/
def Module.loop (b : List UInt8) : Nat → ℤ → Module → Res Module
  | 0, i, m => .ok m i
  | fuel + 1, i, m =>
    if i < b.length then
      match index b i with
      | none => .panic
      | some id =>
        let m := { m with Sections := m.Sections ++ [id] }
        match LowDecoder.Int b (i + 1) with
        | .panic => .panic
        | .fail _ e => .fail i (.Wrap e "section size" [])
        | .ok size en =>
          let en := addInt en size
          if en > b.length then .fail i .ErrUnexpectedEOF
          else
            match Module.dispatch b id i m with
            | none => .fail i (.New "unsupported section id: 0x%02x" [id.toNat])
            | some .panic => .panic
            | some (.fail i e) => .fail i (.Wrap e "section id %x" [id.toNat])
            | some (.ok m _) => Module.loop b fuel en m
    else .ok m i

/-- The body of `Decoder.Module`, decoding `b` into the module `m`.  A
failure carries the value of the local `i` at the `return`.  An iteration
of the section loop that does not return moves `i` forward by at least two
bytes, so `len(b)` iterations are never exceeded. -/
def Module.body (b : List UInt8) (m : Module) : Res Module :=
  let i : ℤ := 0
  match slice b i b.length with
  | none => .panic
  | some bi =>
    if common bi Magic ≠ Magic.length then .fail i .ErrMagic
    else
      let i := i + Magic.length
      if i + 4 > b.length then .fail i .ErrUnexpectedEOF
      else
        match (slice b i b.length).bind leUint32 with
        | none => .panic
        | some ver =>
          let m := { m with Version := (ver : ℤ) }
          let i := i + 4
          if m.Version > MaxSupportedVersion then .fail i .ErrUnsupportedVersion
          else
            let m := { m with Start := -1, DataCount := 0 }
            Module.loop b b.length i m

/-- The deferred function of `Decoder.Module`: a returned error is wrapped
with the final value of `i`. -/
def Module.deferred (r : Res Module) : Out Module :=
  match r with
  | .panic => .panic
  | .fail i e => .fail (.Wrap e "at pos 0x%x" [i])
  | .ok m _ => .ok m

/-- Go `Decoder.Module`. -/
def Module (b : List UInt8) (m : Module) : Out Module :=
  Module.deferred (Module.body b m)

end Decoder

/-! ## `LowEncoder` (encoder.go) -/

namespace LowEncoder

/-- The `for` loop of `LowEncoder.Uint64`. -/
def Uint64.loop : Nat → List UInt8 → Nat → List UInt8
  | 0, b, _ => b
  | fuel + 1, b, v =>
    let x := (v % 256) &&& 0x7f
    let v := v >>> 7
    let x := if v ≠ 0 then x ||| 0x80 else x
    let b := b ++ [UInt8.ofNat x]
    if x &&& 0x80 = 0 then b else Uint64.loop fuel b v

/-- Go `LowEncoder.Uint64`.  The argument is taken as a `uint64`; it is zero
after at most ten shifts by seven bits. -/
def Uint64 (b : List UInt8) (v : Nat) : List UInt8 :=
  Uint64.loop 10 b (v % 2 ^ 64)

/-- Go `LowEncoder.Int`: `e.Uint64(b, uint64(v))`. -/
def Int (b : List UInt8) (v : ℤ) : List UInt8 :=
  Uint64 b (toUint64 v)

/-- The `for` loop of `LowEncoder.Int64`; `v >>= 7` is the arithmetic
shift. -/
def Int64.loop : Nat → List UInt8 → ℤ → List UInt8
  | 0, b, _ => b
  | fuel + 1, b, v =>
    let x := (toUint64 v % 256) &&& 0x7f
    let s := (toUint64 v % 256) &&& 0x40
    let v := v >>> 7
    let x := if (s = 0 ∧ v ≠ 0) ∨ (s ≠ 0 ∧ v ≠ -1) then x ||| 0x80 else x
    let b := b ++ [UInt8.ofNat x]
    if x &&& 0x80 = 0 then b else Int64.loop fuel b v

/-- Go `LowEncoder.Int64`.  The argument is taken as an `int64`; it is `0` or
`-1` after at most ten shifts by seven bits. -/
def Int64 (b : List UInt8) (v : ℤ) : List UInt8 :=
  Int64.loop 10 b (toInt64 (toUint64 v))

/-- Go `LowEncoder.Float64`; `x` is the bit pattern `math.Float64bits(v)`. -/
def Float64 (b : List UInt8) (x : Nat) : List UInt8 :=
  b ++ [UInt8.ofNat x, UInt8.ofNat (x >>> 8), UInt8.ofNat (x >>> 16), UInt8.ofNat (x >>> 24),
    UInt8.ofNat (x >>> 32), UInt8.ofNat (x >>> 40), UInt8.ofNat (x >>> 48), UInt8.ofNat (x >>> 56)]

/-- Go `LowEncoder.Name`; the string is given by its bytes. -/
def Name (b : List UInt8) (v : List UInt8) : List UInt8 :=
  Int b v.length ++ v

/-- Go `LowEncoder.BasicType`. -/
def BasicType (b : List UInt8) (tp : UInt8) : List UInt8 :=
  b ++ [tp]

/-- Go `LowEncoder.ResultType`. -/
def ResultType (b : List UInt8) (tp : List UInt8) : List UInt8 :=
  Int b tp.length ++ tp

/-- Go `LowEncoder.FuncType`. -/
def FuncType (b : List UInt8) (params result : List UInt8) : List UInt8 :=
  ResultType (ResultType (b ++ [FuncTypeHeader]) params) result

/-- Go `LowEncoder.Limits`. -/
def Limits (b : List UInt8) (lo hi : ℤ) : List UInt8 :=
  if hi < 0 then Int (b ++ [LimitLo]) lo
  else Int (Int (b ++ [LimitLoHi]) lo) hi

/-- Go `LowEncoder.TableType`. -/
def TableType (b : List UInt8) (tp : UInt8) (lo hi : ℤ) : List UInt8 :=
  Limits (b ++ [tp]) lo hi

/-- Go `LowEncoder.GlobalType`. -/
def GlobalType (b : List UInt8) (tp mu : UInt8) : List UInt8 :=
  b ++ [tp, mu]

/-- Go `LowEncoder.Section`. -/
def Section (b : List UInt8) (id : UInt8) (data : List UInt8) : List UInt8 :=
  Int (b ++ [id]) data.length ++ data

end LowEncoder

/-! ## The value of a run of LEB128 groups

The properties of the LEB128 decoders are stated against the sum of the
seven-bit groups of the bytes read. -/

/-- The sum over `j < k` of `(b[st+j] & 0x7f) * 2^(7j)`; a byte outside the
buffer counts as zero. -/
def groupSum (b : List UInt8) (st : ℤ) : Nat → Nat
  | 0 => 0
  | k + 1 => groupSum b st k + (((index b (st + k)).getD 0).toNat &&& 0x7f) * 2 ^ (7 * k)

/-! ## The locals groups of a code entry

The property of `FuncCode.Locals` is stated against the groups read
independently of `InstructionsDecoder.Func`. -/

/-- The `k` groups `(cnt, tp)` (an unsigned LEB count, then a type byte) read
one after the other from offset `i` of `b`, with the offset after the last
one; `none` when a group does not decode. -/
def localsGroups (b : List UInt8) : Nat → ℤ → Option (List (ℤ × UInt8) × ℤ)
  | 0, i => some ([], i)
  | k + 1, i =>
    match LowDecoder.Int b i with
    | .ok cnt i1 =>
      match LowDecoder.Byte b i1 with
      | .ok tp i2 => (localsGroups b k i2).map (fun r => ((cnt, tp) :: r.1, r.2))
      | _ => none
    | _ => none

/-! ## Section envelopes of a module image

The properties of `Module.Sections`, `Module.Start` and `Module.DataCount`
are stated against the list of section envelopes of the input, read
independently of `Decoder.Module` with `LowDecoder.Section`. -/

/-- The envelopes `(id, payload)` read one after the other with
`LowDecoder.Section` from offset `i` to the end of `b`; `none` when an
envelope does not decode (or the fuel runs out before the end). -/
def envelopes.loop (b : List UInt8) : Nat → ℤ → Option (List (UInt8 × List UInt8))
  | 0, i => if i < b.length then none else some []
  | fuel + 1, i =>
    if i < b.length then
      match LowDecoder.Section b i with
      | .ok e j => (envelopes.loop b fuel j).map (fun es => e :: es)
      | _ => none
    else some []

/-- The section envelopes of the module image `b`, which start after the
eight header bytes. -/
def envelopes (b : List UInt8) : Option (List (UInt8 × List UInt8)) :=
  envelopes.loop b b.length 8


/-! ## Bit-level facts -/

set_option maxRecDepth 100000 in
theorem and_80_eq_zero_iff : ∀ n, n < 256 → (n &&& 0x80 = 0 ↔ n < 128) := by decide

set_option maxRecDepth 100000 in
theorem or_80_eq_add : ∀ n, n < 128 → (n ||| 0x80 = n + 128) := by decide

theorem and_7f_eq_mod (n : Nat) : n &&& 0x7f = n % 128 :=
  Nat.and_pow_two_sub_one_eq_mod n 7

theorem or_shiftLeft_eq_add (acc g s : Nat) (h : acc < 2 ^ s) :
    acc ||| g <<< s = acc + g * 2 ^ s := by
  rw [Nat.shiftLeft_eq, Nat.or_comm, Nat.mul_comm, ← Nat.mul_add_lt_is_or h, Nat.add_comm]

theorem UInt8.toNat_ofNat_lt (n : Nat) (h : n < 256) : (UInt8.ofNat n).toNat = n := by
  simp [UInt8.ofNat, UInt8.toNat]
  omega

theorem byte_and_80_eq_zero_iff (x : UInt8) : x.toNat &&& 0x80 = 0 ↔ x.toNat < 128 :=
  and_80_eq_zero_iff x.toNat (UInt8.toNat_lt_size x)

/-! ## Buffers -/

theorem index_append_right (p r : List UInt8) (x : UInt8) :
    index (p ++ x :: r) (p.length : ℤ) = some x := by
  unfold index
  rw [if_pos (by omega), Int.toNat_ofNat, List.getElem?_append_right (le_refl _)]
  simp

theorem index_some_lt {b : List UInt8} {i : ℤ} {x : UInt8} (h : index b i = some x) :
    0 ≤ i ∧ i < b.length := by
  unfold index at h
  split at h
  · rename_i h0
    have := List.getElem?_eq_some_iff.mp h
    obtain ⟨hlt, -⟩ := this
    omega
  · cases h


/-! ## Unsigned LEB128: the encoder -/

theorem LowEncoder.Uint64_loop_succ (n : Nat) (b : List UInt8) (v : Nat) :
    LowEncoder.Uint64.loop (n + 1) b v =
      if v / 128 = 0 then b ++ [UInt8.ofNat (v % 128)]
      else LowEncoder.Uint64.loop n (b ++ [UInt8.ofNat (v % 128 + 128)]) (v / 128) := by
  have hx : (v % 256) &&& 0x7f = v % 128 := by
    rw [and_7f_eq_mod]; omega
  have hlt : v % 128 < 128 := Nat.mod_lt _ (by norm_num)
  rw [LowEncoder.Uint64.loop]
  simp only [hx, Nat.shiftRight_eq_div_pow]
  by_cases hv : v / 128 = 0
  · have h1 : v % 128 &&& 0x80 = 0 := (and_80_eq_zero_iff _ (by omega)).mpr hlt
    simp [hv, h1]
  · have h2 : ¬ ((v % 128 + 128) &&& 0x80 = 0) := by
      intro h
      have := (and_80_eq_zero_iff _ (by omega)).mp h
      omega
    have hv7 : ¬ (v / 2 ^ 7 = 0) := by simpa using hv
    simp only [ne_eq, hv7, not_false_eq_true, if_true, or_80_eq_add _ hlt, h2, if_false]
    simp [hv]

theorem LowEncoder.Uint64_loop_append (n : Nat) : ∀ (b : List UInt8) (v : Nat),
    LowEncoder.Uint64.loop n b v = b ++ LowEncoder.Uint64.loop n [] v := by
  induction n with
  | zero => intro b v; simp [LowEncoder.Uint64.loop]
  | succ n ih =>
    intro b v
    rw [LowEncoder.Uint64_loop_succ, LowEncoder.Uint64_loop_succ]
    split
    · simp
    · rw [ih (b ++ _), ih ([] ++ _)]; simp

theorem LowEncoder.Uint64_append (b : List UInt8) (v : Nat) :
    LowEncoder.Uint64 b v = b ++ LowEncoder.Uint64 [] v := by
  unfold LowEncoder.Uint64
  exact LowEncoder.Uint64_loop_append _ _ _

theorem LowEncoder.Int_append (b : List UInt8) (v : ℤ) :
    LowEncoder.Int b v = b ++ LowEncoder.Int [] v := by
  unfold LowEncoder.Int
  exact LowEncoder.Uint64_append _ _

/-! ## Unsigned LEB128: the decoder -/

theorem LowDecoder.Uint64_loop_step (b : List UInt8) (st : ℤ) (f acc s : Nat) (i : ℤ) (x : UInt8)
    (hx : index b i = some x) :
    LowDecoder.Uint64.loop b st (f + 1) acc s i =
      if x.toNat < 128 then .ok (acc ||| ((x.toNat % 128) <<< s) % 2 ^ 64) (i + 1)
      else if s + 7 + 7 > 64 then .fail st .ErrOverflow
      else LowDecoder.Uint64.loop b st f (acc ||| ((x.toNat % 128) <<< s) % 2 ^ 64) (s + 7) (i + 1) := by
  have hi := index_some_lt hx
  rw [LowDecoder.Uint64.loop]
  simp only [hi.2, if_true, hx, and_7f_eq_mod, byte_and_80_eq_zero_iff]

/-- Decoding what the encoder loop wrote for `v`, at shift `7 * k`. -/
theorem LowDecoder.Uint64_loop_encode (n : Nat) : ∀ (v acc k f : Nat) (p r : List UInt8) (st : ℤ),
    v < 2 ^ (7 * n) → v * 2 ^ (7 * k) < 2 ^ 63 → acc < 2 ^ (7 * k) →
    (LowEncoder.Uint64.loop n [] v).length ≤ f → 0 < n →
    LowDecoder.Uint64.loop (p ++ LowEncoder.Uint64.loop n [] v ++ r) st f acc (7 * k) p.length
      = .ok (acc + v * 2 ^ (7 * k)) ((p ++ LowEncoder.Uint64.loop n [] v).length : ℕ) := by
  induction n with
  | zero => intro v acc k f p r st _ _ _ _ h; omega
  | succ n ih =>
    intro v acc k f p r st hv hk hacc hf _
    have hpos : 0 < (LowEncoder.Uint64.loop (n + 1) [] v).length := by
      rw [LowEncoder.Uint64_loop_succ]
      split
      · simp
      · rw [LowEncoder.Uint64_loop_append]; simp
    obtain ⟨f, rfl⟩ : ∃ f', f = f' + 1 := ⟨f - 1, by omega⟩
    have hP : 0 < 2 ^ (7 * k) := Nat.two_pow_pos _
    have hmlt : v % 128 < 128 := Nat.mod_lt _ (by norm_num)
    have hdm : v = 128 * (v / 128) + v % 128 := (Nat.div_add_mod v 128).symm
    have hm63 : (v % 128) * 2 ^ (7 * k) < 2 ^ 64 := by
      have : (v % 128) * 2 ^ (7 * k) ≤ v * 2 ^ (7 * k) :=
        Nat.mul_le_mul_right _ (Nat.mod_le _ _)
      omega
    have hacc' : acc ||| ((v % 128) <<< (7 * k)) % 2 ^ 64 = acc + (v % 128) * 2 ^ (7 * k) := by
      have h := or_shiftLeft_eq_add acc (v % 128) (7 * k) hacc
      rw [Nat.shiftLeft_eq] at h
      rw [Nat.shiftLeft_eq, Nat.mod_eq_of_lt hm63, h]
    rw [LowEncoder.Uint64_loop_succ]
    by_cases hq : v / 128 = 0
    · have hv128 : v < 128 := by omega
      have hmod : v % 128 = v := Nat.mod_eq_of_lt hv128
      simp only [hq, if_true, List.nil_append]
      rw [List.append_assoc, List.singleton_append,
        LowDecoder.Uint64_loop_step _ _ _ _ _ _ _ (index_append_right p r _)]
      rw [UInt8.toNat_ofNat_lt _ (by omega), if_pos hmlt, Nat.mod_mod, hacc', hmod]
      simp
    · simp only [hq, if_false, List.nil_append]
      rw [LowEncoder.Uint64_loop_append, List.append_assoc, List.append_assoc, List.singleton_append,
        LowDecoder.Uint64_loop_step _ _ _ _ _ _ _ (index_append_right p _ _)]
      rw [UInt8.toNat_ofNat_lt _ (by omega)]
      have hge : ¬ (v % 128 + 128 < 128) := by omega
      have hmm : (v % 128 + 128) % 128 = v % 128 := by omega
      have hq1 : 1 ≤ v / 128 := by omega
      have hk7 : k ≤ 7 := by
        by_contra hcon
        have h1 : (2:ℕ) ^ 56 ≤ 2 ^ (7 * k) := Nat.pow_le_pow_right (by norm_num) (by omega)
        have h2 : 128 * 2 ^ (7 * k) ≤ v * 2 ^ (7 * k) := Nat.mul_le_mul_right _ (by omega)
        omega
      have hov : ¬ (7 * k + 7 + 7 > 64) := by omega
      rw [if_neg hge, if_neg hov, hmm, hacc']
      have hn : 0 < n := by
        rcases Nat.eq_zero_or_pos n with h0 | h0
        · subst h0; simp at hv; omega
        · exact h0
      have hpow : 2 ^ (7 * (k + 1)) = 128 * 2 ^ (7 * k) := by
        rw [show 7 * (k + 1) = 7 + 7 * k by ring, pow_add]; norm_num
      have hvn : v / 128 < 2 ^ (7 * n) := by
        rw [Nat.div_lt_iff_lt_mul (by norm_num)]
        rw [show 7 * (n + 1) = 7 * n + 7 by ring, pow_add] at hv
        simpa using hv
      have key : v * 2 ^ (7 * k) = (v / 128) * (128 * 2 ^ (7 * k)) + (v % 128) * 2 ^ (7 * k) := by
        conv_lhs => rw [hdm]
        ring
      have h := ih (v / 128) (acc + (v % 128) * 2 ^ (7 * k)) (k + 1) f (p ++ [UInt8.ofNat (v % 128 + 128)]) r st
        hvn (by rw [hpow]; omega)
        (by rw [hpow]; nlinarith)
        (by
          rw [LowEncoder.Uint64_loop_succ, if_neg hq, LowEncoder.Uint64_loop_append] at hf
          simp at hf
          omega) hn
      have e1 : p ++ UInt8.ofNat (v % 128 + 128) :: (LowEncoder.Uint64.loop n [] (v / 128) ++ r)
          = p ++ [UInt8.ofNat (v % 128 + 128)] ++ LowEncoder.Uint64.loop n [] (v / 128) ++ r := by simp
      have e2 : ((p.length : ℤ) + 1) = ((p ++ [UInt8.ofNat (v % 128 + 128)]).length : ℕ) := by simp
      have e3 : 7 * k + 7 = 7 * (k + 1) := by ring
      rw [e1, e2, e3, h, hpow]
      congr 1
      · omega
      · simp


/-- Round trip of the unsigned LEB128 codec inside a buffer, for values
below `2^63`. -/
theorem LowDecoder.Uint64_encode (p r : List UInt8) (v : Nat) (hv : v < 2 ^ 63) :
    LowDecoder.Uint64 (p ++ LowEncoder.Uint64 [] v ++ r) p.length
      = .ok v ((p ++ LowEncoder.Uint64 [] v).length : ℕ) := by
  unfold LowDecoder.Uint64 LowEncoder.Uint64
  have hmod : v % 2 ^ 64 = v := Nat.mod_eq_of_lt (by omega)
  rw [hmod]
  have h := LowDecoder.Uint64_loop_encode 10 v 0 0
    ((p ++ LowEncoder.Uint64.loop 10 [] v ++ r).length + 1) p r p.length
    (by norm_num; omega) (by simpa using hv) (by norm_num) (by simp; omega) (by norm_num)
  simpa using h

theorem toInt64_of_lt (x : Nat) (h : x < 2 ^ 63) : toInt64 x = (x : ℤ) := by
  unfold toInt64
  have : x % 2 ^ 64 = x := Nat.mod_eq_of_lt (by omega)
  rw [this, if_pos h]

theorem toUint64_of_nonneg (v : ℤ) (h0 : 0 ≤ v) (h : v < 2 ^ 64) : toUint64 v = v.toNat := by
  unfold toUint64
  rw [Int.emod_eq_of_lt h0 h]

/-- Round trip of `LowEncoder.Int` and `LowDecoder.Int` for a length. -/
theorem LowDecoder.Int_encode (p r : List UInt8) (n : Nat) (hn : n < 2 ^ 63) :
    LowDecoder.Int (p ++ LowEncoder.Int [] n ++ r) p.length
      = .ok (n : ℤ) ((p ++ LowEncoder.Int [] n).length : ℕ) := by
  unfold LowDecoder.Int LowEncoder.Int
  have h1 : toUint64 (n : ℤ) = n := by
    rw [toUint64_of_nonneg _ (by omega) (by omega)]; simp
  rw [h1, LowDecoder.Uint64_encode p r n hn]
  simp [toInt64_of_lt n hn]


/-! ## Cursor bounds of the primitive decoders -/

theorem slice_some_bounds {b : List UInt8} {lo hi : ℤ} {v : List UInt8}
    (h : slice b lo hi = some v) : 0 ≤ lo ∧ lo ≤ hi ∧ hi ≤ b.length := by
  unfold slice at h
  split at h
  · assumption
  · cases h

theorem LowDecoder.Byte_ok {b : List UInt8} {st i : ℤ} {x : UInt8}
    (h : LowDecoder.Byte b st = .ok x i) : index b st = some x ∧ i = st + 1 := by
  unfold LowDecoder.Byte at h
  simp only at h
  split at h
  · cases h
  · split at h
    · cases h
    · rename_i y hy
      injection h with h1 h2
      subst h1 h2
      exact ⟨hy, rfl⟩

theorem LowDecoder.Uint64_loop_ok (b : List UInt8) (st : ℤ) (f : Nat) :
    ∀ (acc k : Nat) (i : ℤ) (v : Nat) (j : ℤ), acc < 2 ^ (7 * k) → k ≤ 8 →
    LowDecoder.Uint64.loop b st f acc (7 * k) i = .ok v j →
    0 ≤ i ∧ i < j ∧ j ≤ b.length ∧ v < 2 ^ 63 := by
  induction f with
  | zero => intro acc k i v j _ _ h; simp [LowDecoder.Uint64.loop] at h
  | succ f ih =>
    intro acc k i v j hacc hk h
    rw [LowDecoder.Uint64.loop] at h
    split at h
    · rename_i hlt
      split at h
      · cases h
      · rename_i x hx
        have hi := index_some_lt hx
        have hg : (x.toNat &&& 0x7f) < 128 := by
          rw [and_7f_eq_mod]; exact Nat.mod_lt _ (by norm_num)
        have hpow : (2:ℕ) ^ (7 * k + 7) ≤ 2 ^ 63 := Nat.pow_le_pow_right (by norm_num) (by omega)
        have hpow2 : (2:ℕ) ^ (7 * k + 7) = 2 ^ (7 * k) * 128 := by rw [pow_add]; norm_num
        have hs : ((x.toNat &&& 0x7f) <<< (7 * k)) % 2 ^ 64 < 2 ^ (7 * k + 7) := by
          rw [Nat.shiftLeft_eq]
          have : (x.toNat &&& 0x7f) * 2 ^ (7 * k) < 2 ^ (7 * k + 7) := by
            rw [hpow2, Nat.mul_comm]
            exact Nat.mul_lt_mul_of_pos_left hg (Nat.two_pow_pos _)
          exact lt_of_le_of_lt (Nat.mod_le _ _) this
        have hacc2 : acc < 2 ^ (7 * k + 7) :=
          lt_of_lt_of_le hacc (Nat.pow_le_pow_right (by norm_num) (by omega))
        have hv := Nat.or_lt_two_pow hacc2 hs
        simp only at h
        split at h
        · injection h with h1 h2
          subst h1 h2
          refine ⟨hi.1, by omega, by omega, lt_of_lt_of_le hv hpow⟩
        · split at h
          · cases h
          · rename_i hov
            have := ih _ (k + 1) _ v j (by simpa [Nat.mul_add] using hv) (by omega)
              (by simpa [Nat.mul_add] using h)
            omega
    · cases h

theorem LowDecoder.Uint64_ok {b : List UInt8} {st i : ℤ} {v : Nat}
    (h : LowDecoder.Uint64 b st = .ok v i) :
    0 ≤ st ∧ st < i ∧ i ≤ b.length ∧ v < 2 ^ 63 :=
  LowDecoder.Uint64_loop_ok b st _ 0 0 st v i (by norm_num) (by norm_num) h

theorem LowDecoder.Int_ok {b : List UInt8} {st i : ℤ} {l : ℤ}
    (h : LowDecoder.Int b st = .ok l i) :
    0 ≤ st ∧ st < i ∧ i ≤ b.length ∧ 0 ≤ l ∧ l < 2 ^ 63 := by
  unfold LowDecoder.Int at h
  split at h
  · rename_i x j hx
    injection h with h1 h2
    subst h1 h2
    have := LowDecoder.Uint64_ok hx
    rw [toInt64_of_lt _ this.2.2.2]
    refine ⟨this.1, this.2.1, this.2.2.1, by omega, by omega⟩
  · cases h
  · cases h

theorem LowDecoder.Name_ok {b : List UInt8} {st i : ℤ} {v : List UInt8}
    (h : LowDecoder.Name b st = .ok v i) : st < i ∧ i ≤ b.length := by
  unfold LowDecoder.Name at h
  split at h
  · cases h
  · cases h
  · rename_i l j hl
    have hb := LowDecoder.Int_ok hl
    split at h
    · cases h
    · split at h
      · cases h
      · rename_i w hw
        injection h with h1 h2
        have := slice_some_bounds hw
        omega


theorem LowDecoder.ResultType_ok {b : List UInt8} {st i : ℤ} {v : List UInt8}
    (h : LowDecoder.ResultType b st = .ok v i) : st < i ∧ i ≤ b.length := by
  unfold LowDecoder.ResultType at h
  split at h
  · cases h
  · cases h
  · rename_i l j hl
    have hb := LowDecoder.Int_ok hl
    split at h
    · cases h
    · split at h
      · cases h
      · rename_i w hw
        injection h with h1 h2
        have := slice_some_bounds hw
        omega

theorem LowDecoder.BasicType_ok {b : List UInt8} {st i : ℤ} {x : UInt8}
    (h : LowDecoder.BasicType b st = .ok x i) : i = st + 1 := by
  unfold LowDecoder.BasicType at h
  split at h
  · cases h
  · split at h
    · cases h
    · injection h with h1 h2
      exact h2.symm

theorem LowDecoder.FuncType_ok {b : List UInt8} {st i : ℤ} {v : Wasm.FuncType}
    (h : LowDecoder.FuncType b st = .ok v i) : st ≤ i := by
  unfold LowDecoder.FuncType at h
  simp only at h
  split at h
  · cases h
  · split at h
    · cases h
    · split at h
      · cases h
      · split at h
        · cases h
        · cases h
        · rename_i p j hp
          have h1 := LowDecoder.ResultType_ok hp
          split at h
          · cases h
          · cases h
          · rename_i q j2 hq
            have h2 := LowDecoder.ResultType_ok hq
            injection h with _ h3
            omega

theorem LowDecoder.Limits_ok {b : List UInt8} {st i : ℤ} {v : ℤ × ℤ}
    (h : LowDecoder.Limits b st = .ok v i) : st ≤ i := by
  unfold LowDecoder.Limits at h
  split at h
  · cases h
  · cases h
  · rename_i tp j hb
    have h0 := LowDecoder.Byte_ok hb
    split at h
    · cases h
    · split at h
      · cases h
      · cases h
      · rename_i lo j1 hlo
        have h1 := LowDecoder.Int_ok hlo
        split at h
        · injection h with _ h3
          omega
        · split at h
          · cases h
          · cases h
          · rename_i hi j2 hhi
            have h2 := LowDecoder.Int_ok hhi
            injection h with _ h3
            omega

theorem LowDecoder.TableType_ok {b : List UInt8} {st i : ℤ} {v : UInt8 × ℤ × ℤ}
    (h : LowDecoder.TableType b st = .ok v i) : st ≤ i := by
  unfold LowDecoder.TableType at h
  simp only at h
  split at h
  · cases h
  · split at h
    · cases h
    · cases h
    · rename_i tp j hb
      have h0 := LowDecoder.BasicType_ok hb
      split at h
      · cases h
      · cases h
      · rename_i lo hi j1 hl
        have h1 := LowDecoder.Limits_ok hl
        injection h with _ h3
        omega

theorem LowDecoder.GlobalType_ok {b : List UInt8} {st i : ℤ} {v : UInt8 × UInt8}
    (h : LowDecoder.GlobalType b st = .ok v i) : i = st + 2 := by
  unfold LowDecoder.GlobalType at h
  simp only at h
  split at h
  · cases h
  · split at h
    · injection h with _ h3
      exact h3.symm
    · cases h

/-! ## Cursor bounds of the instruction walker -/

theorem InstructionsDecoder.Expr_loop_ok (b : List UInt8) (st : ℤ) (f : Nat) :
    ∀ (depth i : ℤ) (code : List UInt8) (j : ℤ),
    InstructionsDecoder.Expr.loop b st f depth i = .ok code j →
    i ≤ j ∧ j ≤ b.length ∧ slice b st j = some code := by
  induction f with
  | zero => intro depth i code j h; simp [InstructionsDecoder.Expr.loop] at h
  | succ f ih =>
    intro depth i code j h
    rw [InstructionsDecoder.Expr.loop] at h
    split at h
    · simp only at h
      split at h
      · cases h
      · rename_i op hop
        have hi := index_some_lt hop
        split at h
        · cases h
        · cases h
        · rename_i i2 err d2 hstep
          split at h
          · cases h
          · rename_i w hw
            have hs := slice_some_bounds hw
            split at h
            · cases h
            · split at h
              · split at h
                · cases h
                · rename_i c hc
                  injection h with h1 h2
                  subst h1 h2
                  have hs2 := slice_some_bounds hc
                  exact ⟨by omega, by omega, hc⟩
              · have := ih _ _ _ _ h
                exact ⟨by omega, this.2⟩
    · cases h


theorem InstructionsDecoder.Expr_ok {b : List UInt8} {st i : ℤ} {code : List UInt8}
    (h : InstructionsDecoder.Expr b st = .ok code i) :
    st ≤ i ∧ i ≤ b.length ∧ slice b st i = some code :=
  InstructionsDecoder.Expr_loop_ok b st _ 0 st code i h

/-! ## Cursor bounds of the section decoders -/

theorem Decoder.sectionHeader_ok {b : List UInt8} {st i : ℤ} {sect : UInt8} {en : ℤ}
    (h : Decoder.sectionHeader b st sect = .ok en i) :
    index b st = some sect ∧ ∃ size, LowDecoder.Int b (st + 1) = .ok size i ∧ en = addInt i size := by
  unfold Decoder.sectionHeader at h
  split at h
  · cases h
  · cases h
  · rename_i tp j hb
    have h0 := LowDecoder.Byte_ok hb
    split at h
    · cases h
    · rename_i hne
      have htp : tp = sect := by simpa using hne
      subst htp
      split at h
      · cases h
      · cases h
      · rename_i size j2 hsz
        injection h with h1 h2
        subst h1 h2
        rw [h0.2] at hsz
        exact ⟨h0.1, size, hsz, rfl⟩

theorem Decoder.sectionHeaderLen_ok {b : List UInt8} {st i : ℤ} {sect : UInt8} {l en : ℤ}
    (h : Decoder.sectionHeaderLen b st sect = .ok (l, en) i) :
    index b st = some sect ∧ 0 ≤ l ∧ l < 2 ^ 63 ∧
    ∃ size i0, LowDecoder.Int b (st + 1) = .ok size i0 ∧ en = addInt i0 size ∧
      LowDecoder.Int b i0 = .ok l i := by
  unfold Decoder.sectionHeaderLen at h
  split at h
  · cases h
  · cases h
  · rename_i en0 j hh
    obtain ⟨h1, size, h2, h3⟩ := Decoder.sectionHeader_ok hh
    split at h
    · cases h
    · cases h
    · rename_i l0 j2 hl
      have hb := LowDecoder.Int_ok hl
      injection h with h4 h5
      injection h4 with h6 h7
      subst h5 h6 h7
      exact ⟨h1, hb.2.2.2.1, hb.2.2.2.2, size, j, h2, h3, hl⟩


theorem Decoder.TypeSection_loop_ok (b : List UInt8) (k : Nat) :
    ∀ (n : Nat) (i : ℤ) (acc v : List FuncType) (j : ℤ),
    Decoder.TypeSection.loop b k n i acc = .ok v j → i ≤ j := by
  induction k with
  | zero =>
    intro n i acc v j h
    rw [Decoder.TypeSection.loop] at h
    injection h with _ h2
    omega
  | succ k ih =>
    intro n i acc v j h
    rw [Decoder.TypeSection.loop] at h
    split at h
    · cases h
    · cases h
    · rename_i fn i1 h1
      have := LowDecoder.FuncType_ok h1
      have := ih _ _ _ _ _ h
      omega

theorem Decoder.Import_ok {b : List UInt8} {st i : ℤ} {buf v : Wasm.Import}
    (h : Decoder.Import b st buf = .ok v i) : st ≤ i := by
  unfold Decoder.Import at h
  simp only at h
  split at h
  · cases h
  · cases h
  · rename_i x i1 h1
    have b1 := LowDecoder.Name_ok h1
    split at h
    · cases h
    · cases h
    · rename_i y i2 h2
      have b2 := LowDecoder.Name_ok h2
      split at h
      · cases h
      · split at h
        · cases h
        · rename_i tp htp
          split at h
          · split at h
            · cases h
            · cases h
            · rename_i z i3 h3
              have b3 := LowDecoder.Int_ok h3
              injection h with _ h4
              omega
          · split at h
            · split at h
              · cases h
              · cases h
              · rename_i t lo hi i3 h3
                have b3 := LowDecoder.TableType_ok h3
                injection h with _ h4
                omega
            · split at h
              · split at h
                · cases h
                · cases h
                · rename_i lo hi i3 h3
                  have b3 := LowDecoder.Limits_ok h3
                  injection h with _ h4
                  omega
              · split at h
                · split at h
                  · cases h
                  · cases h
                  · rename_i t mu i3 h3
                    have b3 := LowDecoder.GlobalType_ok h3
                    injection h with _ h4
                    omega
                · cases h

theorem Decoder.ImportSection_loop_ok (b : List UInt8) (old : List Wasm.Import) (k : Nat) :
    ∀ (n : Nat) (i : ℤ) (acc v : List Wasm.Import) (j : ℤ),
    Decoder.ImportSection.loop b old k n i acc = .ok v j → i ≤ j := by
  induction k with
  | zero =>
    intro n i acc v j h
    rw [Decoder.ImportSection.loop] at h
    injection h with _ h2
    omega
  | succ k ih =>
    intro n i acc v j h
    rw [Decoder.ImportSection.loop] at h
    split at h
    · cases h
    · cases h
    · rename_i fn i1 h1
      have := Decoder.Import_ok h1
      have := ih _ _ _ _ _ h
      omega

theorem Decoder.Export_ok {b : List UInt8} {st i : ℤ} {v : Wasm.Export}
    (h : Decoder.Export b st = .ok v i) : st ≤ i := by
  unfold Decoder.Export at h
  split at h
  · cases h
  · cases h
  · rename_i x i1 h1
    have b1 := LowDecoder.Name_ok h1
    split at h
    · cases h
    · split at h
      · cases h
      · simp only at h
        split at h
        · cases h
        · cases h
        · rename_i idx i2 h2
          have b2 := LowDecoder.Int_ok h2
          injection h with _ h4
          omega

theorem Decoder.ExportSection_loop_ok (b : List UInt8) (k : Nat) :
    ∀ (n : Nat) (i : ℤ) (acc v : List Wasm.Export) (j : ℤ),
    Decoder.ExportSection.loop b k n i acc = .ok v j → i ≤ j := by
  induction k with
  | zero =>
    intro n i acc v j h
    rw [Decoder.ExportSection.loop] at h
    injection h with _ h2
    omega
  | succ k ih =>
    intro n i acc v j h
    rw [Decoder.ExportSection.loop] at h
    split at h
    · cases h
    · cases h
    · rename_i fn i1 h1
      have := Decoder.Export_ok h1
      have := ih _ _ _ _ _ h
      omega

theorem Decoder.FunctionSection_loop_ok (b : List UInt8) (k : Nat) :
    ∀ (n : Nat) (i : ℤ) (acc v : List ℤ) (j : ℤ),
    Decoder.FunctionSection.loop b k n i acc = .ok v j → i ≤ j := by
  induction k with
  | zero =>
    intro n i acc v j h
    rw [Decoder.FunctionSection.loop] at h
    injection h with _ h2
    omega
  | succ k ih =>
    intro n i acc v j h
    rw [Decoder.FunctionSection.loop] at h
    split at h
    · cases h
    · cases h
    · rename_i fn i1 h1
      have := LowDecoder.Int_ok h1
      have := ih _ _ _ _ _ h
      omega

theorem Decoder.TableSection_loop_ok (b : List UInt8) (k : Nat) :
    ∀ (n : Nat) (i : ℤ) (acc v : List Table) (j : ℤ),
    Decoder.TableSection.loop b k n i acc = .ok v j → i ≤ j := by
  induction k with
  | zero =>
    intro n i acc v j h
    rw [Decoder.TableSection.loop] at h
    injection h with _ h2
    omega
  | succ k ih =>
    intro n i acc v j h
    rw [Decoder.TableSection.loop] at h
    split at h
    · cases h
    · cases h
    · rename_i tp lo hi i1 h1
      have := LowDecoder.TableType_ok h1
      have := ih _ _ _ _ _ h
      omega

theorem Decoder.MemorySection_loop_ok (b : List UInt8) (k : Nat) :
    ∀ (n : Nat) (i : ℤ) (acc v : List Limits) (j : ℤ),
    Decoder.MemorySection.loop b k n i acc = .ok v j → i ≤ j := by
  induction k with
  | zero =>
    intro n i acc v j h
    rw [Decoder.MemorySection.loop] at h
    injection h with _ h2
    omega
  | succ k ih =>
    intro n i acc v j h
    rw [Decoder.MemorySection.loop] at h
    split at h
    · cases h
    · cases h
    · rename_i lo hi i1 h1
      have := LowDecoder.Limits_ok h1
      have := ih _ _ _ _ _ h
      omega

theorem Decoder.GlobalSection_loop_ok (b : List UInt8) (k : Nat) :
    ∀ (n : Nat) (i : ℤ) (acc v : List Global) (j : ℤ),
    Decoder.GlobalSection.loop b k n i acc = .ok v j → i ≤ j := by
  induction k with
  | zero =>
    intro n i acc v j h
    rw [Decoder.GlobalSection.loop] at h
    injection h with _ h2
    omega
  | succ k ih =>
    intro n i acc v j h
    rw [Decoder.GlobalSection.loop] at h
    split at h
    · cases h
    · cases h
    · rename_i tp mu i1 h1
      have := LowDecoder.GlobalType_ok h1
      split at h
      · cases h
      · cases h
      · rename_i code i2 h2
        have := InstructionsDecoder.Expr_ok h2
        have := ih _ _ _ _ _ h
        omega

theorem Decoder.Element_loop_ok (b : List UInt8) (k : Nat) :
    ∀ (i : ℤ) (acc v : List ℤ) (j : ℤ),
    Decoder.Element.loop b k i acc = .ok v j → i ≤ j := by
  induction k with
  | zero =>
    intro i acc v j h
    rw [Decoder.Element.loop] at h
    injection h with _ h2
    omega
  | succ k ih =>
    intro i acc v j h
    rw [Decoder.Element.loop] at h
    split at h
    · cases h
    · cases h
    · rename_i fn i1 h1
      have := LowDecoder.Int_ok h1
      have := ih _ _ _ _ h
      omega

theorem Decoder.Element_ok {b : List UInt8} {st i : ℤ} {buf v : Wasm.Element}
    (h : Decoder.Element b st buf = .ok v i) : st ≤ i := by
  unfold Decoder.Element at h
  simp only at h
  split at h
  · cases h
  · cases h
  · rename_i tp i1 h1
    have b1 := LowDecoder.Byte_ok h1
    split at h
    · split at h
      · cases h
      · cases h
      · rename_i code i2 h2
        have b2 := InstructionsDecoder.Expr_ok h2
        split at h
        · cases h
        · cases h
        · rename_i l i3 h3
          have b3 := LowDecoder.Int_ok h3
          split at h
          · cases h
          · cases h
          · rename_i fs i4 h4
            have b4 := Decoder.Element_loop_ok _ _ _ _ _ _ h4
            injection h with _ h5
            omega
    · cases h

theorem Decoder.ElementSection_loop_ok (b : List UInt8) (old : List Wasm.Element) (k : Nat) :
    ∀ (n : Nat) (i : ℤ) (acc v : List Wasm.Element) (j : ℤ),
    Decoder.ElementSection.loop b old k n i acc = .ok v j → i ≤ j := by
  induction k with
  | zero =>
    intro n i acc v j h
    rw [Decoder.ElementSection.loop] at h
    injection h with _ h2
    omega
  | succ k ih =>
    intro n i acc v j h
    rw [Decoder.ElementSection.loop] at h
    split at h
    · cases h
    · cases h
    · rename_i fn i1 h1
      have := Decoder.Element_ok h1
      have := ih _ _ _ _ _ h
      omega

theorem Decoder.CodeSection_loop_ok (b : List UInt8) (k : Nat) :
    ∀ (n : Nat) (i : ℤ) (acc v : List (List UInt8)) (j : ℤ),
    Decoder.CodeSection.loop b k n i acc = .ok v j → i ≤ j := by
  induction k with
  | zero =>
    intro n i acc v j h
    rw [Decoder.CodeSection.loop] at h
    injection h with _ h2
    omega
  | succ k ih =>
    intro n i acc v j h
    rw [Decoder.CodeSection.loop] at h
    split at h
    · cases h
    · cases h
    · rename_i size i1 h1
      have := LowDecoder.Int_ok h1
      split at h
      · cases h
      · split at h
        · cases h
        · rename_i code hc
          have := slice_some_bounds hc
          have := ih _ _ _ _ _ h
          omega

theorem Decoder.DataSection_loop_ok (b : List UInt8) (st : ℤ) (k : Nat) :
    ∀ (n : Nat) (i : ℤ) (acc v : List Data) (j : ℤ),
    Decoder.DataSection.loop b st k n i acc = .ok v j → i ≤ j := by
  induction k with
  | zero =>
    intro n i acc v j h
    rw [Decoder.DataSection.loop] at h
    injection h with _ h2
    omega
  | succ k ih =>
    intro n i acc v j h
    rw [Decoder.DataSection.loop] at h
    split at h
    · cases h
    · cases h
    · rename_i tp i1 h1
      have := LowDecoder.Byte_ok h1
      split at h
      · split at h
        · cases h
        · cases h
        · rename_i code i2 h2
          have := InstructionsDecoder.Expr_ok h2
          split at h
          · cases h
          · cases h
          · rename_i size i3 h3
            have := LowDecoder.Int_ok h3
            split at h
            · cases h
            · split at h
              · cases h
              · rename_i ini hc
                have := slice_some_bounds hc
                have := ih _ _ _ _ _ h
                omega
      · cases h


/-! ## What a successful section decoder guarantees -/

theorem Decoder.TypeSection_ok {b : List UInt8} {st j : ℤ} {m m1 : Wasm.Module}
    (h : Decoder.TypeSection b st m = .ok m1 j) :
    index b st = some Wasm.TypeSection ∧ ∃ size i0, LowDecoder.Int b (st + 1) = .ok size i0 ∧
      i0 ≤ addInt i0 size ∧ m1.Sections = m.Sections ∧ m1.Start = m.Start ∧
      m1.DataCount = m.DataCount := by
  unfold Decoder.TypeSection at h
  split at h
  · cases h
  · cases h
  · rename_i l en i hh
    obtain ⟨hid, hl0, hl63, size, i0, hsz, hen, hl⟩ := Decoder.sectionHeaderLen_ok hh
    split at h
    · cases h
    · cases h
    · rename_i vs j1 hloop
      split at h
      · cases h
      · split at h
        · cases h
        · rename_i hne
          have hje : j1 = en := by simpa using hne
          injection h with h1 h2
          subst h1 h2
          have hm := Decoder.TypeSection_loop_ok _ _ _ _ _ _ _ hloop
          have hb := LowDecoder.Int_ok hl
          exact ⟨hid, size, i0, hsz, by rw [← hen, ← hje]; omega, rfl, rfl, rfl⟩

theorem Decoder.ImportSection_ok {b : List UInt8} {st j : ℤ} {m m1 : Wasm.Module}
    (h : Decoder.ImportSection b st m = .ok m1 j) :
    index b st = some Wasm.ImportSection ∧ ∃ size i0, LowDecoder.Int b (st + 1) = .ok size i0 ∧
      i0 ≤ addInt i0 size ∧ m1.Sections = m.Sections ∧ m1.Start = m.Start ∧
      m1.DataCount = m.DataCount := by
  unfold Decoder.ImportSection at h
  split at h
  · cases h
  · cases h
  · rename_i l en i hh
    obtain ⟨hid, hl0, hl63, size, i0, hsz, hen, hl⟩ := Decoder.sectionHeaderLen_ok hh
    split at h
    · cases h
    · cases h
    · rename_i vs j1 hloop
      split at h
      · cases h
      · split at h
        · cases h
        · rename_i hne
          have hje : j1 = en := by simpa using hne
          injection h with h1 h2
          subst h1 h2
          have hm := Decoder.ImportSection_loop_ok _ _ _ _ _ _ _ _ hloop
          have hb := LowDecoder.Int_ok hl
          exact ⟨hid, size, i0, hsz, by rw [← hen, ← hje]; omega, rfl, rfl, rfl⟩

theorem Decoder.ExportSection_ok {b : List UInt8} {st j : ℤ} {m m1 : Wasm.Module}
    (h : Decoder.ExportSection b st m = .ok m1 j) :
    index b st = some Wasm.ExportSection ∧ ∃ size i0, LowDecoder.Int b (st + 1) = .ok size i0 ∧
      i0 ≤ addInt i0 size ∧ m1.Sections = m.Sections ∧ m1.Start = m.Start ∧
      m1.DataCount = m.DataCount := by
  unfold Decoder.ExportSection at h
  split at h
  · cases h
  · cases h
  · rename_i l en i hh
    obtain ⟨hid, hl0, hl63, size, i0, hsz, hen, hl⟩ := Decoder.sectionHeaderLen_ok hh
    split at h
    · cases h
    · cases h
    · rename_i vs j1 hloop
      split at h
      · cases h
      · split at h
        · cases h
        · rename_i hne
          have hje : j1 = en := by simpa using hne
          injection h with h1 h2
          subst h1 h2
          have hm := Decoder.ExportSection_loop_ok _ _ _ _ _ _ _ hloop
          have hb := LowDecoder.Int_ok hl
          exact ⟨hid, size, i0, hsz, by rw [← hen, ← hje]; omega, rfl, rfl, rfl⟩

theorem Decoder.FunctionSection_ok {b : List UInt8} {st j : ℤ} {m m1 : Wasm.Module}
    (h : Decoder.FunctionSection b st m = .ok m1 j) :
    index b st = some Wasm.FunctionSection ∧ ∃ size i0, LowDecoder.Int b (st + 1) = .ok size i0 ∧
      i0 ≤ addInt i0 size ∧ m1.Sections = m.Sections ∧ m1.Start = m.Start ∧
      m1.DataCount = m.DataCount := by
  unfold Decoder.FunctionSection at h
  split at h
  · cases h
  · cases h
  · rename_i l en i hh
    obtain ⟨hid, hl0, hl63, size, i0, hsz, hen, hl⟩ := Decoder.sectionHeaderLen_ok hh
    split at h
    · cases h
    · cases h
    · rename_i vs j1 hloop
      split at h
      · cases h
      · rename_i hne
        have hje : j1 = en := by simpa using hne
        injection h with h1 h2
        subst h1 h2
        have hm := Decoder.FunctionSection_loop_ok _ _ _ _ _ _ _ hloop
        have hb := LowDecoder.Int_ok hl
        exact ⟨hid, size, i0, hsz, by rw [← hen, ← hje]; omega, rfl, rfl, rfl⟩

theorem Decoder.TableSection_ok {b : List UInt8} {st j : ℤ} {m m1 : Wasm.Module}
    (h : Decoder.TableSection b st m = .ok m1 j) :
    index b st = some Wasm.TableSection ∧ ∃ size i0, LowDecoder.Int b (st + 1) = .ok size i0 ∧
      i0 ≤ addInt i0 size ∧ m1.Sections = m.Sections ∧ m1.Start = m.Start ∧
      m1.DataCount = m.DataCount := by
  unfold Decoder.TableSection at h
  split at h
  · cases h
  · cases h
  · rename_i l en i hh
    obtain ⟨hid, hl0, hl63, size, i0, hsz, hen, hl⟩ := Decoder.sectionHeaderLen_ok hh
    split at h
    · cases h
    · cases h
    · rename_i vs j1 hloop
      split at h
      · cases h
      · rename_i hne
        have hje : j1 = en := by simpa using hne
        injection h with h1 h2
        subst h1 h2
        have hm := Decoder.TableSection_loop_ok _ _ _ _ _ _ _ hloop
        have hb := LowDecoder.Int_ok hl
        exact ⟨hid, size, i0, hsz, by rw [← hen, ← hje]; omega, rfl, rfl, rfl⟩

theorem Decoder.MemorySection_ok {b : List UInt8} {st j : ℤ} {m m1 : Wasm.Module}
    (h : Decoder.MemorySection b st m = .ok m1 j) :
    index b st = some Wasm.MemorySection ∧ ∃ size i0, LowDecoder.Int b (st + 1) = .ok size i0 ∧
      i0 ≤ addInt i0 size ∧ m1.Sections = m.Sections ∧ m1.Start = m.Start ∧
      m1.DataCount = m.DataCount := by
  unfold Decoder.MemorySection at h
  split at h
  · cases h
  · cases h
  · rename_i l en i hh
    obtain ⟨hid, hl0, hl63, size, i0, hsz, hen, hl⟩ := Decoder.sectionHeaderLen_ok hh
    split at h
    · cases h
    · cases h
    · rename_i vs j1 hloop
      split at h
      · cases h
      · rename_i hne
        have hje : j1 = en := by simpa using hne
        injection h with h1 h2
        subst h1 h2
        have hm := Decoder.MemorySection_loop_ok _ _ _ _ _ _ _ hloop
        have hb := LowDecoder.Int_ok hl
        exact ⟨hid, size, i0, hsz, by rw [← hen, ← hje]; omega, rfl, rfl, rfl⟩

theorem Decoder.GlobalSection_ok {b : List UInt8} {st j : ℤ} {m m1 : Wasm.Module}
    (h : Decoder.GlobalSection b st m = .ok m1 j) :
    index b st = some Wasm.GlobalSection ∧ ∃ size i0, LowDecoder.Int b (st + 1) = .ok size i0 ∧
      i0 ≤ addInt i0 size ∧ m1.Sections = m.Sections ∧ m1.Start = m.Start ∧
      m1.DataCount = m.DataCount := by
  unfold Decoder.GlobalSection at h
  split at h
  · cases h
  · cases h
  · rename_i l en i hh
    obtain ⟨hid, hl0, hl63, size, i0, hsz, hen, hl⟩ := Decoder.sectionHeaderLen_ok hh
    split at h
    · cases h
    · cases h
    · rename_i vs j1 hloop
      split at h
      · cases h
      · split at h
        · cases h
        · rename_i hne
          have hje : j1 = en := by simpa using hne
          injection h with h1 h2
          subst h1 h2
          have hm := Decoder.GlobalSection_loop_ok _ _ _ _ _ _ _ hloop
          have hb := LowDecoder.Int_ok hl
          exact ⟨hid, size, i0, hsz, by rw [← hen, ← hje]; omega, rfl, rfl, rfl⟩

theorem Decoder.ElementSection_ok {b : List UInt8} {st j : ℤ} {m m1 : Wasm.Module}
    (h : Decoder.ElementSection b st m = .ok m1 j) :
    index b st = some Wasm.ElementSection ∧ ∃ size i0, LowDecoder.Int b (st + 1) = .ok size i0 ∧
      i0 ≤ addInt i0 size ∧ m1.Sections = m.Sections ∧ m1.Start = m.Start ∧
      m1.DataCount = m.DataCount := by
  unfold Decoder.ElementSection at h
  split at h
  · cases h
  · cases h
  · rename_i l en i hh
    obtain ⟨hid, hl0, hl63, size, i0, hsz, hen, hl⟩ := Decoder.sectionHeaderLen_ok hh
    split at h
    · cases h
    · cases h
    · rename_i vs j1 hloop
      split at h
      · cases h
      · split at h
        · cases h
        · rename_i hne
          have hje : j1 = en := by simpa using hne
          injection h with h1 h2
          subst h1 h2
          have hm := Decoder.ElementSection_loop_ok _ _ _ _ _ _ _ _ hloop
          have hb := LowDecoder.Int_ok hl
          exact ⟨hid, size, i0, hsz, by rw [← hen, ← hje]; omega, rfl, rfl, rfl⟩

theorem Decoder.CodeSection_ok {b : List UInt8} {st j : ℤ} {m m1 : Wasm.Module}
    (h : Decoder.CodeSection b st m = .ok m1 j) :
    index b st = some Wasm.CodeSection ∧ ∃ size i0, LowDecoder.Int b (st + 1) = .ok size i0 ∧
      i0 ≤ addInt i0 size ∧ m1.Sections = m.Sections ∧ m1.Start = m.Start ∧
      m1.DataCount = m.DataCount := by
  unfold Decoder.CodeSection at h
  split at h
  · cases h
  · cases h
  · rename_i l en i hh
    obtain ⟨hid, hl0, hl63, size, i0, hsz, hen, hl⟩ := Decoder.sectionHeaderLen_ok hh
    split at h
    · cases h
    · cases h
    · rename_i vs j1 hloop
      split at h
      · cases h
      · split at h
        · cases h
        · rename_i hne
          have hje : j1 = en := by simpa using hne
          injection h with h1 h2
          subst h1 h2
          have hm := Decoder.CodeSection_loop_ok _ _ _ _ _ _ _ hloop
          have hb := LowDecoder.Int_ok hl
          exact ⟨hid, size, i0, hsz, by rw [← hen, ← hje]; omega, rfl, rfl, rfl⟩

theorem Decoder.DataSection_ok {b : List UInt8} {st j : ℤ} {m m1 : Wasm.Module}
    (h : Decoder.DataSection b st m = .ok m1 j) :
    index b st = some Wasm.DataSection ∧ ∃ size i0, LowDecoder.Int b (st + 1) = .ok size i0 ∧
      i0 ≤ addInt i0 size ∧ m1.Sections = m.Sections ∧ m1.Start = m.Start ∧
      m1.DataCount = m.DataCount := by
  unfold Decoder.DataSection at h
  split at h
  · cases h
  · cases h
  · rename_i l en i hh
    obtain ⟨hid, hl0, hl63, size, i0, hsz, hen, hl⟩ := Decoder.sectionHeaderLen_ok hh
    split at h
    · cases h
    · cases h
    · rename_i vs j1 hloop
      split at h
      · cases h
      · split at h
        · cases h
        · rename_i hne
          have hje : j1 = en := by simpa using hne
          injection h with h1 h2
          subst h1 h2
          have hm := Decoder.DataSection_loop_ok _ _ _ _ _ _ _ _ hloop
          have hb := LowDecoder.Int_ok hl
          exact ⟨hid, size, i0, hsz, by rw [← hen, ← hje]; omega, rfl, rfl, rfl⟩

theorem Decoder.StartSection_ok {b : List UInt8} {st j : ℤ} {m m1 : Wasm.Module}
    (h : Decoder.StartSection b st m = .ok m1 j) :
    index b st = some Wasm.StartSection ∧ ∃ size i0, LowDecoder.Int b (st + 1) = .ok size i0 ∧
      i0 ≤ addInt i0 size ∧ m1.Sections = m.Sections ∧ m1.DataCount = m.DataCount ∧
      LowDecoder.Int b i0 = .ok m1.Start (addInt i0 size) := by
  unfold Decoder.StartSection at h
  split at h
  · cases h
  · cases h
  · rename_i l en i hh
    obtain ⟨hid, hl0, hl63, size, i0, hsz, hen, hl⟩ := Decoder.sectionHeaderLen_ok hh
    split at h
    · cases h
    · rename_i hne
      have hje : i = en := by simpa using hne
      injection h with h1 h2
      subst h1 h2
      have hb := LowDecoder.Int_ok hl
      rw [hje, hen] at hl
      exact ⟨hid, size, i0, hsz, by rw [← hen, ← hje]; omega, rfl, rfl, hl⟩

theorem Decoder.DataCountSection_ok {b : List UInt8} {st j : ℤ} {m m1 : Wasm.Module}
    (h : Decoder.DataCountSection b st m = .ok m1 j) :
    index b st = some Wasm.DataCountSection ∧ ∃ size i0, LowDecoder.Int b (st + 1) = .ok size i0 ∧
      i0 ≤ addInt i0 size ∧ m1.Sections = m.Sections ∧ m1.Start = m.Start ∧
      LowDecoder.Int b i0 = .ok m1.DataCount (addInt i0 size) := by
  unfold Decoder.DataCountSection at h
  split at h
  · cases h
  · cases h
  · rename_i l en i hh
    obtain ⟨hid, hl0, hl63, size, i0, hsz, hen, hl⟩ := Decoder.sectionHeaderLen_ok hh
    split at h
    · cases h
    · rename_i hne
      have hje : i = en := by simpa using hne
      injection h with h1 h2
      subst h1 h2
      have hb := LowDecoder.Int_ok hl
      rw [hje, hen] at hl
      exact ⟨hid, size, i0, hsz, by rw [← hen, ← hje]; omega, rfl, rfl, hl⟩

theorem Decoder.CustomSection_ok {b : List UInt8} {st j : ℤ} {m m1 : Wasm.Module}
    (h : Decoder.CustomSection b st m = .ok m1 j) :
    index b st = some Wasm.CustomSection ∧ ∃ size i0, LowDecoder.Int b (st + 1) = .ok size i0 ∧
      i0 ≤ addInt i0 size ∧ m1.Sections = m.Sections ∧ m1.Start = m.Start ∧
      m1.DataCount = m.DataCount := by
  unfold Decoder.CustomSection at h
  split at h
  · cases h
  · cases h
  · rename_i en i hh
    obtain ⟨hid, size, hsz, hen⟩ := Decoder.sectionHeader_ok hh
    split at h
    · cases h
    · cases h
    · rename_i name i1 hname
      have hn := LowDecoder.Name_ok hname
      split at h
      · cases h
      · rename_i data hd
        have hs := slice_some_bounds hd
        injection h with h1 h2
        subst h1 h2
        exact ⟨hid, size, i, hsz, by rw [← hen]; omega, rfl, rfl, rfl⟩


theorem Decoder.Module_dispatch_ok {b : List UInt8} {id : UInt8} {i j : ℤ} {m m1 : Wasm.Module}
    (h : Decoder.Module.dispatch b id i m = some (.ok m1 j)) :
    index b i = some id ∧ ∃ size i0, LowDecoder.Int b (i + 1) = .ok size i0 ∧
      i0 ≤ addInt i0 size ∧ m1.Sections = m.Sections ∧
      (id ≠ Wasm.StartSection → m1.Start = m.Start) ∧
      (id ≠ Wasm.DataCountSection → m1.DataCount = m.DataCount) ∧
      (id = Wasm.StartSection → LowDecoder.Int b i0 = .ok m1.Start (addInt i0 size)) ∧
      (id = Wasm.DataCountSection → LowDecoder.Int b i0 = .ok m1.DataCount (addInt i0 size)) := by
  rw [Decoder.Module.dispatch] at h
  by_cases hid0 : id = Wasm.CustomSection
  · rw [if_pos hid0] at h
    subst hid0
    injection h with h
    obtain ⟨h1, size, i0, h2, h3, h4, h5, h6⟩ := Decoder.CustomSection_ok h
    exact ⟨h1, size, i0, h2, h3, h4, fun _ => h5, fun _ => h6,
      fun hc => absurd hc (by decide), fun hc => absurd hc (by decide)⟩
  rw [if_neg hid0] at h
  by_cases hid1 : id = Wasm.TypeSection
  · rw [if_pos hid1] at h
    subst hid1
    injection h with h
    obtain ⟨h1, size, i0, h2, h3, h4, h5, h6⟩ := Decoder.TypeSection_ok h
    exact ⟨h1, size, i0, h2, h3, h4, fun _ => h5, fun _ => h6,
      fun hc => absurd hc (by decide), fun hc => absurd hc (by decide)⟩
  rw [if_neg hid1] at h
  by_cases hid2 : id = Wasm.ImportSection
  · rw [if_pos hid2] at h
    subst hid2
    injection h with h
    obtain ⟨h1, size, i0, h2, h3, h4, h5, h6⟩ := Decoder.ImportSection_ok h
    exact ⟨h1, size, i0, h2, h3, h4, fun _ => h5, fun _ => h6,
      fun hc => absurd hc (by decide), fun hc => absurd hc (by decide)⟩
  rw [if_neg hid2] at h
  by_cases hid3 : id = Wasm.FunctionSection
  · rw [if_pos hid3] at h
    subst hid3
    injection h with h
    obtain ⟨h1, size, i0, h2, h3, h4, h5, h6⟩ := Decoder.FunctionSection_ok h
    exact ⟨h1, size, i0, h2, h3, h4, fun _ => h5, fun _ => h6,
      fun hc => absurd hc (by decide), fun hc => absurd hc (by decide)⟩
  rw [if_neg hid3] at h
  by_cases hid4 : id = Wasm.TableSection
  · rw [if_pos hid4] at h
    subst hid4
    injection h with h
    obtain ⟨h1, size, i0, h2, h3, h4, h5, h6⟩ := Decoder.TableSection_ok h
    exact ⟨h1, size, i0, h2, h3, h4, fun _ => h5, fun _ => h6,
      fun hc => absurd hc (by decide), fun hc => absurd hc (by decide)⟩
  rw [if_neg hid4] at h
  by_cases hid5 : id = Wasm.MemorySection
  · rw [if_pos hid5] at h
    subst hid5
    injection h with h
    obtain ⟨h1, size, i0, h2, h3, h4, h5, h6⟩ := Decoder.MemorySection_ok h
    exact ⟨h1, size, i0, h2, h3, h4, fun _ => h5, fun _ => h6,
      fun hc => absurd hc (by decide), fun hc => absurd hc (by decide)⟩
  rw [if_neg hid5] at h
  by_cases hid6 : id = Wasm.GlobalSection
  · rw [if_pos hid6] at h
    subst hid6
    injection h with h
    obtain ⟨h1, size, i0, h2, h3, h4, h5, h6⟩ := Decoder.GlobalSection_ok h
    exact ⟨h1, size, i0, h2, h3, h4, fun _ => h5, fun _ => h6,
      fun hc => absurd hc (by decide), fun hc => absurd hc (by decide)⟩
  rw [if_neg hid6] at h
  by_cases hid7 : id = Wasm.ExportSection
  · rw [if_pos hid7] at h
    subst hid7
    injection h with h
    obtain ⟨h1, size, i0, h2, h3, h4, h5, h6⟩ := Decoder.ExportSection_ok h
    exact ⟨h1, size, i0, h2, h3, h4, fun _ => h5, fun _ => h6,
      fun hc => absurd hc (by decide), fun hc => absurd hc (by decide)⟩
  rw [if_neg hid7] at h
  by_cases hid8 : id = Wasm.ElementSection
  · rw [if_pos hid8] at h
    subst hid8
    injection h with h
    obtain ⟨h1, size, i0, h2, h3, h4, h5, h6⟩ := Decoder.ElementSection_ok h
    exact ⟨h1, size, i0, h2, h3, h4, fun _ => h5, fun _ => h6,
      fun hc => absurd hc (by decide), fun hc => absurd hc (by decide)⟩
  rw [if_neg hid8] at h
  by_cases hid9 : id = Wasm.CodeSection
  · rw [if_pos hid9] at h
    subst hid9
    injection h with h
    obtain ⟨h1, size, i0, h2, h3, h4, h5, h6⟩ := Decoder.CodeSection_ok h
    exact ⟨h1, size, i0, h2, h3, h4, fun _ => h5, fun _ => h6,
      fun hc => absurd hc (by decide), fun hc => absurd hc (by decide)⟩
  rw [if_neg hid9] at h
  by_cases hid10 : id = Wasm.DataSection
  · rw [if_pos hid10] at h
    subst hid10
    injection h with h
    obtain ⟨h1, size, i0, h2, h3, h4, h5, h6⟩ := Decoder.DataSection_ok h
    exact ⟨h1, size, i0, h2, h3, h4, fun _ => h5, fun _ => h6,
      fun hc => absurd hc (by decide), fun hc => absurd hc (by decide)⟩
  rw [if_neg hid10] at h
  by_cases hid11 : id = Wasm.DataCountSection
  · rw [if_pos hid11] at h
    subst hid11
    injection h with h
    obtain ⟨h1, size, i0, h2, h3, h4, h5, h6⟩ := Decoder.DataCountSection_ok h
    exact ⟨h1, size, i0, h2, h3, h4, fun _ => h5, fun hc => absurd rfl hc,
      fun hc => absurd hc (by decide), fun _ => h6⟩
  rw [if_neg hid11] at h
  by_cases hid12 : id = Wasm.StartSection
  · rw [if_pos hid12] at h
    subst hid12
    injection h with h
    obtain ⟨h1, size, i0, h2, h3, h4, h5, h6⟩ := Decoder.StartSection_ok h
    exact ⟨h1, size, i0, h2, h3, h4, fun hc => absurd rfl hc, fun _ => h5, fun _ => h6,
      fun hc => absurd hc (by decide)⟩
  rw [if_neg hid12] at h
  cases h

/-! ## Decoding inside a slice -/

theorem slice_length {b data : List UInt8} {lo hi : ℤ} (h : slice b lo hi = some data) :
    (data.length : ℤ) = hi - lo := by
  have hb := slice_some_bounds h
  unfold slice at h
  rw [if_pos hb] at h
  injection h with h
  subst h
  rw [List.length_take, List.length_drop]
  omega

theorem index_slice {b data : List UInt8} {lo hi : ℤ} (h : slice b lo hi = some data)
    (j : ℤ) (h0 : 0 ≤ j) (h1 : j < hi - lo) : index data j = index b (lo + j) := by
  have hb := slice_some_bounds h
  unfold slice at h
  rw [if_pos hb] at h
  injection h with h
  subst h
  unfold index
  rw [if_pos h0, if_pos (by omega), List.getElem?_take_of_lt (by omega), List.getElem?_drop]
  congr 1
  omega

theorem LowDecoder.Uint64_loop_lt (b : List UInt8) (st : ℤ) (f : Nat) :
    ∀ (acc s : Nat) (i : ℤ) (v : Nat) (j : ℤ),
    LowDecoder.Uint64.loop b st f acc s i = .ok v j → i < j := by
  induction f with
  | zero => intro acc s i v j h; simp [LowDecoder.Uint64.loop] at h
  | succ f ih =>
    intro acc s i v j h
    rw [LowDecoder.Uint64.loop] at h
    split at h
    · split at h
      · cases h
      · simp only at h
        split at h
        · injection h with h1 h2; omega
        · split at h
          · cases h
          · have := ih _ _ _ _ _ h
            omega
    · cases h

/-- The unsigned LEB128 decoder reads the same value inside a slice that
contains the bytes it consumed. -/
theorem LowDecoder.Uint64_loop_slice (b data : List UInt8) (lo hi : ℤ)
    (hs : slice b lo hi = some data) (st st2 : ℤ) (f : Nat) :
    ∀ (f2 acc s : Nat) (i : ℤ) (v : Nat) (j : ℤ),
    LowDecoder.Uint64.loop b st f acc s i = .ok v j → lo ≤ i → j ≤ hi → j - i ≤ f2 →
    LowDecoder.Uint64.loop data st2 f2 acc s (i - lo) = .ok v (j - lo) := by
  induction f with
  | zero => intro f2 acc s i v j h; simp [LowDecoder.Uint64.loop] at h
  | succ f ih =>
    intro f2 acc s i v j h hlo hhi hf2
    have hlen := slice_length hs
    rw [LowDecoder.Uint64.loop] at h
    split at h
    · split at h
      · cases h
      · rename_i x hx
        simp only at h
        have hij : i < j := by
          split at h
          · injection h with h1 h2; omega
          · split at h
            · cases h
            · have := LowDecoder.Uint64_loop_lt _ _ _ _ _ _ _ _ h
              omega
        obtain ⟨f2, rfl⟩ : ∃ g, f2 = g + 1 := ⟨f2 - 1, by omega⟩
        have hx2 : index data (i - lo) = some x := by
          rw [index_slice hs _ (by omega) (by omega), ← hx]
          congr 1
          omega
        rw [LowDecoder.Uint64.loop, if_pos (by omega), hx2]
        simp only
        split at h
        · rename_i hc
          rw [if_pos hc]
          injection h with h1 h2
          subst h1 h2
          congr 1
          omega
        · rename_i hc
          rw [if_neg hc]
          split at h
          · cases h
          · rename_i hov
            rw [if_neg hov]
            have := ih f2 _ _ _ _ _ h (by omega) hhi (by omega)
            rw [← this]
            congr 1
            omega
    · cases h


theorem LowDecoder.Int_slice {b data : List UInt8} {lo hi l : ℤ}
    (hs : slice b lo hi = some data) (h : LowDecoder.Int b lo = .ok l hi) :
    ∃ v : Nat, LowDecoder.Uint64 data 0 = .ok v data.length ∧ l = v := by
  unfold LowDecoder.Int at h
  split at h
  · rename_i x j hx
    injection h with h1 h2
    subst h1 h2
    have hb := LowDecoder.Uint64_ok hx
    have hlen := slice_length hs
    have hbs := slice_some_bounds hs
    refine ⟨x, ?_, toInt64_of_lt _ hb.2.2.2⟩
    have := LowDecoder.Uint64_loop_slice b data lo j hs lo 0 _ (data.length + 1) 0 0 lo x j hx
      (le_refl _) (le_refl _) (by omega)
    unfold LowDecoder.Uint64
    rw [hlen]
    simpa using this
  · cases h
  · cases h


/-! ## The section loop of `Decoder.Module` against the envelopes of the input -/

theorem LowDecoder.Section_of_Int {b : List UInt8} {i size i0 : ℤ} {id : UInt8}
    (hid : index b i = some id) (hsz : LowDecoder.Int b (i + 1) = .ok size i0)
    (hle : i0 ≤ addInt i0 size) (hen : ¬ addInt i0 size > b.length) :
    ∃ data, slice b i0 (addInt i0 size) = some data ∧
      LowDecoder.Section b i = .ok (id, data) (addInt i0 size) := by
  have hb := LowDecoder.Int_ok hsz
  have hsl : 0 ≤ i0 ∧ i0 ≤ addInt i0 size ∧ addInt i0 size ≤ b.length := ⟨by omega, hle, by omega⟩
  refine ⟨(b.drop i0.toNat).take ((addInt i0 size).toNat - i0.toNat), ?_, ?_⟩
  · unfold slice
    rw [if_pos hsl]
  · unfold LowDecoder.Section
    simp only
    rw [if_neg (by omega), hid]
    simp only
    rw [hsz]
    simp only
    rw [if_neg hen]
    unfold slice
    rw [if_pos hsl]

/-- The invariant of the section loop for a field `g` of the module that
only the section `sid` assigns, from the unsigned LEB at the head of its
payload. -/
theorem Decoder.Module_loop_field (g : Wasm.Module → ℤ) (sid : UInt8)
    (hsec : ∀ (m : Wasm.Module) (s : List UInt8), g { m with Sections := s } = g m)
    (hdis : ∀ (b : List UInt8) (id : UInt8) (i j : ℤ) (m m1 : Wasm.Module),
      Decoder.Module.dispatch b id i m = some (.ok m1 j) →
      (id ≠ sid → g m1 = g m) ∧
      (id = sid → ∀ size i0, LowDecoder.Int b (i + 1) = .ok size i0 →
        LowDecoder.Int b i0 = .ok (g m1) (addInt i0 size)))
    (b : List UInt8) (f : Nat) :
    ∀ (i : ℤ) (m m' : Wasm.Module) (j : ℤ), (b.length : ℤ) - i ≤ f →
    Decoder.Module.loop b f i m = .ok m' j →
    ∃ envs, envelopes.loop b f i = some envs ∧
      m'.Sections = m.Sections ++ envs.map Prod.fst ∧
      ((∀ e ∈ envs, e.1 ≠ sid) → g m' = g m) ∧
      (∀ pre data post, envs = pre ++ (sid, data) :: post → (∀ e ∈ post, e.1 ≠ sid) →
        ∃ v : Nat, LowDecoder.Uint64 data 0 = .ok v data.length ∧ g m' = v) := by
  induction f with
  | zero =>
    intro i m m' j hf h
    rw [Decoder.Module.loop] at h
    injection h with h1 h2
    subst h1
    refine ⟨[], ?_, by simp, fun _ => rfl, ?_⟩
    · rw [envelopes.loop, if_neg (by omega)]
    · intro pre data post hp
      simp at hp
  | succ f ih =>
    intro i m m' j hf h
    rw [Decoder.Module.loop] at h
    split at h
    · rename_i hlt
      split at h
      · cases h
      · rename_i id hid
        simp only at h
        split at h
        · cases h
        · cases h
        · rename_i size en0 hsz
          split at h
          · cases h
          · rename_i hen
            split at h
            · cases h
            · cases h
            · cases h
            · rename_i m1 j1 hd
              obtain ⟨-, size2, i02, hsz2, hle, hsect, -⟩ := Decoder.Module_dispatch_ok hd
              rw [hsz] at hsz2
              injection hsz2 with e1 e2
              subst e1 e2
              obtain ⟨hg1, hg2⟩ := hdis _ _ _ _ _ _ hd
              have hb := LowDecoder.Int_ok hsz
              obtain ⟨data, hsl, hS⟩ := LowDecoder.Section_of_Int hid hsz hle hen
              obtain ⟨envs, he, hs, hn, hl⟩ := ih _ _ _ _ (by omega) h
              refine ⟨(id, data) :: envs, ?_, ?_, ?_, ?_⟩
              · rw [envelopes.loop, if_pos hlt, hS]
                simp only
                rw [he]
                rfl
              · rw [hs, hsect]
                simp
              · intro hall
                have h1 : id ≠ sid := hall (id, data) (by simp)
                rw [hn (fun e he => hall e (by simp [he])), hg1 h1, hsec]
              · intro pre d post hp hpost
                cases pre with
                | nil =>
                  simp only [List.nil_append, List.cons.injEq, Prod.mk.injEq] at hp
                  obtain ⟨⟨h1, h2⟩, h3⟩ := hp
                  subst h1 h2 h3
                  rw [hn hpost]
                  exact LowDecoder.Int_slice hsl (hg2 rfl _ _ hsz)
                | cons e pre =>
                  simp only [List.cons_append, List.cons.injEq] at hp
                  exact hl pre d post hp.2 hpost
    · rename_i hge
      injection h with h1 h2
      subst h1
      refine ⟨[], ?_, by simp, fun _ => rfl, ?_⟩
      · rw [envelopes.loop, if_neg hge]
      · intro pre data post hp
        simp at hp


theorem Decoder.Module_loop_Start (b : List UInt8) (f : Nat) (i : ℤ) (m m' : Wasm.Module) (j : ℤ)
    (hf : (b.length : ℤ) - i ≤ f) (h : Decoder.Module.loop b f i m = .ok m' j) :
    ∃ envs, envelopes.loop b f i = some envs ∧
      m'.Sections = m.Sections ++ envs.map Prod.fst ∧
      ((∀ e ∈ envs, e.1 ≠ Wasm.StartSection) → m'.Start = m.Start) ∧
      (∀ pre data post, envs = pre ++ (Wasm.StartSection, data) :: post →
        (∀ e ∈ post, e.1 ≠ Wasm.StartSection) →
        ∃ v : Nat, LowDecoder.Uint64 data 0 = .ok v data.length ∧ m'.Start = v) := by
  refine Decoder.Module_loop_field (fun m => m.Start) Wasm.StartSection (fun _ _ => rfl) ?_
    b f i m m' j hf h
  intro b id i j m m1 hd
  obtain ⟨-, size, i0, hsz, -, -, h1, -, h2, -⟩ := Decoder.Module_dispatch_ok hd
  refine ⟨h1, ?_⟩
  intro hid size2 i02 hsz2
  rw [hsz] at hsz2
  injection hsz2 with e1 e2
  subst e1 e2
  exact h2 hid

theorem Decoder.Module_loop_DataCount (b : List UInt8) (f : Nat) (i : ℤ) (m m' : Wasm.Module)
    (j : ℤ) (hf : (b.length : ℤ) - i ≤ f) (h : Decoder.Module.loop b f i m = .ok m' j) :
    ∃ envs, envelopes.loop b f i = some envs ∧
      m'.Sections = m.Sections ++ envs.map Prod.fst ∧
      ((∀ e ∈ envs, e.1 ≠ Wasm.DataCountSection) → m'.DataCount = m.DataCount) ∧
      (∀ pre data post, envs = pre ++ (Wasm.DataCountSection, data) :: post →
        (∀ e ∈ post, e.1 ≠ Wasm.DataCountSection) →
        ∃ v : Nat, LowDecoder.Uint64 data 0 = .ok v data.length ∧ m'.DataCount = v) := by
  refine Decoder.Module_loop_field (fun m => m.DataCount) Wasm.DataCountSection (fun _ _ => rfl) ?_
    b f i m m' j hf h
  intro b id i j m m1 hd
  obtain ⟨-, size, i0, hsz, -, -, -, h1, -, h2⟩ := Decoder.Module_dispatch_ok hd
  refine ⟨h1, ?_⟩
  intro hid size2 i02 hsz2
  rw [hsz] at hsz2
  injection hsz2 with e1 e2
  subst e1 e2
  exact h2 hid

/-- A successful `Decoder.Module` ran the section loop from offset 8 on a
module with `Start = -1`, `DataCount = 0` and the sections it was given. -/
theorem Decoder.Module_ok_loop {b : List UInt8} {m0 m : Wasm.Module}
    (h : Decoder.Module b m0 = .ok m) :
    ∃ mi j, Decoder.Module.loop b b.length 8 mi = .ok m j ∧ mi.Sections = m0.Sections ∧
      mi.Start = -1 ∧ mi.DataCount = 0 := by
  unfold Decoder.Module Decoder.Module.deferred at h
  split at h
  · cases h
  · cases h
  · rename_i m2 j hbody
    injection h with h1
    subst h1
    unfold Decoder.Module.body at hbody
    simp only at hbody
    split at hbody
    · cases hbody
    · split at hbody
      · cases hbody
      · split at hbody
        · cases hbody
        · split at hbody
          · cases hbody
          · split at hbody
            · cases hbody
            · have e8 : (0 : ℤ) + (Magic.length : ℤ) + 4 = 8 := by simp [Magic]
              rw [e8] at hbody
              exact ⟨_, j, hbody, rfl, rfl, rfl⟩

/-- A list with an element satisfying `p` splits at the last such element. -/
theorem exists_last_split {α : Type} (p : α → Prop) [DecidablePred p] :
    ∀ (l : List α), (∃ e ∈ l, p e) →
    ∃ pre x post, l = pre ++ x :: post ∧ p x ∧ ∀ e ∈ post, ¬ p e := by
  intro l
  induction l with
  | nil => intro h; simp at h
  | cons a l ih =>
    intro h
    by_cases hl : ∃ e ∈ l, p e
    · obtain ⟨pre, x, post, h1, h2, h3⟩ := ih hl
      exact ⟨a :: pre, x, post, by simp [h1], h2, h3⟩
    · have ha : p a := by
        obtain ⟨e, he, hp⟩ := h
        rcases List.mem_cons.mp he with h1 | h1
        · exact h1 ▸ hp
        · exact absurd ⟨e, h1, hp⟩ hl
      refine ⟨[], a, l, rfl, ha, ?_⟩
      intro e he hp
      exact hl ⟨e, he, hp⟩


/-- Shared form of the section trace: the ids stored by a successful
`Decoder.Module` on a fresh module are the ids of the envelopes of the
input. -/
theorem Decoder.Module_sections {b : List UInt8} {m : Wasm.Module}
    (h : Decoder.Module b Module.zero = .ok m) :
    ∃ envs, envelopes b = some envs ∧ m.Sections = envs.map Prod.fst := by
  obtain ⟨mi, j, hl, hs, -, -⟩ := Decoder.Module_ok_loop h
  obtain ⟨envs, he, hsec, -, -⟩ := Decoder.Module_loop_Start b b.length 8 mi m j (by omega) hl
  refine ⟨envs, he, ?_⟩
  rw [hsec, hs]
  rfl

/-- C7 (amended): on every input that `Decoder.Module` decodes into a fresh
module, `DataCount` is 0 when the input has no data-count section (id 12),
and otherwise it is the count declared by the last data-count section, the
unsigned LEB128 integer that fills its payload.  A nonzero `DataCount`
therefore implies a data-count section; the converse does not hold. -/
theorem module_datacount_sentinel (b : List UInt8) (m : Wasm.Module)
    (h : Decoder.Module b Module.zero = .ok m) :
    ∃ envs, envelopes b = some envs ∧
      ((∀ e ∈ envs, e.1 ≠ DataCountSection) → m.DataCount = 0) ∧
      (∀ pre data post, envs = pre ++ (DataCountSection, data) :: post →
        (∀ e ∈ post, e.1 ≠ DataCountSection) →
        ∃ v : Nat, LowDecoder.Uint64 data 0 = .ok v data.length ∧ m.DataCount = v) := by
  obtain ⟨mi, j, hl, -, -, hd⟩ := Decoder.Module_ok_loop h
  obtain ⟨envs, he, -, h1, h2⟩ :=
    Decoder.Module_loop_DataCount b b.length 8 mi m j (by omega) hl
  exact ⟨envs, he, fun hall => by rw [h1 hall, hd], h2⟩

/-- C7 (counterexample): the module image `\0asm 01 00 00 00 | 0c 01 00`
has a data-count section declaring the count 0; it decodes, and `DataCount`
is 0 although a section with id 12 is present. -/
theorem module_datacount_sentinel_counterexample :
    Decoder.Module [0, 0x61, 0x73, 0x6d, 1, 0, 0, 0, 0x0c, 1, 0] Module.zero
      = .ok { Module.zero with Version := 1, Start := -1, DataCount := 0, Sections := [12] } ∧
    envelopes [0, 0x61, 0x73, 0x6d, 1, 0, 0, 0, 0x0c, 1, 0] = some [(DataCountSection, [0])] ∧
    ¬ ((0 : ℤ) = 0 ↔ ∀ e ∈ [(DataCountSection, ([0] : List UInt8))], e.1 ≠ DataCountSection) := by
  refine ⟨by decide, by decide, ?_⟩
  simp

/-- C7 (witness): the amended statement at an input with two data-count
sections, `0c 01 05` and `0c 01 03`. -/
theorem module_datacount_sentinel_witness :
    Decoder.Module [0, 0x61, 0x73, 0x6d, 1, 0, 0, 0, 0x0c, 1, 5, 0x0c, 1, 3] Module.zero
      = .ok { Module.zero with Version := 1, Start := -1, DataCount := 3, Sections := [12, 12] } ∧
    ∃ envs, envelopes [0, 0x61, 0x73, 0x6d, 1, 0, 0, 0, 0x0c, 1, 5, 0x0c, 1, 3] = some envs ∧
      ((∀ e ∈ envs, e.1 ≠ DataCountSection) → (3 : ℤ) = 0) ∧
      (∀ pre data post, envs = pre ++ (DataCountSection, data) :: post →
        (∀ e ∈ post, e.1 ≠ DataCountSection) →
        ∃ v : Nat, LowDecoder.Uint64 data 0 = .ok v data.length ∧ (3 : ℤ) = v) :=
  ⟨by decide,
   module_datacount_sentinel [0, 0x61, 0x73, 0x6d, 1, 0, 0, 0, 0x0c, 1, 5, 0x0c, 1, 3]
     { Module.zero with Version := 1, Start := -1, DataCount := 3, Sections := [12, 12] }
     (by decide)⟩

/-- C8: on every input that `Decoder.Module` decodes into a fresh module,
`Start` is -1 exactly when the input has no start section (id 8); when one
is present `Start` is the non-negative unsigned LEB128 integer that fills
the payload of the (last) start section. -/
theorem module_start_sentinel (b : List UInt8) (m : Wasm.Module)
    (h : Decoder.Module b Module.zero = .ok m) :
    ∃ envs, envelopes b = some envs ∧
      (m.Start = -1 ↔ ∀ e ∈ envs, e.1 ≠ StartSection) ∧
      (∀ pre data post, envs = pre ++ (StartSection, data) :: post →
        (∀ e ∈ post, e.1 ≠ StartSection) →
        ∃ v : Nat, LowDecoder.Uint64 data 0 = .ok v data.length ∧ m.Start = v ∧ 0 ≤ m.Start) := by
  obtain ⟨mi, j, hl, -, hs, -⟩ := Decoder.Module_ok_loop h
  obtain ⟨envs, he, -, h1, h2⟩ := Decoder.Module_loop_Start b b.length 8 mi m j (by omega) hl
  refine ⟨envs, he, ⟨?_, fun hall => by rw [h1 hall, hs]⟩, ?_⟩
  · intro hm e he2 hid
    obtain ⟨pre, x, post, hsplit, hx, hpost⟩ :=
      exists_last_split (fun e : UInt8 × List UInt8 => e.1 = StartSection) envs ⟨e, he2, hid⟩
    obtain ⟨xid, data⟩ := x
    simp only at hx
    subst hx
    obtain ⟨v, -, hv⟩ := h2 pre data post hsplit hpost
    omega
  · intro pre data post hsplit hpost
    obtain ⟨v, hv1, hv2⟩ := h2 pre data post hsplit hpost
    exact ⟨v, hv1, hv2, by omega⟩

/-- C8 (witness): `08 01 07` after the header gives `Start = 7`. -/
theorem module_start_sentinel_witness :
    Decoder.Module [0, 0x61, 0x73, 0x6d, 1, 0, 0, 0, 8, 1, 7] Module.zero
      = .ok { Module.zero with Version := 1, Start := 7, Sections := [8] } ∧
    ∃ envs, envelopes [0, 0x61, 0x73, 0x6d, 1, 0, 0, 0, 8, 1, 7] = some envs ∧
      ((7 : ℤ) = -1 ↔ ∀ e ∈ envs, e.1 ≠ StartSection) ∧
      (∀ pre data post, envs = pre ++ (StartSection, data) :: post →
        (∀ e ∈ post, e.1 ≠ StartSection) →
        ∃ v : Nat, LowDecoder.Uint64 data 0 = .ok v data.length ∧ (7 : ℤ) = v ∧ (0 : ℤ) ≤ 7) :=
  ⟨by decide,
   module_start_sentinel [0, 0x61, 0x73, 0x6d, 1, 0, 0, 0, 8, 1, 7]
     { Module.zero with Version := 1, Start := 7, Sections := [8] } (by decide)⟩

/-- C9: on every input that `Decoder.Module` decodes into a fresh module,
`Sections` is the list of the id bytes of the section envelopes read one
after the other with `LowDecoder.Section` from offset 8 to the end of the
input, in order and with duplicates. -/
theorem module_sections_trace (b : List UInt8) (m : Wasm.Module)
    (h : Decoder.Module b Module.zero = .ok m) :
    (envelopes b).map (fun envs => envs.map Prod.fst) = some m.Sections := by
  obtain ⟨envs, he, hs⟩ := Decoder.Module_sections h
  rw [he, hs]
  rfl

/-- C9 (witness): a type section, a custom section and a second type
section give `Sections = [1, 0, 1]`. -/
theorem module_sections_trace_witness :
    Decoder.Module [0, 0x61, 0x73, 0x6d, 1, 0, 0, 0, 1, 4, 1, 0x60, 0, 0, 0, 4, 1, 0x78, 0xaa, 0xbb,
        1, 1, 0] Module.zero
      = .ok { Module.zero with
              Version := 1, Start := -1, Custom := [⟨[0x78], [0xaa, 0xbb]⟩],
              Sections := [1, 0, 1] } ∧
    (envelopes [0, 0x61, 0x73, 0x6d, 1, 0, 0, 0, 1, 4, 1, 0x60, 0, 0, 0, 4, 1, 0x78, 0xaa, 0xbb,
        1, 1, 0]).map (fun envs => envs.map Prod.fst) = some [1, 0, 1] :=
  ⟨by decide,
   module_sections_trace _
     { Module.zero with
       Version := 1, Start := -1, Custom := [⟨[0x78], [0xaa, 0xbb]⟩],
       Sections := [1, 0, 1] } (by decide)⟩


/-- C1 (failing input): `LowEncoder.Uint64` writes the `uint64` value
`2^63` in ten bytes, and `LowDecoder.Uint64` rejects that encoding with
`ErrOverflow` at the ninth continuation byte instead of returning `2^63`;
the same happens for the largest `uint64`, while `2^63 - 1` (nine bytes)
is read back. -/
theorem uint64_roundtrip_overflow :
    LowEncoder.Uint64 [] (2 ^ 63) = [0x80, 0x80, 0x80, 0x80, 0x80, 0x80, 0x80, 0x80, 0x80, 0x01] ∧
    LowDecoder.Uint64 (LowEncoder.Uint64 [] (2 ^ 63)) 0 = .fail 0 .ErrOverflow ∧
    LowDecoder.Uint64 (LowEncoder.Uint64 [] (2 ^ 64 - 1)) 0 = .fail 0 .ErrOverflow ∧
    LowDecoder.Uint64 (LowEncoder.Uint64 [] (2 ^ 63 - 1)) 0 = .ok (2 ^ 63 - 1) 9 := by
  decide

/-- C2 (failing input): `LowEncoder.Int64` writes the largest and the
smallest `int64` in ten bytes, and `LowDecoder.Int64` rejects both
encodings with `ErrOverflow`; so it does for `2^62` and `-2^62 - 1`, while
their neighbours `2^62 - 1` and `-2^62` (nine bytes) are read back. -/
theorem int64_roundtrip_overflow :
    LowEncoder.Int64 [] (2 ^ 63 - 1) = [0xff, 0xff, 0xff, 0xff, 0xff, 0xff, 0xff, 0xff, 0xff, 0x00] ∧
    LowDecoder.Int64 (LowEncoder.Int64 [] (2 ^ 63 - 1)) 0 = .fail 0 .ErrOverflow ∧
    LowEncoder.Int64 [] (-2 ^ 63) = [0x80, 0x80, 0x80, 0x80, 0x80, 0x80, 0x80, 0x80, 0x80, 0x7f] ∧
    LowDecoder.Int64 (LowEncoder.Int64 [] (-2 ^ 63)) 0 = .fail 0 .ErrOverflow ∧
    LowDecoder.Int64 (LowEncoder.Int64 [] (2 ^ 62)) 0 = .fail 0 .ErrOverflow ∧
    LowDecoder.Int64 (LowEncoder.Int64 [] (-2 ^ 62 - 1)) 0 = .fail 0 .ErrOverflow ∧
    LowDecoder.Int64 (LowEncoder.Int64 [] (2 ^ 62 - 1)) 0 = .ok (2 ^ 62 - 1) 9 ∧
    LowDecoder.Int64 (LowEncoder.Int64 [] (-2 ^ 62)) 0 = .ok (-2 ^ 62) 9 := by
  decide

/-- C3 (failing input): on a sixteen-byte buffer whose bytes 8..15 hold the
little-endian integer 2, `LowDecoder.Float64` at offset 8 returns offset 16
and the bit pattern 1, which is the integer held in bytes 0..7; decoding the
last eight bytes on their own gives 2. -/
theorem float64_reads_buffer_start :
    LowDecoder.Float64 [1, 0, 0, 0, 0, 0, 0, 0, 2, 0, 0, 0, 0, 0, 0, 0] 8 = .ok 1 16 ∧
    LowDecoder.Float64 [2, 0, 0, 0, 0, 0, 0, 0] 0 = .ok 2 8 := by
  decide

/-- The value returned by `LowDecoder.Float64` does not depend on the offset:
whenever eight bytes remain at `st`, it is the value decoded at offset 0. -/
theorem LowDecoder.Float64_offset (b : List UInt8) (st : ℤ) (h0 : 0 ≤ st)
    (h8 : st + 8 ≤ b.length) :
    ∃ x, LowDecoder.Float64 b 0 = .ok x 8 ∧ LowDecoder.Float64 b st = .ok x (st + 8) := by
  unfold LowDecoder.Float64
  simp only
  rw [if_neg (by omega), if_neg (by omega)]
  split
  · exact ⟨_, rfl, rfl⟩
  · rename_i hno
    exfalso
    match b, h8 with
    | x0 :: x1 :: x2 :: x3 :: x4 :: x5 :: x6 :: x7 :: r, _ =>
      exact hno x0 x1 x2 x3 x4 x5 x6 x7 (by simp [index]) (by simp [index]) (by simp [index])
        (by simp [index]) (by simp [index]) (by simp [index]) (by simp [index]) (by simp [index])
    | [], h8 => simp at h8; omega
    | [_], h8 => simp at h8; omega
    | [_, _], h8 => simp at h8; omega
    | [_, _, _], h8 => simp at h8; omega
    | [_, _, _, _], h8 => simp at h8; omega
    | [_, _, _, _, _], h8 => simp at h8; omega
    | [_, _, _, _, _, _], h8 => simp at h8; omega
    | [_, _, _, _, _, _, _], h8 => simp at h8; omega

/-- C4 (failing input): the image `\0asm 01 00 00 00 | 00 04 01 78 aa bb`
(one custom section) decodes into a fresh module with `Sections = [0]` and
one `Custom` entry; decoding it again into that module succeeds with
`Sections = [0, 0]` and two `Custom` entries.  In the same way the image
`\0asm 01 00 00 00 | 09 07 01 00 41 00 0b 01 05` (one element with the
function index 5) gives `Funcs = [5]` the first time and `Funcs = [5, 5]`
the second time. -/
theorem module_reuse_appends :
    Decoder.Module [0, 0x61, 0x73, 0x6d, 1, 0, 0, 0, 0, 4, 1, 0x78, 0xaa, 0xbb] Module.zero
      = .ok { Module.zero with
              Version := 1, Start := -1, Custom := [⟨[0x78], [0xaa, 0xbb]⟩], Sections := [0] } ∧
    Decoder.Module [0, 0x61, 0x73, 0x6d, 1, 0, 0, 0, 0, 4, 1, 0x78, 0xaa, 0xbb]
        { Module.zero with
          Version := 1, Start := -1, Custom := [⟨[0x78], [0xaa, 0xbb]⟩], Sections := [0] }
      = .ok { Module.zero with
              Version := 1, Start := -1,
              Custom := [⟨[0x78], [0xaa, 0xbb]⟩, ⟨[0x78], [0xaa, 0xbb]⟩], Sections := [0, 0] } ∧
    Decoder.Module [0, 0x61, 0x73, 0x6d, 1, 0, 0, 0, 9, 7, 1, 0, 0x41, 0, 0x0b, 1, 5] Module.zero
      = .ok { Module.zero with
              Version := 1, Start := -1, Element := [⟨0, [0x41, 0, 0x0b], [5]⟩], Sections := [9] } ∧
    Decoder.Module [0, 0x61, 0x73, 0x6d, 1, 0, 0, 0, 9, 7, 1, 0, 0x41, 0, 0x0b, 1, 5]
        { Module.zero with
          Version := 1, Start := -1, Element := [⟨0, [0x41, 0, 0x0b], [5]⟩], Sections := [9] }
      = .ok { Module.zero with
              Version := 1, Start := -1, Element := [⟨0, [0x41, 0, 0x0b], [5, 5]⟩],
              Sections := [9, 9] } := by
  decide

/-- C5 (failing input): in the image `\0asm 01 00 00 00 | 00 01 02 78 79`
the custom section declares a one-byte envelope, and its name (length 2,
"xy") decodes without error inside the buffer but ends two bytes past the
envelope; `Decoder.Module` panics on the slice `b[13:11]` instead of
failing with `ErrSizeMismatch`.  A type section whose body ends before its
envelope does fail with `ErrSizeMismatch`. -/
theorem module_custom_overrun_panics :
    Decoder.Module [0, 0x61, 0x73, 0x6d, 1, 0, 0, 0, 0, 1, 2, 0x78, 0x79] Module.zero = .panic ∧
    Decoder.Module [0, 0x61, 0x73, 0x6d, 1, 0, 0, 0, 1, 5, 1, 0x60, 0, 0, 0] Module.zero
      = .fail (.Wrap (.Wrap .ErrSizeMismatch "section id %x" [1]) "at pos 0x%x" [8]) := by
  decide


/-! ## The header of a module image -/

theorem slice_full (b : List UInt8) : slice b 0 b.length = some b := by
  unfold slice
  rw [if_pos ⟨le_refl _, by omega, le_refl _⟩]
  simp

theorem leUint32_eq (x0 x1 x2 x3 : UInt8) (r : List UInt8) :
    leUint32 (x0 :: x1 :: x2 :: x3 :: r)
      = some (x0.toNat + 2 ^ 8 * x1.toNat + 2 ^ 16 * x2.toNat + 2 ^ 24 * x3.toNat) := by
  have h0 := UInt8.toNat_lt_size x0
  have h1 := UInt8.toNat_lt_size x1
  have h2 := UInt8.toNat_lt_size x2
  have h3 := UInt8.toNat_lt_size x3
  simp only [UInt8.size] at h0 h1 h2 h3
  show some (x0.toNat ||| x1.toNat <<< 8 ||| x2.toNat <<< 16 ||| x3.toNat <<< 24) = _
  rw [or_shiftLeft_eq_add _ _ 8 (by omega), or_shiftLeft_eq_add _ _ 16 (by omega),
    or_shiftLeft_eq_add _ _ 24 (by omega)]
  congr 1
  ring

theorem Decoder.Module_header (v0 v1 v2 v3 : UInt8) (rest : List UInt8) (m : Wasm.Module) :
    Decoder.Module (Magic ++ [v0, v1, v2, v3] ++ rest) m =
      if ((v0.toNat + 2 ^ 8 * v1.toNat + 2 ^ 16 * v2.toNat + 2 ^ 24 * v3.toNat : ℕ) : ℤ) > 1 then
        .fail (.Wrap .ErrUnsupportedVersion "at pos 0x%x" [8])
      else
        Decoder.Module.deferred
          (Decoder.Module.loop (Magic ++ [v0, v1, v2, v3] ++ rest)
            (Magic ++ [v0, v1, v2, v3] ++ rest).length 8
            { m with
              Version := ((v0.toNat + 2 ^ 8 * v1.toNat + 2 ^ 16 * v2.toNat + 2 ^ 24 * v3.toNat : ℕ) : ℤ),
              Start := -1, DataCount := 0 }) := by
  have hs4 : slice (Magic ++ [v0, v1, v2, v3] ++ rest) (0 + (Magic.length : ℤ))
      ((Magic ++ [v0, v1, v2, v3] ++ rest).length : ℕ) = some (v0 :: v1 :: v2 :: v3 :: rest) := by
    unfold slice
    rw [if_pos (by simp [Magic]; omega)]
    simp [Magic]
    omega
  unfold Decoder.Module Decoder.Module.body
  simp only
  rw [slice_full, hs4]
  simp only [Option.some_bind, leUint32_eq]
  have hc : common (Magic ++ [v0, v1, v2, v3] ++ rest) Magic = (Magic.length : ℤ) := by
    simp [Magic, common]
  rw [if_neg (by rw [hc]; simp), if_neg (by simp [Magic]; omega)]
  simp only [MaxSupportedVersion]
  have e8 : (0 : ℤ) + (Magic.length : ℤ) + 4 = 8 := by simp [Magic]
  rw [e8]
  split
  · rfl
  · rfl


/-! ## Round trips of the type-shape codec inside a buffer -/

theorem addInt_eq (a b : ℤ) (ha : 0 ≤ a) (hb : 0 ≤ b) (h : a + b < 2 ^ 63) :
    addInt a b = a + b := by
  unfold addInt
  have h1 : toUint64 (a + b) = (a + b).toNat := toUint64_of_nonneg (a + b) (by omega) (by omega)
  have h2 : toInt64 (a + b).toNat = ((a + b).toNat : ℤ) := toInt64_of_lt _ (by omega)
  rw [h1, h2]
  exact Int.toNat_of_nonneg (by omega)

theorem slice_append (a t r : List UInt8) :
    slice (a ++ t ++ r) a.length ((a.length : ℤ) + t.length) = some t := by
  unfold slice
  rw [if_pos (by simp)]
  congr 1
  have e1 : ((a.length : ℤ)).toNat = a.length := by simp
  have e2 : ((a.length : ℤ) + t.length).toNat - a.length = t.length := by omega
  rw [e1, e2, List.append_assoc, List.drop_left, List.take_left]

theorem LowEncoder.Uint64_length_pos (v : Nat) : 0 < (LowEncoder.Uint64 [] v).length := by
  unfold LowEncoder.Uint64
  rw [LowEncoder.Uint64_loop_succ]
  split
  · simp
  · rw [LowEncoder.Uint64_loop_append]; simp

theorem LowEncoder.Int_length_pos (v : ℤ) : 0 < (LowEncoder.Int [] v).length :=
  LowEncoder.Uint64_length_pos _

theorem LowEncoder.ResultType_append (b tp : List UInt8) :
    LowEncoder.ResultType b tp = b ++ (LowEncoder.Int [] tp.length ++ tp) := by
  unfold LowEncoder.ResultType
  rw [LowEncoder.Int_append]
  simp

theorem LowEncoder.FuncType_append (b ps rs : List UInt8) :
    LowEncoder.FuncType b ps rs
      = b ++ ([FuncTypeHeader] ++ (LowEncoder.Int [] ps.length ++ ps)
          ++ (LowEncoder.Int [] rs.length ++ rs)) := by
  unfold LowEncoder.FuncType
  rw [LowEncoder.ResultType_append, LowEncoder.ResultType_append]
  simp

theorem LowEncoder.Section_append (b : List UInt8) (id : UInt8) (data : List UInt8) :
    LowEncoder.Section b id data = b ++ ([id] ++ LowEncoder.Int [] data.length ++ data) := by
  unfold LowEncoder.Section
  rw [LowEncoder.Int_append]
  simp

/-- The decoder `LowDecoder.ResultType` reads back what `LowEncoder.ResultType` wrote
at the position `p.length` of a buffer shorter than `2^63` bytes. -/
theorem LowDecoder.ResultType_encode (p r tp : List UInt8)
    (hlen : (p ++ (LowEncoder.Int [] tp.length ++ tp) ++ r).length < 2 ^ 63) :
    LowDecoder.ResultType (p ++ (LowEncoder.Int [] tp.length ++ tp) ++ r) p.length
      = .ok tp ((p ++ (LowEncoder.Int [] tp.length ++ tp)).length : ℕ) := by
  have hl : tp.length < 2 ^ 63 := by simp at hlen; omega
  have hI := LowDecoder.Int_encode p (tp ++ r) tp.length hl
  have eb : p ++ (LowEncoder.Int [] tp.length ++ tp) ++ r
      = p ++ LowEncoder.Int [] tp.length ++ (tp ++ r) := by simp
  unfold LowDecoder.ResultType
  rw [eb, hI]
  simp only
  have ha : addInt ((p ++ LowEncoder.Int [] (tp.length : ℤ)).length : ℕ) (tp.length : ℤ)
      = ((p ++ LowEncoder.Int [] (tp.length : ℤ)).length : ℕ) + (tp.length : ℤ) := by
    apply addInt_eq _ _ (by omega) (by omega)
    simp at hlen ⊢
    omega
  rw [ha, if_neg (by simp; omega)]
  have hs := slice_append (p ++ LowEncoder.Int [] (tp.length : ℤ)) tp r
  rw [List.append_assoc _ tp r] at hs
  rw [hs]
  simp only
  congr 1
  simp
  omega


/-- The decoder `LowDecoder.FuncType` reads back what `LowEncoder.FuncType` wrote at the
position `p.length` of a buffer shorter than `2^63` bytes. -/
theorem LowDecoder.FuncType_encode (p r ps rs : List UInt8)
    (hlen : (p ++ LowEncoder.FuncType [] ps rs ++ r).length < 2 ^ 63) :
    LowDecoder.FuncType (p ++ LowEncoder.FuncType [] ps rs ++ r) p.length
      = .ok ⟨ps, rs⟩ ((p ++ LowEncoder.FuncType [] ps rs).length : ℕ) := by
  rw [LowEncoder.FuncType_append] at hlen ⊢
  simp only [List.nil_append] at hlen ⊢
  have hp1 := LowEncoder.Int_length_pos (ps.length : ℤ)
  have hp2 := LowEncoder.Int_length_pos (rs.length : ℤ)
  have hx : index (p ++ ([FuncTypeHeader] ++ (LowEncoder.Int [] ps.length ++ ps)
      ++ (LowEncoder.Int [] rs.length ++ rs)) ++ r) p.length = some FuncTypeHeader := by
    have := index_append_right p ((LowEncoder.Int [] ps.length ++ ps)
      ++ (LowEncoder.Int [] rs.length ++ rs) ++ r) FuncTypeHeader
    simpa using this
  have h1 : LowDecoder.ResultType (p ++ ([FuncTypeHeader] ++ (LowEncoder.Int [] ps.length ++ ps)
      ++ (LowEncoder.Int [] rs.length ++ rs)) ++ r) ((p.length : ℤ) + 1)
      = .ok ps ((p ++ [FuncTypeHeader] ++ (LowEncoder.Int [] ps.length ++ ps)).length : ℕ) := by
    have := LowDecoder.ResultType_encode (p ++ [FuncTypeHeader])
      ((LowEncoder.Int [] rs.length ++ rs) ++ r) ps (by simp at hlen ⊢; omega)
    simpa using this
  have h2 : LowDecoder.ResultType (p ++ ([FuncTypeHeader] ++ (LowEncoder.Int [] ps.length ++ ps)
      ++ (LowEncoder.Int [] rs.length ++ rs)) ++ r)
      ((p ++ [FuncTypeHeader] ++ (LowEncoder.Int [] ps.length ++ ps)).length : ℕ)
      = .ok rs ((p ++ ([FuncTypeHeader] ++ (LowEncoder.Int [] ps.length ++ ps)
          ++ (LowEncoder.Int [] rs.length ++ rs))).length : ℕ) := by
    have := LowDecoder.ResultType_encode (p ++ [FuncTypeHeader] ++ (LowEncoder.Int [] ps.length ++ ps))
      r rs (by simp at hlen ⊢; omega)
    simpa using this
  unfold LowDecoder.FuncType
  simp only
  rw [if_neg (by simp; omega), hx]
  simp only [ne_eq, not_true_eq_false, if_false]
  rw [h1]
  simp only
  rw [h2]


theorem foldl_FuncType_append (ts : List FuncType) : ∀ (init : List UInt8),
    ts.foldl (fun acc t => LowEncoder.FuncType acc t.Params t.Result) init
      = init ++ ts.foldl (fun acc t => LowEncoder.FuncType acc t.Params t.Result) [] := by
  induction ts with
  | nil => intro init; simp
  | cons t ts ih =>
    intro init
    rw [List.foldl_cons, List.foldl_cons, ih, ih (LowEncoder.FuncType [] _ _),
      LowEncoder.FuncType_append init]
    simp [LowEncoder.FuncType_append]

/-- The loop of `Decoder.TypeSection` reads back the function types that
`LowEncoder.FuncType` wrote one after the other. -/
theorem Decoder.TypeSection_loop_encode (ts : List FuncType) :
    ∀ (p r : List UInt8) (n : Nat) (acc : List FuncType),
    (p ++ ts.foldl (fun acc t => LowEncoder.FuncType acc t.Params t.Result) [] ++ r).length
      < 2 ^ 63 →
    Decoder.TypeSection.loop
      (p ++ ts.foldl (fun acc t => LowEncoder.FuncType acc t.Params t.Result) [] ++ r)
      ts.length n p.length acc
      = .ok (acc ++ ts)
          ((p ++ ts.foldl (fun acc t => LowEncoder.FuncType acc t.Params t.Result) []).length : ℕ) := by
  induction ts with
  | nil =>
    intro p r n acc _
    simp [Decoder.TypeSection.loop]
  | cons t ts ih =>
    intro p r n acc hlen
    rw [List.foldl_cons, foldl_FuncType_append] at hlen ⊢
    rw [List.length_cons, Decoder.TypeSection.loop]
    have hF := LowDecoder.FuncType_encode p
      (ts.foldl (fun acc t => LowEncoder.FuncType acc t.Params t.Result) [] ++ r)
      t.Params t.Result (by simp at hlen ⊢; omega)
    have eb : p ++ (LowEncoder.FuncType [] t.Params t.Result
          ++ ts.foldl (fun acc t => LowEncoder.FuncType acc t.Params t.Result) []) ++ r
        = p ++ LowEncoder.FuncType [] t.Params t.Result
          ++ (ts.foldl (fun acc t => LowEncoder.FuncType acc t.Params t.Result) [] ++ r) := by
      simp
    rw [eb, hF]
    simp only
    have hI := ih (p ++ LowEncoder.FuncType [] t.Params t.Result) r (n + 1) (acc ++ [t])
      (by simp at hlen ⊢; omega)
    have eb2 : p ++ LowEncoder.FuncType [] t.Params t.Result
          ++ (ts.foldl (fun acc t => LowEncoder.FuncType acc t.Params t.Result) [] ++ r)
        = p ++ LowEncoder.FuncType [] t.Params t.Result
          ++ ts.foldl (fun acc t => LowEncoder.FuncType acc t.Params t.Result) [] ++ r := by
      simp
    rw [eb2, hI]
    simp


theorem foldl_FuncType_length (ts : List FuncType) :
    ts.length ≤ (ts.foldl (fun acc t => LowEncoder.FuncType acc t.Params t.Result) []).length := by
  induction ts with
  | nil => simp
  | cons t ts ih =>
    rw [List.foldl_cons, foldl_FuncType_append, LowEncoder.FuncType_append]
    simp
    omega

/-- The decoder `Decoder.TypeSection` on a type section written by the encoders, placed
after the bytes `pre` at the end of a buffer shorter than `2^63` bytes. -/
theorem Decoder.TypeSection_encode (pre : List UInt8) (ts : List FuncType) (m : Wasm.Module)
    (E D B : List UInt8)
    (hE : E = ts.foldl (fun acc t => LowEncoder.FuncType acc t.Params t.Result) [])
    (hD : D = LowEncoder.Int [] ts.length ++ E)
    (hB : B = pre ++ ([Wasm.TypeSection] ++ LowEncoder.Int [] D.length ++ D))
    (hlen : B.length < 2 ^ 63) :
    index B pre.length = some Wasm.TypeSection ∧
    LowDecoder.Int B ((pre.length : ℤ) + 1)
      = .ok D.length ((pre ++ [Wasm.TypeSection] ++ LowEncoder.Int [] D.length).length : ℕ) ∧
    addInt ((pre ++ [Wasm.TypeSection] ++ LowEncoder.Int [] D.length).length : ℕ) D.length
      = (B.length : ℕ) ∧
    Decoder.TypeSection B pre.length m = .ok { m with Typ := ts } (B.length : ℕ) := by
  have hBlen : B.length = pre.length + 1 + (LowEncoder.Int [] (D.length : ℤ)).length + D.length := by
    rw [hB]; simp; omega
  have hDlen : D.length = (LowEncoder.Int [] (ts.length : ℤ)).length + E.length := by
    rw [hD]; simp
  have hts : ts.length ≤ E.length := by rw [hE]; exact foldl_FuncType_length ts
  have hB2 : B = pre ++ ([Wasm.TypeSection] ++ LowEncoder.Int [] D.length
      ++ (LowEncoder.Int [] ts.length ++ E)) := by
    rw [← hD]; exact hB
  have hidx : index B pre.length = some Wasm.TypeSection := by
    have := index_append_right pre (LowEncoder.Int [] D.length ++ D) Wasm.TypeSection
    rw [hB]
    simpa using this
  have hsz : LowDecoder.Int B ((pre.length : ℤ) + 1)
      = .ok D.length ((pre ++ [Wasm.TypeSection] ++ LowEncoder.Int [] D.length).length : ℕ) := by
    have := LowDecoder.Int_encode (pre ++ [Wasm.TypeSection]) D D.length (by omega)
    rw [hB]
    simpa using this
  have hl : LowDecoder.Int B ((pre ++ [Wasm.TypeSection] ++ LowEncoder.Int [] D.length).length : ℕ)
      = .ok ts.length ((pre ++ [Wasm.TypeSection] ++ LowEncoder.Int [] D.length
          ++ LowEncoder.Int [] ts.length).length : ℕ) := by
    have := LowDecoder.Int_encode (pre ++ [Wasm.TypeSection] ++ LowEncoder.Int [] D.length) E
      ts.length (by omega)
    rw [hB2]
    simpa using this
  have hloop : Decoder.TypeSection.loop B ts.length 0
      ((pre ++ [Wasm.TypeSection] ++ LowEncoder.Int [] D.length
          ++ LowEncoder.Int [] ts.length).length : ℕ) []
      = .ok ts (B.length : ℕ) := by
    have := Decoder.TypeSection_loop_encode ts
      (pre ++ [Wasm.TypeSection] ++ LowEncoder.Int [] D.length ++ LowEncoder.Int [] ts.length) [] 0 []
      (by rw [← hE]; simp; omega)
    rw [← hE] at this
    have e1 : pre ++ [Wasm.TypeSection] ++ LowEncoder.Int [] (D.length : ℤ)
        ++ LowEncoder.Int [] (ts.length : ℤ) ++ E ++ [] = B := by
      rw [hB2]; simp
    have e2 : pre ++ [Wasm.TypeSection] ++ LowEncoder.Int [] (D.length : ℤ)
        ++ LowEncoder.Int [] (ts.length : ℤ) ++ E = B := by
      rw [hB2]; simp
    rw [e1, e2] at this
    simpa using this
  have hadd : addInt ((pre ++ [Wasm.TypeSection] ++ LowEncoder.Int [] D.length).length : ℕ) D.length
      = (B.length : ℕ) := by
    rw [addInt_eq _ _ (by omega) (by omega) (by simp; omega)]
    simp
    omega
  refine ⟨hidx, hsz, hadd, ?_⟩
  have hbyte : LowDecoder.Byte B pre.length = .ok Wasm.TypeSection ((pre.length : ℤ) + 1) := by
    unfold LowDecoder.Byte
    simp only
    rw [if_neg (by omega), hidx]
  unfold Decoder.TypeSection Decoder.sectionHeaderLen Decoder.sectionHeader
  rw [hbyte]
  simp only [ne_eq, not_true_eq_false, if_false]
  rw [hsz]
  simp only
  rw [hl]
  simp only [Int.toNat_ofNat]
  rw [hloop]
  simp only
  rw [if_neg (by omega), hadd]
  simp


theorem Decoder.Module_loop_end (b : List UInt8) (f : Nat) (m : Wasm.Module) :
    Decoder.Module.loop b f (b.length : ℕ) m = .ok m (b.length : ℕ) := by
  cases f with
  | zero => rw [Decoder.Module.loop]
  | succ f => rw [Decoder.Module.loop, if_neg (by omega)]

/-- C10: for every list `ts` of function types, the module image made of
the magic, version 1 and the type section that the encoders write for `ts`
(`LowEncoder.Section` around `LowEncoder.Int (len ts)` followed by the
`LowEncoder.FuncType` of every entry) decodes into a fresh module with
`Type = ts`, `Sections = [1]`, `Version = 1`, `Start = -1`, `DataCount = 0`
and every other vector empty.  The image is a Go slice, so it is shorter
than `2^63` bytes. -/
theorem module_type_section_roundtrip (ts : List FuncType)
    (hlen : (LowEncoder.Section (Magic ++ [1, 0, 0, 0]) TypeSection
      (ts.foldl (fun acc t => LowEncoder.FuncType acc t.Params t.Result)
        (LowEncoder.Int [] ts.length))).length < 2 ^ 63) :
    Decoder.Module
      (LowEncoder.Section (Magic ++ [1, 0, 0, 0]) TypeSection
        (ts.foldl (fun acc t => LowEncoder.FuncType acc t.Params t.Result)
          (LowEncoder.Int [] ts.length)))
      Module.zero
    = .ok { Module.zero with
            Version := 1, Start := -1, DataCount := 0, Typ := ts, Sections := [1] } := by
  obtain ⟨E, hE⟩ : ∃ E, E = ts.foldl (fun acc t => LowEncoder.FuncType acc t.Params t.Result) [] :=
    ⟨_, rfl⟩
  obtain ⟨D, hD⟩ : ∃ D, D = LowEncoder.Int [] ts.length ++ E := ⟨_, rfl⟩
  obtain ⟨B, hB⟩ : ∃ B, B = Magic ++ [1, 0, 0, 0]
      ++ ([TypeSection] ++ LowEncoder.Int [] D.length ++ D) := ⟨_, rfl⟩
  have hSec : LowEncoder.Section (Magic ++ [1, 0, 0, 0]) TypeSection
      (ts.foldl (fun acc t => LowEncoder.FuncType acc t.Params t.Result)
        (LowEncoder.Int [] ts.length)) = B := by
    rw [LowEncoder.Section_append, foldl_FuncType_append, ← hE, ← hD, hB]
  rw [hSec] at hlen ⊢
  obtain ⟨hidx, hsz, hadd, hT⟩ := Decoder.TypeSection_encode (Magic ++ [1, 0, 0, 0]) ts
    { Module.zero with Version := 1, Start := -1, DataCount := 0, Sections := [1] } E D B hE hD hB hlen
  have hpre : ((Magic ++ [1, 0, 0, 0] : List UInt8).length : ℤ) = 8 := by simp [Magic]
  rw [hpre] at hidx hsz hT
  have hBlen : 9 ≤ B.length := by rw [hB]; simp [Magic]
  have hH := Decoder.Module_header 1 0 0 0 ([TypeSection] ++ LowEncoder.Int [] D.length ++ D)
    Module.zero
  rw [← hB] at hH
  rw [hH, if_neg (by decide)]
  obtain ⟨f, hf⟩ : ∃ f, B.length = f + 1 := ⟨B.length - 1, by omega⟩
  have hloop : Decoder.Module.loop B B.length 8
      { Module.zero with
        Version := ((((1 : UInt8).toNat + 2 ^ 8 * (0 : UInt8).toNat + 2 ^ 16 * (0 : UInt8).toNat
          + 2 ^ 24 * (0 : UInt8).toNat : ℕ)) : ℤ), Start := -1, DataCount := 0 }
      = .ok { Module.zero with
              Version := 1, Start := -1, DataCount := 0, Typ := ts, Sections := [1] }
          (B.length : ℕ) := by
    rw [hf, Decoder.Module.loop, ← hf, if_pos (by omega), hidx]
    simp only
    rw [show ((8 : ℤ) + 1) = 8 + 1 from rfl, hsz]
    simp only
    rw [hadd, if_neg (by omega)]
    have hdis : Decoder.Module.dispatch B TypeSection 8
        { Module.zero with
          Version := 1, Start := -1, DataCount := 0, Sections := [] ++ [TypeSection] }
        = some (Decoder.TypeSection B 8
            { Module.zero with Version := 1, Start := -1, DataCount := 0, Sections := [1] }) := by
      rw [Decoder.Module.dispatch, if_neg (by decide), if_pos rfl]
      rfl
    have hver : ((((1 : UInt8).toNat + 2 ^ 8 * (0 : UInt8).toNat + 2 ^ 16 * (0 : UInt8).toNat
          + 2 ^ 24 * (0 : UInt8).toNat : ℕ)) : ℤ) = 1 := by decide
    simp only [hver]
    have hm : ({ Module.zero with
          Version := 1, Start := -1, DataCount := 0,
          Sections := Module.zero.Sections ++ [TypeSection] } : Wasm.Module)
        = { Module.zero with
            Version := 1, Start := -1, DataCount := 0, Sections := [] ++ [TypeSection] } := rfl
    rw [hm, hdis, hT]
    simp only
    exact Decoder.Module_loop_end B f _
  rw [hloop]
  rfl

/-- C10 (witness): the two function types `(i32, i64) -> (f32)` and
`() -> ()`. -/
theorem module_type_section_roundtrip_witness :
    (LowEncoder.Section (Magic ++ [1, 0, 0, 0]) TypeSection
      (([⟨[0x7f, 0x7e], [0x7d]⟩, ⟨[], []⟩] : List FuncType).foldl
        (fun acc t => LowEncoder.FuncType acc t.Params t.Result)
        (LowEncoder.Int [] ([⟨[0x7f, 0x7e], [0x7d]⟩, ⟨[], []⟩] : List FuncType).length))).length
      < 2 ^ 63 ∧
    Decoder.Module
      (LowEncoder.Section (Magic ++ [1, 0, 0, 0]) TypeSection
        (([⟨[0x7f, 0x7e], [0x7d]⟩, ⟨[], []⟩] : List FuncType).foldl
          (fun acc t => LowEncoder.FuncType acc t.Params t.Result)
          (LowEncoder.Int [] ([⟨[0x7f, 0x7e], [0x7d]⟩, ⟨[], []⟩] : List FuncType).length)))
      Module.zero
    = .ok { Module.zero with
            Version := 1, Start := -1, DataCount := 0,
            Typ := [⟨[0x7f, 0x7e], [0x7d]⟩, ⟨[], []⟩], Sections := [1] } :=
  ⟨by decide, module_type_section_roundtrip [⟨[0x7f, 0x7e], [0x7d]⟩, ⟨[], []⟩] (by decide)⟩


/-- C6 (counterexample): the eight-byte image with the magic and the
version field 0 is accepted: `Decoder.Module` succeeds with `Version = 0`
instead of failing with `ErrUnsupportedVersion`; so is an image with
version 0 followed by a type section. -/
theorem module_version_zero_accepted :
    Decoder.Module [0, 0x61, 0x73, 0x6d, 0, 0, 0, 0] Module.zero
      = .ok { Module.zero with Version := 0, Start := -1 } ∧
    Decoder.Module [0, 0x61, 0x73, 0x6d, 0, 0, 0, 0, 1, 4, 1, 0x60, 0, 0] Module.zero
      = .ok { Module.zero with Version := 0, Start := -1, Typ := [⟨[], []⟩], Sections := [1] } := by
  decide

/-- C6 (amended): for every input of at least 8 bytes that starts with the
magic, with `ver` the little-endian integer of bytes 4..7: when `ver > 1`,
`Decoder.Module` fails with `ErrUnsupportedVersion` reported at offset 8;
when `ver ≤ 1` (version 0 as well as version 1) the header is accepted:
`Version` is set to `ver`, `Start` to -1, `DataCount` to 0, and the result
is that of the section loop from offset 8, passed through the deferred
error wrapper (success at once when the input ends there). -/
theorem module_version_range (v0 v1 v2 v3 : UInt8) (rest : List UInt8) (m : Wasm.Module) :
    (1 < v0.toNat + 2 ^ 8 * v1.toNat + 2 ^ 16 * v2.toNat + 2 ^ 24 * v3.toNat →
      Decoder.Module (Magic ++ [v0, v1, v2, v3] ++ rest) m
        = .fail (.Wrap .ErrUnsupportedVersion "at pos 0x%x" [8])) ∧
    (v0.toNat + 2 ^ 8 * v1.toNat + 2 ^ 16 * v2.toNat + 2 ^ 24 * v3.toNat ≤ 1 →
      Decoder.Module (Magic ++ [v0, v1, v2, v3] ++ rest) m
        = Decoder.Module.deferred
            (Decoder.Module.loop (Magic ++ [v0, v1, v2, v3] ++ rest)
              (Magic ++ [v0, v1, v2, v3] ++ rest).length 8
              { m with
                Version := ((v0.toNat + 2 ^ 8 * v1.toNat + 2 ^ 16 * v2.toNat
                  + 2 ^ 24 * v3.toNat : ℕ) : ℤ),
                Start := -1, DataCount := 0 })) ∧
    (v0.toNat + 2 ^ 8 * v1.toNat + 2 ^ 16 * v2.toNat + 2 ^ 24 * v3.toNat ≤ 1 → rest = [] →
      Decoder.Module (Magic ++ [v0, v1, v2, v3] ++ rest) m
        = .ok { m with
                Version := ((v0.toNat + 2 ^ 8 * v1.toNat + 2 ^ 16 * v2.toNat
                  + 2 ^ 24 * v3.toNat : ℕ) : ℤ),
                Start := -1, DataCount := 0 }) := by
  have hH := Decoder.Module_header v0 v1 v2 v3 rest m
  refine ⟨?_, ?_, ?_⟩
  · intro hv
    rw [hH, if_pos (by omega)]
  · intro hv
    rw [hH, if_neg (by omega)]
  · intro hv hr
    subst hr
    rw [hH, if_neg (by omega)]
    have h8 : ((8 : ℤ)) = ((Magic ++ [v0, v1, v2, v3] ++ ([] : List UInt8)).length : ℕ) := by
      simp [Magic]
    rw [h8, Decoder.Module_loop_end]
    rfl

/-- C6 (witness): version 2 is rejected, versions 0 and 1 are accepted. -/
theorem module_version_range_witness :
    Decoder.Module (Magic ++ [2, 0, 0, 0] ++ []) Module.zero
      = .fail (.Wrap .ErrUnsupportedVersion "at pos 0x%x" [8]) ∧
    Decoder.Module (Magic ++ [0, 0, 0, 0] ++ []) Module.zero
      = .ok { Module.zero with Version := 0, Start := -1, DataCount := 0 } ∧
    Decoder.Module (Magic ++ [1, 0, 0, 0] ++ []) Module.zero
      = .ok { Module.zero with Version := 1, Start := -1, DataCount := 0 } :=
  ⟨(module_version_range 2 0 0 0 [] Module.zero).1 (by decide),
   (module_version_range 0 0 0 0 [] Module.zero).2.2 (by decide) rfl,
   (module_version_range 1 0 0 0 [] Module.zero).2.2 (by decide) rfl⟩


/-! ## The fuel of the section loop is never exhausted -/

/-- One more unit of fuel does not change the section loop once the fuel
covers the bytes that remain: the bound `len(b)` set by `Decoder.Module`
is never reached. -/
theorem Decoder.Module_loop_fuel (b : List UInt8) (f : Nat) :
    ∀ (i : ℤ) (m : Wasm.Module), (b.length : ℤ) - i ≤ f →
    Decoder.Module.loop b (f + 1) i m = Decoder.Module.loop b f i m := by
  induction f with
  | zero =>
    intro i m hf
    have hge : ¬ i < b.length := by omega
    conv_lhs => rw [Decoder.Module.loop]
    conv_rhs => rw [Decoder.Module.loop]
    rw [if_neg hge]
  | succ f ih =>
    intro i m hf
    conv_lhs => rw [Decoder.Module.loop]
    conv_rhs => rw [Decoder.Module.loop]
    by_cases hlt : i < b.length
    · rw [if_pos hlt, if_pos hlt]
      cases hid : index b i with
      | none => rfl
      | some id =>
        simp only
        cases hsz : LowDecoder.Int b (i + 1) with
        | panic => rfl
        | fail j e => rfl
        | ok size en0 =>
          simp only
          by_cases hen : addInt en0 size > b.length
          · rw [if_pos hen, if_pos hen]
          · rw [if_neg hen, if_neg hen]
            cases hd : Decoder.Module.dispatch b id i
                { m with Sections := m.Sections ++ [id] } with
            | none => rfl
            | some r =>
              cases r with
              | panic => rfl
              | fail j e => rfl
              | ok m1 j =>
                simp only
                obtain ⟨-, size2, i02, hsz2, hle, -⟩ := Decoder.Module_dispatch_ok hd
                rw [hsz] at hsz2
                injection hsz2 with e1 e2
                subst e1 e2
                have hb := LowDecoder.Int_ok hsz
                exact ih _ _ (by omega)
    · rw [if_neg hlt, if_neg hlt]


/-! ## The shape of the unsigned LEB128 encoding -/

/-- The bytes written by the loop of `LowEncoder.Uint64` for `v`: their
number `m` is the least positive one with `v < 2^(7m)`, and byte `k` holds
the seven bits `7k..7k+6` of `v` with the continuation bit set on every
byte but the last. -/
theorem LowEncoder.Uint64_loop_shape (n : Nat) : ∀ (v : Nat), v < 2 ^ (7 * n) → 0 < n →
    0 < (LowEncoder.Uint64.loop n [] v).length ∧
    (LowEncoder.Uint64.loop n [] v).length ≤ n ∧
    v < 2 ^ (7 * (LowEncoder.Uint64.loop n [] v).length) ∧
    ((LowEncoder.Uint64.loop n [] v).length = 1 ∨
      2 ^ (7 * ((LowEncoder.Uint64.loop n [] v).length - 1)) ≤ v) ∧
    ∀ k, k < (LowEncoder.Uint64.loop n [] v).length →
      ∃ x, (LowEncoder.Uint64.loop n [] v)[k]? = some x ∧
        x.toNat = v / 2 ^ (7 * k) % 128
          + (if k + 1 < (LowEncoder.Uint64.loop n [] v).length then 128 else 0) := by
  induction n with
  | zero => intro v _ h; omega
  | succ n ih =>
    intro v hv _
    have hmlt : v % 128 < 128 := Nat.mod_lt _ (by norm_num)
    rw [LowEncoder.Uint64_loop_succ]
    by_cases hq : v / 128 = 0
    · have hv128 : v < 128 := by omega
      rw [if_pos hq]
      simp only [List.nil_append]
      refine ⟨by simp, by simp, by simpa using hv128, Or.inl (by simp), ?_⟩
      intro k hk
      have hk0 : k = 0 := by simpa using hk
      subst hk0
      refine ⟨UInt8.ofNat (v % 128), by simp, ?_⟩
      rw [UInt8.toNat_ofNat_lt _ (by omega)]
      simp
    · rw [if_neg hq]
      simp only [List.nil_append]
      have e := LowEncoder.Uint64_loop_append n [UInt8.ofNat (v % 128 + 128)] (v / 128)
      simp only [e]
      have hn : 0 < n := by
        rcases Nat.eq_zero_or_pos n with h0 | h0
        · subst h0; simp at hv; omega
        · exact h0
      have hvn : v / 128 < 2 ^ (7 * n) := by
        rw [Nat.div_lt_iff_lt_mul (by norm_num)]
        rw [show 7 * (n + 1) = 7 * n + 7 by ring, pow_add] at hv
        simpa using hv
      obtain ⟨h1, h2, h3, h4, h5⟩ := ih (v / 128) hvn hn
      generalize LowEncoder.Uint64.loop n [] (v / 128) = bs at h1 h2 h3 h4 h5 ⊢
      have hlen : ([UInt8.ofNat (v % 128 + 128)] ++ bs).length = bs.length + 1 := by simp
      rw [hlen]
      have hpow : ∀ j, 2 ^ (7 * (j + 1)) = 128 * 2 ^ (7 * j) := by
        intro j
        rw [show 7 * (j + 1) = 7 + 7 * j by ring, pow_add]; norm_num
      refine ⟨by omega, by omega, ?_, Or.inr ?_, ?_⟩
      · rw [hpow]; omega
      · rw [Nat.add_sub_cancel]
        rcases h4 with h4 | h4
        · rw [h4]; norm_num; omega
        · obtain ⟨j, hj⟩ : ∃ j, bs.length = j + 1 := ⟨bs.length - 1, by omega⟩
          rw [hj, Nat.add_sub_cancel] at h4
          rw [hj, hpow]
          omega
      · intro k hk
        cases k with
        | zero =>
          refine ⟨UInt8.ofNat (v % 128 + 128), by simp, ?_⟩
          rw [UInt8.toNat_ofNat_lt _ (by omega), if_pos (by omega)]
          simp
        | succ k =>
          obtain ⟨x, hx1, hx2⟩ := h5 k (by omega)
          refine ⟨x, by simpa using hx1, ?_⟩
          rw [hx2, hpow, Nat.div_div_eq_div_mul]
          have : (k + 1 + 1 < bs.length + 1) = (k + 1 < bs.length) := by
            apply propext; omega
          simp only [this]


/-- C14: for every `uint64` value `v` and buffer `p`, `LowEncoder.Uint64 p v`
is `p` followed by `n` bytes, `n` the least positive integer with
`v < 2^(7n)` (at most 10); byte `k` has low seven bits equal to bits
`7k..7k+6` of `v`, the `0x80` bit is set on every byte but the last, and a
multi-byte encoding does not end in `0x00`. -/
theorem uint64_encoder_minimal (p : List UInt8) (v : Nat) (hv : v < 2 ^ 64) :
    ∃ bs, LowEncoder.Uint64 p v = p ++ bs ∧ 0 < bs.length ∧ bs.length ≤ 10 ∧
      v < 2 ^ (7 * bs.length) ∧
      (∀ n, 0 < n → v < 2 ^ (7 * n) → bs.length ≤ n) ∧
      (∀ k, k < bs.length → ∃ x, bs[k]? = some x ∧
        x.toNat % 128 = v / 2 ^ (7 * k) % 128 ∧ (128 ≤ x.toNat ↔ k + 1 < bs.length)) ∧
      (1 < bs.length → bs.getLast? ≠ some 0) := by
  have hmod : v % 2 ^ 64 = v := Nat.mod_eq_of_lt hv
  obtain ⟨h1, h2, h3, h4, h5⟩ := LowEncoder.Uint64_loop_shape 10 v (by norm_num; omega) (by norm_num)
  refine ⟨LowEncoder.Uint64.loop 10 [] v, ?_, h1, h2, h3, ?_, ?_, ?_⟩
  · unfold LowEncoder.Uint64
    rw [hmod, LowEncoder.Uint64_loop_append]
  · intro n hn hvn
    rcases h4 with h4 | h4
    · omega
    · by_contra hcon
      have hle : 7 * n ≤ 7 * ((LowEncoder.Uint64.loop 10 [] v).length - 1) := by omega
      have := Nat.pow_le_pow_right (show 0 < 2 by norm_num) hle
      omega
  · intro k hk
    obtain ⟨x, hx1, hx2⟩ := h5 k hk
    refine ⟨x, hx1, ?_, ?_⟩
    · rw [hx2]
      split <;> omega
    · rw [hx2]
      have : v / 2 ^ (7 * k) % 128 < 128 := Nat.mod_lt _ (by norm_num)
      split <;> omega
  · intro hlen
    obtain ⟨x, hx1, hx2⟩ := h5 ((LowEncoder.Uint64.loop 10 [] v).length - 1) (by omega)
    rw [List.getLast?_eq_getElem?, hx1]
    intro hc
    injection hc with hc
    rw [hc, if_neg (by omega)] at hx2
    rcases h4 with h4 | h4
    · omega
    · have hpos : 0 < 2 ^ (7 * ((LowEncoder.Uint64.loop 10 [] v).length - 1)) := Nat.two_pow_pos _
      have hq : 1 ≤ v / 2 ^ (7 * ((LowEncoder.Uint64.loop 10 [] v).length - 1)) :=
        (Nat.one_le_div_iff hpos).mpr h4
      have hq2 : v / 2 ^ (7 * ((LowEncoder.Uint64.loop 10 [] v).length - 1)) < 128 := by
        rw [Nat.div_lt_iff_lt_mul hpos]
        have e : 128 * 2 ^ (7 * ((LowEncoder.Uint64.loop 10 [] v).length - 1))
            = 2 ^ (7 * (LowEncoder.Uint64.loop 10 [] v).length) := by
          obtain ⟨j, hj⟩ : ∃ j, (LowEncoder.Uint64.loop 10 [] v).length = j + 1 :=
            ⟨(LowEncoder.Uint64.loop 10 [] v).length - 1, by omega⟩
          rw [hj, Nat.add_sub_cancel, show 7 * (j + 1) = 7 + 7 * j by ring, pow_add]
          norm_num
        rw [e]
        exact h3
      have h0 : (0 : UInt8).toNat = 0 := rfl
      rw [h0, Nat.mod_eq_of_lt hq2] at hx2
      omega

/-- C14 (witness): 624485 encodes as `e5 8e 26`. -/
theorem uint64_encoder_minimal_witness :
    (624485 : Nat) < 2 ^ 64 ∧ LowEncoder.Uint64 [] 624485 = [0xe5, 0x8e, 0x26] ∧
    ∃ bs, LowEncoder.Uint64 [] 624485 = [] ++ bs ∧ 0 < bs.length ∧ bs.length ≤ 10 ∧
      624485 < 2 ^ (7 * bs.length) ∧
      (∀ n, 0 < n → 624485 < 2 ^ (7 * n) → bs.length ≤ n) ∧
      (∀ k, k < bs.length → ∃ x, bs[k]? = some x ∧
        x.toNat % 128 = 624485 / 2 ^ (7 * k) % 128 ∧ (128 ≤ x.toNat ↔ k + 1 < bs.length)) ∧
      (1 < bs.length → bs.getLast? ≠ some 0) :=
  ⟨by decide, by decide, uint64_encoder_minimal [] 624485 (by decide)⟩


/-! ## The shape of the signed LEB128 encoding -/

set_option maxRecDepth 100000 in
theorem and_40_eq_zero_iff : ∀ n, n < 256 → (n &&& 0x40 = 0 ↔ n % 128 < 64) := by decide

/-- The arithmetic shift of an integer by seven bits is the floor division by
128. -/
theorem int_shiftRight_seven (v : ℤ) : v >>> (7 : ℤ) = v / 128 := by
  cases v with
  | ofNat m =>
    have h := Int.shiftRight_coe_nat m 7
    rw [Nat.shiftRight_eq_div_pow] at h
    simp only [Int.ofNat_eq_coe]
    norm_num at h ⊢
    omega
  | negSucc m =>
    have h := Int.shiftRight_negSucc m 7
    rw [Nat.shiftRight_eq_div_pow] at h
    norm_num at h ⊢
    rw [h, Int.negSucc_eq, Int.negSucc_eq]
    omega

theorem ediv_128_ediv (v k : ℤ) (hk : 0 < k) : v / 128 / k = v / (128 * k) := by
  apply eq_of_forall_le_iff
  intro x
  rw [Int.le_ediv_iff_mul_le hk, Int.le_ediv_iff_mul_le (by norm_num),
    Int.le_ediv_iff_mul_le (by positivity), mul_assoc, mul_comm k]

theorem LowEncoder.Int64_loop_succ (n : Nat) (b : List UInt8) (v : ℤ) :
    LowEncoder.Int64.loop (n + 1) b v =
      if -64 ≤ v ∧ v < 64 then b ++ [UInt8.ofNat (v % 128).toNat]
      else LowEncoder.Int64.loop n (b ++ [UInt8.ofNat ((v % 128).toNat + 128)]) (v / 128) := by
  have hu : toUint64 v % 256 % 128 = (v % 128).toNat := by
    unfold toUint64
    omega
  have hx : (toUint64 v % 256) &&& 0x7f = (v % 128).toNat := by
    rw [and_7f_eq_mod, hu]
  have hs : ((toUint64 v % 256) &&& 0x40 = 0) ↔ v % 128 < 64 := by
    rw [and_40_eq_zero_iff _ (Nat.mod_lt _ (by norm_num)), hu]
    omega
  have hs2 : ((toUint64 v % 256) &&& 0x40 ≠ 0) ↔ ¬ v % 128 < 64 := not_congr hs
  have hlt : (v % 128).toNat < 128 := by omega
  have hsh : v >>> 7 = v / 128 := int_shiftRight_seven v
  rw [LowEncoder.Int64.loop]
  simp only [hx, hsh, hs, hs2]
  by_cases hr : -64 ≤ v ∧ v < 64
  · have hstop : ¬ ((v % 128 < 64 ∧ v / 128 ≠ 0) ∨ (¬ v % 128 < 64 ∧ v / 128 ≠ -1)) := by omega
    have h1 : (v % 128).toNat &&& 0x80 = 0 := (and_80_eq_zero_iff _ (by omega)).mpr hlt
    rw [if_neg hstop, if_pos h1, if_pos hr]
  · have hcont : (v % 128 < 64 ∧ v / 128 ≠ 0) ∨ (¬ v % 128 < 64 ∧ v / 128 ≠ -1) := by omega
    have h2 : ¬ (((v % 128).toNat + 128) &&& 0x80 = 0) := by
      intro h
      have := (and_80_eq_zero_iff _ (by omega)).mp h
      omega
    rw [if_pos hcont, or_80_eq_add _ hlt, if_neg h2, if_neg hr]

theorem LowEncoder.Int64_loop_append (n : Nat) : ∀ (b : List UInt8) (v : ℤ),
    LowEncoder.Int64.loop n b v = b ++ LowEncoder.Int64.loop n [] v := by
  induction n with
  | zero => intro b v; simp [LowEncoder.Int64.loop]
  | succ n ih =>
    intro b v
    rw [LowEncoder.Int64_loop_succ, LowEncoder.Int64_loop_succ]
    split
    · simp
    · rw [ih (b ++ _), ih ([] ++ _)]; simp

/-- The bytes the signed loop writes with fuel `n + 1` for a value of the
range `[-64 * 128 ^ n, 64 * 128 ^ n)`: `j + 1` bytes, where `j` is the least
exponent whose range holds the value. -/
theorem LowEncoder.Int64_loop_shape (n : Nat) : ∀ (v : ℤ),
    -(64 * 128 ^ n) ≤ v → v < 64 * 128 ^ n →
    ∃ j, (LowEncoder.Int64.loop (n + 1) [] v).length = j + 1 ∧ j ≤ n ∧
      -(64 * 128 ^ j) ≤ v ∧ v < 64 * 128 ^ j ∧
      (∀ i, i < j → ¬ (-(64 * 128 ^ i) ≤ v ∧ v < 64 * 128 ^ i)) ∧
      ∀ k, k ≤ j → ∃ x, (LowEncoder.Int64.loop (n + 1) [] v)[k]? = some x ∧
        (x.toNat : ℤ) = v / 128 ^ k % 128 + (if k < j then 128 else 0) := by
  induction n with
  | zero =>
    intro v h1 h2
    have hr : -64 ≤ v ∧ v < 64 := by constructor <;> simpa using by assumption
    rw [LowEncoder.Int64_loop_succ, if_pos hr]
    refine ⟨0, by simp, le_refl _, by simpa using hr.1, by simpa using hr.2, ?_, ?_⟩
    · intro i hi; omega
    · intro k hk
      have hk0 : k = 0 := by omega
      subst hk0
      refine ⟨UInt8.ofNat (v % 128).toNat, by simp, ?_⟩
      rw [UInt8.toNat_ofNat_lt _ (by omega)]
      simp only [pow_zero, Int.ediv_one, lt_self_iff_false, if_false, add_zero]
      omega
  | succ n ih =>
    intro v h1 h2
    rw [LowEncoder.Int64_loop_succ]
    by_cases hr : -64 ≤ v ∧ v < 64
    · rw [if_pos hr]
      refine ⟨0, by simp, Nat.zero_le _, by simpa using hr.1, by simpa using hr.2, ?_, ?_⟩
      · intro i hi; omega
      · intro k hk
        have hk0 : k = 0 := by omega
        subst hk0
        refine ⟨UInt8.ofNat (v % 128).toNat, by simp, ?_⟩
        rw [UInt8.toNat_ofNat_lt _ (by omega)]
        simp only [pow_zero, Int.ediv_one, lt_self_iff_false, if_false, add_zero]
        omega
    · rw [if_neg hr]
      have hp : (128 : ℤ) ^ (n + 1) = 128 * 128 ^ n := by rw [pow_succ]; ring
      rw [hp] at h1 h2
      obtain ⟨j, hl, hjn, hj1, hj2, hmin, hb⟩ :=
        ih (v / 128) (by omega) (by omega)
      have e := LowEncoder.Int64_loop_append (n + 1)
        ([] ++ [UInt8.ofNat ((v % 128).toNat + 128)]) (v / 128)
      simp only [e]
      refine ⟨j + 1, by simp [hl], by omega, ?_, ?_, ?_, ?_⟩
      · have hq : (128 : ℤ) ^ (j + 1) = 128 * 128 ^ j := by rw [pow_succ]; ring
        rw [hq]; omega
      · have hq : (128 : ℤ) ^ (j + 1) = 128 * 128 ^ j := by rw [pow_succ]; ring
        rw [hq]; omega
      · intro i hi
        cases i with
        | zero => simpa using hr
        | succ i =>
          have hq : (128 : ℤ) ^ (i + 1) = 128 * 128 ^ i := by rw [pow_succ]; ring
          have := hmin i (by omega)
          rw [hq]; omega
      · intro k hk
        cases k with
        | zero =>
          refine ⟨UInt8.ofNat ((v % 128).toNat + 128), by simp, ?_⟩
          rw [UInt8.toNat_ofNat_lt _ (by omega)]
          simp only [pow_zero, Int.ediv_one, Nat.zero_lt_succ, if_true]
          omega
        | succ k =>
          obtain ⟨x, hx1, hx2⟩ := hb k (by omega)
          refine ⟨x, by simpa using hx1, ?_⟩
          have hq : (128 : ℤ) ^ (k + 1) = 128 * 128 ^ k := by rw [pow_succ]; ring
          rw [hx2, hq, ediv_128_ediv _ _ (by positivity)]
          simp only [Nat.add_lt_add_iff_right]


theorem toInt64_toUint64 (v : ℤ) (h1 : -2 ^ 63 ≤ v) (h2 : v < 2 ^ 63) :
    toInt64 (toUint64 v) = v := by
  unfold toInt64 toUint64
  norm_num at h1 h2 ⊢
  split <;> omega

theorem two_pow_seven_pred (j : Nat) : (2 : ℤ) ^ (7 * (j + 1) - 1) = 64 * 128 ^ j := by
  have h : 7 * (j + 1) - 1 = 6 + 7 * j := by omega
  rw [h, pow_add, pow_mul]
  norm_num

/-- The seven bits of the 64-bit two's-complement form of `v` at position
`7 * k`, for a group that lies wholly inside the 64 bits. -/
theorem toUint64_group (v : ℤ) (k : Nat) (hk : k ≤ 8) :
    ((toUint64 v / 2 ^ (7 * k) % 128 : Nat) : ℤ) = v / 2 ^ (7 * k) % 128 := by
  unfold toUint64
  interval_cases k <;> norm_num <;> omega

/-- C15: for every `int64` value `v`, `LowEncoder.Int64` on the empty buffer
writes `n` bytes, where `n` is the least positive integer with
`-2^(7n-1) ≤ v < 2^(7n-1)`, and `n ≤ 10`; the low seven bits of byte `k` are
the bits `7k..7k+6` of `v` in two's complement (the floor quotient
`v / 2^(7k)` modulo 128, which for `k ≤ 8` is the same group of the 64-bit
form `uint64(v)`), and the `0x80` bit is set on every byte but the last. -/
theorem int64_encoder_minimal (v : ℤ) (h1 : -2 ^ 63 ≤ v) (h2 : v < 2 ^ 63) :
    0 < (LowEncoder.Int64 [] v).length ∧ (LowEncoder.Int64 [] v).length ≤ 10 ∧
      -2 ^ (7 * (LowEncoder.Int64 [] v).length - 1) ≤ v ∧
      v < 2 ^ (7 * (LowEncoder.Int64 [] v).length - 1) ∧
      (∀ n, 0 < n → -2 ^ (7 * n - 1) ≤ v → v < 2 ^ (7 * n - 1) →
        (LowEncoder.Int64 [] v).length ≤ n) ∧
      ∀ k, k < (LowEncoder.Int64 [] v).length → ∃ x, (LowEncoder.Int64 [] v)[k]? = some x ∧
        ((x.toNat % 128 : Nat) : ℤ) = v / 2 ^ (7 * k) % 128 ∧
        (k ≤ 8 → x.toNat % 128 = toUint64 v / 2 ^ (7 * k) % 128) ∧
        (128 ≤ x.toNat ↔ k + 1 < (LowEncoder.Int64 [] v).length) := by
  unfold LowEncoder.Int64
  rw [toInt64_toUint64 v h1 h2]
  obtain ⟨j, hl, hj, hr1, hr2, hmin, hb⟩ :=
    LowEncoder.Int64_loop_shape 9 v (by norm_num at h1 ⊢; omega) (by norm_num at h2 ⊢; omega)
  rw [hl]
  refine ⟨by omega, by omega, ?_, ?_, ?_, ?_⟩
  · rw [two_pow_seven_pred]; omega
  · rw [two_pow_seven_pred]; exact hr2
  · intro n hn hn1 hn2
    cases n with
    | zero => omega
    | succ i =>
      rw [two_pow_seven_pred] at hn1 hn2
      by_contra hlt
      exact hmin i (by omega) ⟨by omega, hn2⟩
  · intro k hk
    obtain ⟨x, hx1, hx2⟩ := hb k (by omega)
    have hp : (2 : ℤ) ^ (7 * k) = 128 ^ k := by rw [pow_mul]; norm_num
    have hg : ((x.toNat % 128 : Nat) : ℤ) = v / 2 ^ (7 * k) % 128 := by
      rw [hp]
      split at hx2 <;> omega
    refine ⟨x, hx1, hg, ?_, ?_⟩
    · intro hk8
      have := toUint64_group v k hk8
      omega
    · split at hx2 <;> omega

/-- C15 (witness): -123456 encodes as `c0 bb 78`. -/
theorem int64_encoder_minimal_witness :
    (-2 ^ 63 ≤ (-123456 : ℤ)) ∧ ((-123456 : ℤ) < 2 ^ 63) ∧
      LowEncoder.Int64 [] (-123456) = [0xc0, 0xbb, 0x78] ∧
      0 < (LowEncoder.Int64 [] (-123456)).length ∧ (LowEncoder.Int64 [] (-123456)).length ≤ 10 :=
  ⟨by decide, by decide, by decide,
    (int64_encoder_minimal (-123456) (by decide) (by decide)).1,
    (int64_encoder_minimal (-123456) (by decide) (by decide)).2.1⟩


/-! ## The LEB128 decoders against the sum of the groups -/

theorem groupSum_lt (b : List UInt8) (st : ℤ) : ∀ k, groupSum b st k < 2 ^ (7 * k) := by
  intro k
  induction k with
  | zero => simp [groupSum]
  | succ k ih =>
    rw [groupSum, and_7f_eq_mod]
    have hg : ((index b (st + k)).getD 0).toNat % 128 < 128 := Nat.mod_lt _ (by norm_num)
    have hp : 2 ^ (7 * (k + 1)) = 128 * 2 ^ (7 * k) := by
      rw [show 7 * (k + 1) = 7 + 7 * k by ring, pow_add]; norm_num
    have hm : ((index b (st + k)).getD 0).toNat % 128 * 2 ^ (7 * k) ≤ 127 * 2 ^ (7 * k) :=
      Nat.mul_le_mul_right _ (by omega)
    omega

theorem groupSum_succ (b : List UInt8) (st : ℤ) (k : Nat) (x : UInt8)
    (hx : index b (st + k) = some x) :
    groupSum b st (k + 1) = groupSum b st k + x.toNat % 128 * 2 ^ (7 * k) := by
  rw [groupSum, hx, and_7f_eq_mod]
  rfl

theorem group_shift_lt (g m : Nat) (hg : g < 128) (hm : m ≤ 8) : g * 2 ^ (7 * m) < 2 ^ 63 := by
  have h1 : 2 ^ (7 * m) ≤ 2 ^ 56 := Nat.pow_le_pow_right (by norm_num) (by omega)
  have h2 : g * 2 ^ (7 * m) ≤ 127 * 2 ^ (7 * m) := Nat.mul_le_mul_right _ (by omega)
  have h3 : (2 : Nat) ^ 56 = 72057594037927936 := by norm_num
  have h4 : (2 : Nat) ^ 63 = 9223372036854775808 := by norm_num
  omega

/-- The accumulator of the decoder loops after one more group. -/
theorem groupSum_or (b : List UInt8) (st : ℤ) (m : Nat) (x : UInt8) (hm : m ≤ 8)
    (hx : index b (st + m) = some x) :
    groupSum b st m ||| ((x.toNat % 128) <<< (7 * m)) % 2 ^ 64 = groupSum b st (m + 1) := by
  have hg : x.toNat % 128 < 128 := Nat.mod_lt _ (by norm_num)
  have hlt := group_shift_lt _ m hg hm
  rw [Nat.shiftLeft_eq, Nat.mod_eq_of_lt (by omega), ← Nat.shiftLeft_eq,
    or_shiftLeft_eq_add _ _ _ (groupSum_lt b st m), groupSum_succ b st m x hx]

/-- A successful run of the loop of `LowDecoder.Uint64` entered after `m`
groups: it stops at the first byte with the top bit clear, which is among
the first nine, and returns the sum of the groups. -/
theorem LowDecoder.Uint64_loop_run (b : List UInt8) (st : ℤ) (f : Nat) :
    ∀ (m v : Nat) (i : ℤ), m ≤ 8 →
    LowDecoder.Uint64.loop b st f (groupSum b st m) (7 * m) (st + m) = .ok v i →
    ∃ k, m < k ∧ k ≤ 9 ∧ i = st + k ∧ v = groupSum b st k ∧
      ∀ j, m ≤ j → j < k → ∃ x, index b (st + j) = some x ∧ (128 ≤ x.toNat ↔ j + 1 < k) := by
  induction f with
  | zero => intro m v i _ h; simp [LowDecoder.Uint64.loop] at h
  | succ f ih =>
    intro m v i hm h
    rcases hx : index b (st + m) with _ | x
    · rw [LowDecoder.Uint64.loop] at h
      simp only [hx] at h
      split at h <;> cases h
    · rw [LowDecoder.Uint64_loop_step _ _ _ _ _ _ _ hx, groupSum_or b st m x hm hx] at h
      split at h
      · rename_i hlt
        injection h with h1 h2
        refine ⟨m + 1, by omega, by omega, by rw [← h2]; push_cast; ring, h1.symm, ?_⟩
        intro j hj1 hj2
        have hjm : j = m := by omega
        subst hjm
        exact ⟨x, hx, by omega⟩
      · rename_i hge
        split at h
        · cases h
        · rename_i hs
          have hm7 : m + 1 ≤ 8 := by omega
          have e1 : 7 * m + 7 = 7 * (m + 1) := by ring
          have e2 : st + (m : ℤ) + 1 = st + ((m + 1 : Nat) : ℤ) := by push_cast; ring
          rw [e1, e2] at h
          obtain ⟨k, hk1, hk2, hk3, hk4, hk5⟩ := ih (m + 1) v i hm7 h
          refine ⟨k, by omega, hk2, hk3, hk4, ?_⟩
          intro j hj1 hj2
          by_cases hjm : j = m
          · subst hjm
            exact ⟨x, hx, by omega⟩
          · exact hk5 j (by omega) hj2

/-- A successful `LowDecoder.Uint64` has read `k ≤ 9` bytes, the first
`k - 1` with the top bit set and the last with it clear, and returns the
sum of their groups. -/
theorem LowDecoder.Uint64_run {b : List UInt8} {st i : ℤ} {v : Nat}
    (h : LowDecoder.Uint64 b st = .ok v i) :
    ∃ k : Nat, 0 < k ∧ k ≤ 9 ∧ i = st + k ∧ v = groupSum b st k ∧
      ∀ j : Nat, j < k → ∃ x, index b (st + j) = some x ∧ (128 ≤ x.toNat ↔ j + 1 < k) := by
  unfold LowDecoder.Uint64 at h
  have h2 : LowDecoder.Uint64.loop b st (b.length + 1) (groupSum b st 0) (7 * 0)
      (st + ((0 : Nat) : ℤ)) = .ok v i := by
    simpa [groupSum] using h
  obtain ⟨k, hk1, hk2, hk3, hk4, hk5⟩ := LowDecoder.Uint64_loop_run b st _ 0 v i (by omega) h2
  exact ⟨k, hk1, hk2, hk3, hk4, fun j hj => hk5 j (Nat.zero_le _) hj⟩

/-- Nine bytes with the top bit set make the loop of `LowDecoder.Uint64`
fail with `ErrOverflow`, whatever follows them. -/
theorem LowDecoder.Uint64_loop_overflow (b : List UInt8) (st : ℤ) :
    ∀ (n m f acc : Nat), m + n = 9 → 0 < n → n ≤ f →
    (∀ j : Nat, j < 9 → 128 ≤ ((index b (st + j)).getD 0).toNat) →
    LowDecoder.Uint64.loop b st f acc (7 * m) (st + m) = .fail st .ErrOverflow := by
  intro n
  induction n with
  | zero => intro m f acc _ h; omega
  | succ n ih =>
    intro m f acc hmn _ hf hb
    obtain ⟨f, rfl⟩ : ∃ g, f = g + 1 := ⟨f - 1, by omega⟩
    have hj := hb m (by omega)
    rcases hx : index b (st + m) with _ | x
    · rw [hx] at hj; simp at hj
    · rw [hx] at hj
      simp only [Option.getD_some] at hj
      rw [LowDecoder.Uint64_loop_step _ _ _ _ _ _ _ hx, if_neg (by omega)]
      by_cases hn : n = 0
      · rw [if_pos (by omega)]
      · rw [if_neg (by omega)]
        have e1 : 7 * m + 7 = 7 * (m + 1) := by ring
        have e2 : st + (m : ℤ) + 1 = st + ((m + 1 : Nat) : ℤ) := by push_cast; ring
        rw [e1, e2]
        exact ih (m + 1) f _ (by omega) (by omega) (by omega) hb

/-- C16 (failing inputs): whenever the nine bytes at `st .. st+8` all have
the top bit set, `LowDecoder.Uint64` fails with `ErrOverflow` at `st`
without looking at a tenth byte; so a ten-byte sequence whose tenth group
fits in 64 bits (nine `0xff` bytes followed by `0x01`) is rejected instead
of giving the sum of its groups and the offset `st + 10`. -/
theorem uint64_decoder_rejects_tenth_group (b : List UInt8) (st : ℤ)
    (hb : ∀ j : Nat, j < 9 → 128 ≤ ((index b (st + j)).getD 0).toNat) :
    LowDecoder.Uint64 b st = .fail st .ErrOverflow := by
  have h0 := hb 0 (by omega)
  rcases hx : index b (st + (0 : Nat)) with _ | x
  · rw [hx] at h0; simp at h0
  · have h8 := hb 8 (by omega)
    rcases hy : index b (st + (8 : Nat)) with _ | y
    · rw [hy] at h8; simp at h8
    · have b0 := index_some_lt hx
      have b8 := index_some_lt hy
      unfold LowDecoder.Uint64
      have h := LowDecoder.Uint64_loop_overflow b st 9 0 (b.length + 1) 0 (by omega) (by omega)
        (by push_cast at b0 b8; omega) hb
      simpa using h

/-- C16 (failing input): nine `0xff` bytes followed by `0x01`, the encoding
of `2^64 - 1`, at offset 0. -/
theorem uint64_decoder_rejects_tenth_group_witness :
    (∀ j : Nat, j < 9 → 128 ≤ ((index [0xff, 0xff, 0xff, 0xff, 0xff, 0xff, 0xff, 0xff, 0xff, 0x01]
        ((0 : ℤ) + j)).getD 0).toNat) ∧
      groupSum [0xff, 0xff, 0xff, 0xff, 0xff, 0xff, 0xff, 0xff, 0xff, 0x01] 0 10 = 2 ^ 64 - 1 ∧
      LowDecoder.Uint64 [0xff, 0xff, 0xff, 0xff, 0xff, 0xff, 0xff, 0xff, 0xff, 0x01] 0
        = .fail 0 .ErrOverflow :=
  ⟨by decide, by decide,
    uint64_decoder_rejects_tenth_group
      [0xff, 0xff, 0xff, 0xff, 0xff, 0xff, 0xff, 0xff, 0xff, 0x01] 0 (by decide)⟩

/-! ## The signed decoder -/

/-- The loop of `LowDecoder.Int64` runs like the loop of `LowDecoder.Uint64`
and sign-extends the accumulated value from the width reached. -/
theorem LowDecoder.Int64_loop_of_Uint64 (b : List UInt8) (st : ℤ) (f : Nat) :
    ∀ (acc s : Nat) (i : ℤ),
    (∀ v j, LowDecoder.Uint64.loop b st f acc s i = .ok v j →
      LowDecoder.Int64.loop b st f acc s i =
        .ok (toInt64 ((v <<< (64 - (s + 7 * (j - i).toNat))) % 2 ^ 64)
          >>> (64 - (s + 7 * (j - i).toNat))) j) ∧
    (∀ j e, LowDecoder.Uint64.loop b st f acc s i = .fail j e →
      LowDecoder.Int64.loop b st f acc s i = .fail j e) ∧
    (LowDecoder.Uint64.loop b st f acc s i = .panic →
      LowDecoder.Int64.loop b st f acc s i = .panic) := by
  induction f with
  | zero =>
    intro acc s i
    refine ⟨?_, ?_, ?_⟩
    · intro v j h; simp [LowDecoder.Uint64.loop] at h
    · intro j e h
      rw [LowDecoder.Uint64.loop] at h
      rw [LowDecoder.Int64.loop]
      injection h with h1 h2
      rw [h1, h2]
    · intro h; simp [LowDecoder.Uint64.loop] at h
  | succ f ih =>
    intro acc s i
    rw [LowDecoder.Uint64.loop, LowDecoder.Int64.loop]
    by_cases hlt : i < b.length
    · simp only [hlt, if_true]
      rcases hx : index b i with _ | x
      · simp
      · simp only []
        by_cases hc : x.toNat &&& 0x80 = 0
        · simp only [hc, if_true]
          refine ⟨?_, ?_, ?_⟩
          · intro v j h
            injection h with h1 h2
            subst h1 h2
            have e : (i + 1 - i).toNat = 1 := by omega
            rw [e]
          · intro j e h; cases h
          · intro h; cases h
        · simp only [hc, if_false]
          by_cases ho : s + 7 + 7 > 64
          · simp only [ho, if_true]
            refine ⟨?_, ?_, ?_⟩
            · intro v j h; cases h
            · intro j e h; injection h with h1 h2; rw [h1, h2]
            · intro h; cases h
          · simp only [ho, if_false]
            obtain ⟨a1, a2, a3⟩ := ih (acc ||| ((x.toNat &&& 0x7f) <<< s) % 2 ^ 64) (s + 7) (i + 1)
            refine ⟨?_, a2, a3⟩
            intro v j h
            have hl := LowDecoder.Uint64_loop_lt b st f _ _ _ _ _ h
            have e : s + 7 + 7 * (j - (i + 1)).toNat = s + 7 * (j - i).toNat := by omega
            rw [a1 v j h, e]
    · simp only [hlt, if_false]
      refine ⟨?_, ?_, ?_⟩
      · intro v j h; cases h
      · intro j e h; injection h with h1 h2; rw [h1, h2]
      · intro h; cases h

/-- Sign extension from the width `7 * k` by the pair of shifts of
`LowDecoder.Int64`. -/
theorem signExtend_eq (V k : Nat) (h1 : 0 < k) (h2 : k ≤ 9) (hV : V < 2 ^ (7 * k)) :
    toInt64 ((V <<< (64 - 7 * k)) % 2 ^ 64) >>> (64 - 7 * k) =
      if 2 ^ (7 * k - 1) ≤ V then (V : ℤ) - 2 ^ (7 * k) else V := by
  unfold toInt64
  rw [Int.shiftRight_eq_div_pow, Nat.shiftLeft_eq]
  interval_cases k <;> norm_num at hV ⊢ <;> split <;> split <;> omega

/-- Bit 6 of the last group decides whether the sum of `k + 1` groups
reaches `2^(7(k+1)-1)`. -/
theorem groupSum_sign (b : List UInt8) (st : ℤ) (k : Nat) (t : UInt8)
    (ht : index b (st + k) = some t) :
    2 ^ (7 * (k + 1) - 1) ≤ groupSum b st (k + 1) ↔ t.toNat &&& 0x40 ≠ 0 := by
  have hp : 2 ^ (7 * (k + 1) - 1) = 64 * 2 ^ (7 * k) := by
    rw [show 7 * (k + 1) - 1 = 6 + 7 * k by omega, pow_add]; norm_num
  have hlt := groupSum_lt b st k
  have hm : t.toNat % 256 % 128 = t.toNat % 128 := by omega
  have h40 := and_40_eq_zero_iff (t.toNat % 256) (Nat.mod_lt _ (by norm_num))
  rw [Nat.mod_eq_of_lt (UInt8.toNat_lt_size t)] at h40
  rw [groupSum_succ b st k t ht, hp, Ne, h40]
  constructor
  · intro h hc
    have : t.toNat % 128 * 2 ^ (7 * k) ≤ 63 * 2 ^ (7 * k) := Nat.mul_le_mul_right _ (by omega)
    omega
  · intro h
    have : 64 * 2 ^ (7 * k) ≤ t.toNat % 128 * 2 ^ (7 * k) := Nat.mul_le_mul_right _ (by omega)
    omega

/-- C17: whenever `LowDecoder.Int64` succeeds on `b` at `st` it has consumed
`k` bytes (`1 ≤ k ≤ 9`, the first `k - 1` with the top bit set and the last
with it clear), the returned offset is `st + k`, and the returned value is
`U - 2^(7k)` when bit 6 (`0x40`) of the terminating byte is set and `U`
otherwise, where `U` is the sum over `j < k` of `(b[st+j] & 0x7f) * 2^(7j)`. -/
theorem int64_decoder_sign_extends (b : List UInt8) (st i r : ℤ)
    (h : LowDecoder.Int64 b st = .ok r i) :
    ∃ (k : Nat) (t : UInt8), 0 < k ∧ k ≤ 9 ∧ i = st + k ∧
      (∀ j : Nat, j < k → ∃ x, index b (st + j) = some x ∧ (128 ≤ x.toNat ↔ j + 1 < k)) ∧
      index b (st + k - 1) = some t ∧
      r = if t.toNat &&& 0x40 ≠ 0 then (groupSum b st k : ℤ) - 2 ^ (7 * k)
          else (groupSum b st k : ℤ) := by
  unfold LowDecoder.Int64 at h
  obtain ⟨a1, a2, a3⟩ := LowDecoder.Int64_loop_of_Uint64 b st (b.length + 1) 0 0 st
  rcases hu : LowDecoder.Uint64.loop b st (b.length + 1) 0 0 st with ⟨v, j⟩ | ⟨j, e⟩ | _
  · rw [a1 v j hu] at h
    injection h with h1 h2
    subst h2
    obtain ⟨k, hk1, hk2, hk3, hk4, hk5⟩ := LowDecoder.Uint64_run hu
    obtain ⟨k, rfl⟩ : ∃ n, k = n + 1 := ⟨k - 1, by omega⟩
    obtain ⟨t, ht, -⟩ := hk5 k (by omega)
    have e : 0 + 7 * (j - st).toNat = 7 * (k + 1) := by omega
    rw [e, hk4, signExtend_eq _ (k + 1) hk1 hk2 (groupSum_lt b st (k + 1))] at h1
    have hs := groupSum_sign b st k t ht
    refine ⟨k + 1, t, hk1, hk2, hk3, hk5, ?_, ?_⟩
    · rw [← ht]; congr 1; push_cast; ring
    · rw [← h1]
      by_cases hc : t.toNat &&& 0x40 ≠ 0
      · rw [if_pos hc, if_pos (hs.mpr hc)]
      · rw [if_neg hc, if_neg (fun hh => hc (hs.mp hh))]
  · rw [a2 j e hu] at h; cases h
  · rw [a3 hu] at h; cases h

/-- C17 (witness): the bytes `c0 bb 78` decode to -123456 with offset 3. -/
theorem int64_decoder_sign_extends_witness :
    LowDecoder.Int64 [0xc0, 0xbb, 0x78] 0 = .ok (-123456) 3 ∧
    ∃ (k : Nat) (t : UInt8), 0 < k ∧ k ≤ 9 ∧ (3 : ℤ) = 0 + k ∧
      (∀ j : Nat, j < k → ∃ x, index [0xc0, 0xbb, 0x78] (0 + j) = some x ∧
        (128 ≤ x.toNat ↔ j + 1 < k)) ∧
      index [0xc0, 0xbb, 0x78] (0 + k - 1) = some t ∧
      (-123456 : ℤ) = if t.toNat &&& 0x40 ≠ 0
          then (groupSum [0xc0, 0xbb, 0x78] 0 k : ℤ) - 2 ^ (7 * k)
          else (groupSum [0xc0, 0xbb, 0x78] 0 k : ℤ) :=
  ⟨by decide, int64_decoder_sign_extends [0xc0, 0xbb, 0x78] 0 3 (-123456) (by decide)⟩


/-! ## Round trips of the codec at offset 0 -/

theorem LowEncoder.Name_append (b s : List UInt8) :
    LowEncoder.Name b s = b ++ (LowEncoder.Int [] s.length ++ s) :=
  LowEncoder.ResultType_append b s

/-- The decoder `LowDecoder.Name` reads back what `LowEncoder.Name` wrote at
the position `p.length` of a buffer shorter than `2^63` bytes. -/
theorem LowDecoder.Name_encode (p r s : List UInt8)
    (hlen : (p ++ (LowEncoder.Int [] s.length ++ s) ++ r).length < 2 ^ 63) :
    LowDecoder.Name (p ++ (LowEncoder.Int [] s.length ++ s) ++ r) p.length
      = .ok s ((p ++ (LowEncoder.Int [] s.length ++ s)).length : ℕ) :=
  LowDecoder.ResultType_encode p r s hlen

/-- C18: for every byte string `s`, `LowDecoder.Name` at offset 0 of
`LowEncoder.Name(empty, s)` returns no error, exactly the bytes of `s`, and
the length of the encoding as the offset (the encoding being shorter than
`2^63` bytes, as every Go slice is). -/
theorem name_roundtrip (s : List UInt8) (hlen : (LowEncoder.Name [] s).length < 2 ^ 63) :
    LowDecoder.Name (LowEncoder.Name [] s) 0 = .ok s ((LowEncoder.Name [] s).length : ℕ) := by
  rw [LowEncoder.Name_append] at hlen ⊢
  have h := LowDecoder.Name_encode [] [] s (by simpa using hlen)
  simpa using h

/-- C18 (witness): the empty string and a multi-byte UTF-8 string. -/
theorem name_roundtrip_witness :
    ((LowEncoder.Name [] []).length < 2 ^ 63 ∧
      LowDecoder.Name (LowEncoder.Name [] []) 0 = .ok [] ((LowEncoder.Name [] []).length : ℕ)) ∧
    LowEncoder.Name [] [0xd0, 0xb6, 0x61] = [0x03, 0xd0, 0xb6, 0x61] ∧
    LowDecoder.Name (LowEncoder.Name [] [0xd0, 0xb6, 0x61]) 0 = .ok [0xd0, 0xb6, 0x61] 4 :=
  ⟨⟨by decide, name_roundtrip [] (by decide)⟩, by decide, name_roundtrip [0xd0, 0xb6, 0x61] (by decide)⟩

theorem UInt8.toNat_ofNat_mod (n : Nat) : (UInt8.ofNat n).toNat = n % 256 := by
  simp [UInt8.ofNat, UInt8.toNat]

/-- The value `LowDecoder.Float64` reads at offset 0 of an eight-byte buffer:
the little-endian integer of the bytes. -/
theorem LowDecoder.Float64_eight (x0 x1 x2 x3 x4 x5 x6 x7 : UInt8) :
    LowDecoder.Float64 [x0, x1, x2, x3, x4, x5, x6, x7] 0
      = .ok (x0.toNat + x1.toNat * 2 ^ 8 + x2.toNat * 2 ^ 16 + x3.toNat * 2 ^ 24
          + x4.toNat * 2 ^ 32 + x5.toNat * 2 ^ 40 + x6.toNat * 2 ^ 48 + x7.toNat * 2 ^ 56) 8 := by
  have h0 := UInt8.toNat_lt_size x0
  have h1 := UInt8.toNat_lt_size x1
  have h2 := UInt8.toNat_lt_size x2
  have h3 := UInt8.toNat_lt_size x3
  have h4 := UInt8.toNat_lt_size x4
  have h5 := UInt8.toNat_lt_size x5
  have h6 := UInt8.toNat_lt_size x6
  have h7 := UInt8.toNat_lt_size x7
  simp only [UInt8.size] at h0 h1 h2 h3 h4 h5 h6 h7
  have i0 : index [x0, x1, x2, x3, x4, x5, x6, x7] 0 = some x0 := by simp [index]
  have i1 : index [x0, x1, x2, x3, x4, x5, x6, x7] (0 + 1) = some x1 := by simp [index]
  have i2 : index [x0, x1, x2, x3, x4, x5, x6, x7] (0 + 2) = some x2 := by simp [index]
  have i3 : index [x0, x1, x2, x3, x4, x5, x6, x7] (0 + 3) = some x3 := by simp [index]
  have i4 : index [x0, x1, x2, x3, x4, x5, x6, x7] (0 + 4) = some x4 := by simp [index]
  have i5 : index [x0, x1, x2, x3, x4, x5, x6, x7] (0 + 5) = some x5 := by simp [index]
  have i6 : index [x0, x1, x2, x3, x4, x5, x6, x7] (0 + 6) = some x6 := by simp [index]
  have i7 : index [x0, x1, x2, x3, x4, x5, x6, x7] (0 + 7) = some x7 := by simp [index]
  unfold LowDecoder.Float64
  simp only
  rw [if_neg (by simp), i0, i1, i2, i3, i4, i5, i6, i7]
  simp only
  have m1 : (x1.toNat <<< 8) % 2 ^ 64 = x1.toNat <<< 8 := by
    rw [Nat.shiftLeft_eq]; exact Nat.mod_eq_of_lt (by omega)
  have m2 : (x2.toNat <<< 16) % 2 ^ 64 = x2.toNat <<< 16 := by
    rw [Nat.shiftLeft_eq]; exact Nat.mod_eq_of_lt (by omega)
  have m3 : (x3.toNat <<< 24) % 2 ^ 64 = x3.toNat <<< 24 := by
    rw [Nat.shiftLeft_eq]; exact Nat.mod_eq_of_lt (by omega)
  have m4 : (x4.toNat <<< 32) % 2 ^ 64 = x4.toNat <<< 32 := by
    rw [Nat.shiftLeft_eq]; exact Nat.mod_eq_of_lt (by omega)
  have m5 : (x5.toNat <<< 40) % 2 ^ 64 = x5.toNat <<< 40 := by
    rw [Nat.shiftLeft_eq]; exact Nat.mod_eq_of_lt (by omega)
  have m6 : (x6.toNat <<< 48) % 2 ^ 64 = x6.toNat <<< 48 := by
    rw [Nat.shiftLeft_eq]; exact Nat.mod_eq_of_lt (by omega)
  have m7 : (x7.toNat <<< 56) % 2 ^ 64 = x7.toNat <<< 56 := by
    rw [Nat.shiftLeft_eq]; exact Nat.mod_eq_of_lt (by omega)
  rw [m1, m2, m3, m4, m5, m6, m7,
    or_shiftLeft_eq_add _ _ 8 (by omega), or_shiftLeft_eq_add _ _ 16 (by omega),
    or_shiftLeft_eq_add _ _ 24 (by omega), or_shiftLeft_eq_add _ _ 32 (by omega),
    or_shiftLeft_eq_add _ _ 40 (by omega), or_shiftLeft_eq_add _ _ 48 (by omega),
    or_shiftLeft_eq_add _ _ 56 (by omega), zero_add]

/-- C19: for every 64-bit pattern `x`, `LowEncoder.Float64(empty, x)` writes
eight bytes, and `LowDecoder.Float64` at offset 0 of them returns no error,
offset 8 and the bit pattern `x`. -/
theorem float64_roundtrip (x : Nat) (hx : x < 2 ^ 64) :
    (LowEncoder.Float64 [] x).length = 8 ∧
      LowDecoder.Float64 (LowEncoder.Float64 [] x) 0 = .ok x 8 := by
  constructor
  · simp [LowEncoder.Float64]
  · unfold LowEncoder.Float64
    simp only [List.nil_append]
    rw [LowDecoder.Float64_eight]
    simp only [UInt8.toNat_ofNat_mod, Nat.shiftRight_eq_div_pow]
    congr 1
    norm_num at hx ⊢
    omega

/-- C19 (witness): the bit pattern of the float64 `1.0`. -/
theorem float64_roundtrip_witness :
    (0x3ff0000000000000 : Nat) < 2 ^ 64 ∧
      LowEncoder.Float64 [] 0x3ff0000000000000 = [0, 0, 0, 0, 0, 0, 0xf0, 0x3f] ∧
      (LowEncoder.Float64 [] 0x3ff0000000000000).length = 8 ∧
      LowDecoder.Float64 (LowEncoder.Float64 [] 0x3ff0000000000000) 0
        = .ok 0x3ff0000000000000 8 :=
  ⟨by decide, by decide, float64_roundtrip 0x3ff0000000000000 (by decide)⟩

/-- C20: for every pair of value-type byte vectors `(params, result)`,
`LowDecoder.FuncType` at offset 0 of `LowEncoder.FuncType(empty, params,
result)` returns no error, a `FuncType` with `Params = params` and
`Result = result`, and the length of the encoding as the offset; and for
every vector `tp`, `LowDecoder.ResultType` at offset 0 of
`LowEncoder.ResultType(empty, tp)` returns `tp` and the length of the
encoding (the encodings being shorter than `2^63` bytes, as every Go slice
is). -/
theorem functype_resulttype_roundtrip (ps rs tp : List UInt8)
    (h1 : (LowEncoder.FuncType [] ps rs).length < 2 ^ 63)
    (h2 : (LowEncoder.ResultType [] tp).length < 2 ^ 63) :
    LowDecoder.FuncType (LowEncoder.FuncType [] ps rs) 0
        = .ok ⟨ps, rs⟩ ((LowEncoder.FuncType [] ps rs).length : ℕ) ∧
      LowDecoder.ResultType (LowEncoder.ResultType [] tp) 0
        = .ok tp ((LowEncoder.ResultType [] tp).length : ℕ) := by
  constructor
  · have h := LowDecoder.FuncType_encode [] [] ps rs (by simpa using h1)
    simpa using h
  · rw [LowEncoder.ResultType_append] at h2 ⊢
    have h := LowDecoder.ResultType_encode [] [] tp (by simpa using h2)
    simpa using h

/-- C20 (witness): `(i32, i64) -> (f64)` and the vector `(i32, f32)`. -/
theorem functype_resulttype_roundtrip_witness :
    LowEncoder.FuncType [] [0x7f, 0x7e] [0x7c] = [0x60, 0x02, 0x7f, 0x7e, 0x01, 0x7c] ∧
    (LowDecoder.FuncType (LowEncoder.FuncType [] [0x7f, 0x7e] [0x7c]) 0
        = .ok ⟨[0x7f, 0x7e], [0x7c]⟩ ((LowEncoder.FuncType [] [0x7f, 0x7e] [0x7c]).length : ℕ) ∧
      LowDecoder.ResultType (LowEncoder.ResultType [] [0x7f, 0x7d]) 0
        = .ok [0x7f, 0x7d] ((LowEncoder.ResultType [] [0x7f, 0x7d]).length : ℕ)) :=
  ⟨by decide,
    functype_resulttype_roundtrip [0x7f, 0x7e] [0x7c] [0x7f, 0x7d] (by decide) (by decide)⟩


/-! ## One opcode of the instruction walker -/

theorem UInt8.eq_iff_toNat (a c : UInt8) : a = c ↔ a.toNat = c.toNat := by
  constructor
  · intro h; rw [h]
  · intro h
    cases a; cases c
    simp only [UInt8.toNat] at h
    congr
    exact BitVec.eq_of_toNat_eq h

theorem LowDecoder.Uint64_of_Int64 {b : List UInt8} {st i r : ℤ}
    (h : LowDecoder.Int64 b st = .ok r i) : ∃ v, LowDecoder.Uint64 b st = .ok v i := by
  unfold LowDecoder.Int64 at h
  unfold LowDecoder.Uint64
  obtain ⟨a1, a2, a3⟩ := LowDecoder.Int64_loop_of_Uint64 b st (b.length + 1) 0 0 st
  rcases hu : LowDecoder.Uint64.loop b st (b.length + 1) 0 0 st with ⟨v, j⟩ | ⟨j, e⟩ | _
  · rw [a1 v j hu] at h
    injection h with h1 h2
    exact ⟨v, by rw [h2]⟩
  · rw [a2 j e hu] at h; cases h
  · rw [a3 hu] at h; cases h

theorem LowDecoder.Int64_ok {b : List UInt8} {st i r : ℤ}
    (h : LowDecoder.Int64 b st = .ok r i) : 0 ≤ st ∧ st < i ∧ i ≤ b.length := by
  obtain ⟨v, hv⟩ := LowDecoder.Uint64_of_Int64 h
  have := LowDecoder.Uint64_ok hv
  exact ⟨this.1, this.2.1, this.2.2.1⟩

theorem LowDecoder.Uint64_loop_fail (b : List UInt8) (st : ℤ) (f : Nat) :
    ∀ (acc s : Nat) (i j : ℤ) (e : Err),
    LowDecoder.Uint64.loop b st f acc s i = .fail j e → j = st := by
  induction f with
  | zero =>
    intro acc s i j e h
    rw [LowDecoder.Uint64.loop] at h
    injection h with h1 h2
    exact h1.symm
  | succ f ih =>
    intro acc s i j e h
    rw [LowDecoder.Uint64.loop] at h
    split at h
    · split at h
      · cases h
      · simp only at h
        split at h
        · cases h
        · split at h
          · injection h with h1 h2
            exact h1.symm
          · exact ih _ _ _ _ _ h
    · injection h with h1 h2
      exact h1.symm

theorem LowDecoder.Int64_fail {b : List UInt8} {st j : ℤ} {e : Err}
    (h : LowDecoder.Int64 b st = .fail j e) : j = st := by
  unfold LowDecoder.Int64 at h
  obtain ⟨a1, a2, a3⟩ := LowDecoder.Int64_loop_of_Uint64 b st (b.length + 1) 0 0 st
  rcases hu : LowDecoder.Uint64.loop b st (b.length + 1) 0 0 st with ⟨v, k⟩ | ⟨k, e2⟩ | _
  · rw [a1 v k hu] at h; cases h
  · rw [a2 k e2 hu] at h
    injection h with h1 h2
    rw [← h1]
    exact LowDecoder.Uint64_loop_fail b st _ _ _ _ _ _ hu
  · rw [a3 hu] at h; cases h

theorem InstructionsDecoder.brTableLoop_ok (b : List UInt8) (k : Nat) :
    ∀ (i j : ℤ) (u : Unit), InstructionsDecoder.brTableLoop b k i = .ok u j →
    i ≤ j ∧ (i ≤ b.length → j ≤ b.length) := by
  induction k with
  | zero =>
    intro i j u h
    rw [InstructionsDecoder.brTableLoop] at h
    injection h with h1 h2
    subst h2
    exact ⟨le_refl _, fun h => h⟩
  | succ k ih =>
    intro i j u h
    rw [InstructionsDecoder.brTableLoop] at h
    split at h
    · cases h
    · cases h
    · rename_i l i2 hl
      have b1 := LowDecoder.Int_ok hl
      have b2 := ih _ _ _ h
      exact ⟨by omega, fun _ => b2.2 b1.2.2.1⟩

theorem InstructionsDecoder.fcExt_ok {b : List UInt8} {st j : ℤ} {u : Unit}
    (h : InstructionsDecoder.fcExt b st = .ok u j) : j = st + 2 ∧ j ≤ b.length := by
  unfold InstructionsDecoder.fcExt at h
  split at h
  · cases h
  · cases h
  · rename_i op i1 h1
    have b1 := LowDecoder.Byte_ok h1
    split at h
    · cases h
    · split at h
      · cases h
      · cases h
      · rename_i op2 i2 h2
        have b2 := LowDecoder.Byte_ok h2
        have b3 := index_some_lt b2.1
        split at h
        · injection h with h3 h4
          subst h4
          omega
        · split at h <;> cases h


/-- Case analysis of the `switch` of `InstructionsDecoder.Expr`, by the
numeric value of the opcode.  The cases with several immediates are
described by their possible outcomes. -/
theorem InstructionsDecoder.Expr_step_elim (P : InstructionsDecoder.Step → Prop)
    (b : List UInt8) (opst : ℤ) (op : UInt8) (i d : ℤ)
    (hA : (op.toNat ≤ 1 ∨ op.toNat = 5 ∨ op.toNat = 15 ∨ op.toNat = 26 ∨ op.toNat = 27 ∨
        op.toNat = 63 ∨ op.toNat = 64 ∨ (69 ≤ op.toNat ∧ op.toNat ≤ 166)) → P (.next i none d))
    (hB : (2 ≤ op.toNat ∧ op.toNat ≤ 4) → P (.next i none (d + 1)))
    (hC : op.toNat = 11 → P (.next i none (d - 1)))
    (hD : (op.toNat = 12 ∨ op.toNat = 13 ∨ op.toNat = 16 ∨ (32 ≤ op.toNat ∧ op.toNat ≤ 36) ∨
        (65 ≤ op.toNat ∧ op.toNat ≤ 68)) →
      P (InstructionsDecoder.Step.ofInt64 (LowDecoder.Int64 b i) d))
    (hE : op.toNat = 14 → ∀ s, (s = .panic ∨ (∃ e, s = .ret e) ∨
        (∃ j, i < j ∧ j ≤ b.length ∧ s = .next j none d)) → P s)
    (hF : op.toNat = 17 → ∀ s, (s = .panic ∨ (∃ e, s = .next (i + 1) (some e) d) ∨
        (∃ j, i < j ∧ j ≤ b.length ∧ s = .next (j + 1) none d)) → P s)
    (hG : (40 ≤ op.toNat ∧ op.toNat ≤ 62) → ∀ s, (s = .panic ∨ (∃ e, s = .ret e) ∨
        (∃ j, i < j ∧ j ≤ b.length ∧ s = .next j none d)) → P s)
    (hH : op.toNat = 252 → ∀ s, (s = .panic ∨ (∃ j e, s = .next j (some e) d) ∨
        (opst + 2 ≤ b.length ∧ s = .next (opst + 2) none d)) → P s)
    (hI : ((6 ≤ op.toNat ∧ op.toNat ≤ 10) ∨ (18 ≤ op.toNat ∧ op.toNat ≤ 25) ∨
        (28 ≤ op.toNat ∧ op.toNat ≤ 31) ∨ (37 ≤ op.toNat ∧ op.toNat ≤ 39) ∨
        (167 ≤ op.toNat ∧ op.toNat ≤ 251) ∨ 253 ≤ op.toNat) →
      P (.next i (some (.Wrap (.UnsupportedOpcodeError op []) "at pos 0x%x" [opst])) d)) :
    P (InstructionsDecoder.Expr.step b opst op i d) := by
  have e1 : (op ≤ Nop ∨ op = Else ∨ op = Ret) ↔ (op.toNat ≤ 1 ∨ op.toNat = 5 ∨ op.toNat = 15) :=
    or_congr Iff.rfl (or_congr (UInt8.eq_iff_toNat op Else) (UInt8.eq_iff_toNat op Ret))
  have e2 : (op = Block ∨ op = Loop ∨ op = If) ↔ (op.toNat = 2 ∨ op.toNat = 3 ∨ op.toNat = 4) :=
    or_congr (UInt8.eq_iff_toNat op Block) (or_congr (UInt8.eq_iff_toNat op Loop) (UInt8.eq_iff_toNat op If))
  have e3 : (op = End) ↔ (op.toNat = 11) :=
    UInt8.eq_iff_toNat op End
  have e4 : (op = Br ∨ op = BrIf) ↔ (op.toNat = 12 ∨ op.toNat = 13) :=
    or_congr (UInt8.eq_iff_toNat op Br) (UInt8.eq_iff_toNat op BrIf)
  have e5 : (op = BrTable) ↔ (op.toNat = 14) :=
    UInt8.eq_iff_toNat op BrTable
  have e6 : (op = Call) ↔ (op.toNat = 16) :=
    UInt8.eq_iff_toNat op Call
  have e7 : (op = CallIndir) ↔ (op.toNat = 17) :=
    UInt8.eq_iff_toNat op CallIndir
  have e8 : (op = Drop ∨ op = Select) ↔ (op.toNat = 26 ∨ op.toNat = 27) :=
    or_congr (UInt8.eq_iff_toNat op Drop) (UInt8.eq_iff_toNat op Select)
  have e9 : (op ≥ LocalGet ∧ op ≤ GlobalSet) ↔ (32 ≤ op.toNat ∧ op.toNat ≤ 36) :=
    Iff.rfl
  have e10 : (op ≥ I32Load ∧ op ≤ I64Store32) ↔ (40 ≤ op.toNat ∧ op.toNat ≤ 62) :=
    Iff.rfl
  have e11 : (op = MemorySize ∨ op = MemoryGrow) ↔ (op.toNat = 63 ∨ op.toNat = 64) :=
    or_congr (UInt8.eq_iff_toNat op MemorySize) (UInt8.eq_iff_toNat op MemoryGrow)
  have e12 : (op ≥ I32Const ∧ op ≤ F64Const) ↔ (65 ≤ op.toNat ∧ op.toNat ≤ 68) :=
    Iff.rfl
  have e13 : (op ≥ I32EqZ ∧ op ≤ F64CopySign) ↔ (69 ≤ op.toNat ∧ op.toNat ≤ 166) :=
    Iff.rfl
  have e14 : (op = FCExt) ↔ (op.toNat = 252) :=
    UInt8.eq_iff_toNat op FCExt
  rw [InstructionsDecoder.Expr.step]
  by_cases h1 : op ≤ Nop ∨ op = Else ∨ op = Ret
  · rw [if_pos h1]
    have n1 := e1.mp h1
    exact hA (by omega)
  rw [if_neg h1]
  have n1 := mt e1.mpr h1
  by_cases h2 : op = Block ∨ op = Loop ∨ op = If
  · rw [if_pos h2]
    have n2 := e2.mp h2
    exact hB (by omega)
  rw [if_neg h2]
  have n2 := mt e2.mpr h2
  by_cases h3 : op = End
  · rw [if_pos h3]
    have n3 := e3.mp h3
    exact hC n3
  rw [if_neg h3]
  have n3 := mt e3.mpr h3
  by_cases h4 : op = Br ∨ op = BrIf
  · rw [if_pos h4]
    have n4 := e4.mp h4
    exact hD (by omega)
  rw [if_neg h4]
  have n4 := mt e4.mpr h4
  by_cases h5 : op = BrTable
  · rw [if_pos h5]
    have n5 := e5.mp h5
    rcases hr : LowDecoder.Int b i with ⟨l, j1⟩ | ⟨j1, e1⟩ | _
    · simp only []
      have o1 := LowDecoder.Int_ok hr
      rcases hr2 : brTableLoop b (addInt l 1).toNat j1 with ⟨u, j2⟩ | ⟨j2, e2⟩ | _
      · simp only []
        have o2 := brTableLoop_ok b _ _ _ _ hr2
        exact hE n5 _ (Or.inr (Or.inr ⟨j2, by omega, o2.2 o1.2.2.1, rfl⟩))
      · simp only []
        exact hE n5 _ (Or.inr (Or.inl ⟨e2, rfl⟩))
      · simp only []
        exact hE n5 _ (Or.inl rfl)
    · simp only []
      exact hE n5 _ (Or.inr (Or.inl ⟨e1, rfl⟩))
    · simp only []
      exact hE n5 _ (Or.inl rfl)
  rw [if_neg h5]
  have n5 := mt e5.mpr h5
  by_cases h6 : op = Call
  · rw [if_pos h6]
    have n6 := e6.mp h6
    exact hD (by omega)
  rw [if_neg h6]
  have n6 := mt e6.mpr h6
  by_cases h7 : op = CallIndir
  · rw [if_pos h7]
    have n7 := e7.mp h7
    rcases hr : LowDecoder.Int64 b i with ⟨v1, j1⟩ | ⟨j1, e1⟩ | _
    · simp only []
      have o1 := LowDecoder.Int64_ok hr
      exact hF n7 _ (Or.inr (Or.inr ⟨j1, o1.2.1, o1.2.2, rfl⟩))
    · simp only []
      have o1 := LowDecoder.Int64_fail hr
      subst o1
      exact hF n7 _ (Or.inr (Or.inl ⟨e1, rfl⟩))
    · simp only []
      exact hF n7 _ (Or.inl rfl)
  rw [if_neg h7]
  have n7 := mt e7.mpr h7
  by_cases h8 : op = Drop ∨ op = Select
  · rw [if_pos h8]
    have n8 := e8.mp h8
    exact hA (by omega)
  rw [if_neg h8]
  have n8 := mt e8.mpr h8
  by_cases h9 : op ≥ LocalGet ∧ op ≤ GlobalSet
  · rw [if_pos h9]
    have n9 := e9.mp h9
    exact hD (by omega)
  rw [if_neg h9]
  have n9 := mt e9.mpr h9
  by_cases h10 : op ≥ I32Load ∧ op ≤ I64Store32
  · rw [if_pos h10]
    have n10 := e10.mp h10
    rcases hr : LowDecoder.Int64 b i with ⟨v1, j1⟩ | ⟨j1, e1⟩ | _
    · simp only []
      have o1 := LowDecoder.Int64_ok hr
      rcases hr2 : LowDecoder.Int64 b j1 with ⟨v2, j2⟩ | ⟨j2, e2⟩ | _
      · simp only []
        have o2 := LowDecoder.Int64_ok hr2
        exact hG n10 _ (Or.inr (Or.inr ⟨j2, by omega, o2.2.2, rfl⟩))
      · simp only []
        exact hG n10 _ (Or.inr (Or.inl ⟨e2, rfl⟩))
      · simp only []
        exact hG n10 _ (Or.inl rfl)
    · simp only []
      exact hG n10 _ (Or.inr (Or.inl ⟨e1, rfl⟩))
    · simp only []
      exact hG n10 _ (Or.inl rfl)
  rw [if_neg h10]
  have n10 := mt e10.mpr h10
  by_cases h11 : op = MemorySize ∨ op = MemoryGrow
  · rw [if_pos h11]
    have n11 := e11.mp h11
    exact hA (by omega)
  rw [if_neg h11]
  have n11 := mt e11.mpr h11
  by_cases h12 : op ≥ I32Const ∧ op ≤ F64Const
  · rw [if_pos h12]
    have n12 := e12.mp h12
    exact hD (by omega)
  rw [if_neg h12]
  have n12 := mt e12.mpr h12
  by_cases h13 : op ≥ I32EqZ ∧ op ≤ F64CopySign
  · rw [if_pos h13]
    have n13 := e13.mp h13
    exact hA (by omega)
  rw [if_neg h13]
  have n13 := mt e13.mpr h13
  by_cases h14 : op = FCExt
  · rw [if_pos h14]
    have n14 := e14.mp h14
    rcases hr : fcExt b opst with ⟨u, j1⟩ | ⟨j1, e1⟩ | _
    · simp only []
      have o1 := fcExt_ok hr
      obtain ⟨o2, o3⟩ := o1
      subst o2
      exact hH n14 _ (Or.inr (Or.inr ⟨o3, rfl⟩))
    · simp only []
      exact hH n14 _ (Or.inr (Or.inl ⟨j1, e1, rfl⟩))
    · simp only []
      exact hH n14 _ (Or.inl rfl)
  rw [if_neg h14]
  have n14 := mt e14.mpr h14
  exact hI (by omega)

/-- The depth after one opcode: unchanged, one more, or one less; one less
only for `End`, which has no immediate. -/
theorem InstructionsDecoder.Expr_step_depth {b : List UInt8} {opst : ℤ} {op : UInt8} {i d j : ℤ}
    {err : Option Err} {d2 : ℤ}
    (h : InstructionsDecoder.Expr.step b opst op i d = .next j err d2) :
    d2 = d ∨ d2 = d + 1 ∨ (op = End ∧ j = i ∧ err = none ∧ d2 = d - 1) := by
  revert h
  refine InstructionsDecoder.Expr_step_elim
    (fun s => s = .next j err d2 → d2 = d ∨ d2 = d + 1 ∨ (op = End ∧ j = i ∧ err = none ∧ d2 = d - 1))
    b opst op i d ?_ ?_ ?_ ?_ ?_ ?_ ?_ ?_ ?_
  · intro _ h
    injection h with h1 h2 h3
    exact Or.inl h3.symm
  · intro _ h
    injection h with h1 h2 h3
    exact Or.inr (Or.inl h3.symm)
  · intro hn h
    injection h with h1 h2 h3
    exact Or.inr (Or.inr ⟨(UInt8.eq_iff_toNat op End).mpr hn, h1.symm, h2.symm, h3.symm⟩)
  · intro _ h
    unfold InstructionsDecoder.Step.ofInt64 at h
    split at h
    · cases h
    · injection h with h1 h2 h3
      exact Or.inl h3.symm
    · injection h with h1 h2 h3
      exact Or.inl h3.symm
  · rintro _ s (rfl | ⟨e, rfl⟩ | ⟨k, _, _, rfl⟩) h
    · cases h
    · cases h
    · injection h with h1 h2 h3
      exact Or.inl h3.symm
  · rintro _ s (rfl | ⟨e, rfl⟩ | ⟨k, _, _, rfl⟩) h
    · cases h
    · injection h with h1 h2 h3
      exact Or.inl h3.symm
    · injection h with h1 h2 h3
      exact Or.inl h3.symm
  · rintro _ s (rfl | ⟨e, rfl⟩ | ⟨k, _, _, rfl⟩) h
    · cases h
    · cases h
    · injection h with h1 h2 h3
      exact Or.inl h3.symm
  · rintro _ s (rfl | ⟨k, e, rfl⟩ | ⟨_, rfl⟩) h
    · cases h
    · injection h with h1 h2 h3
      exact Or.inl h3.symm
    · injection h with h1 h2 h3
      exact Or.inl h3.symm
  · intro _ h
    injection h with h1 h2 h3
    exact Or.inl h3.symm

theorem InstructionsDecoder.Expr_step_End (b : List UInt8) (opst i d : ℤ) :
    InstructionsDecoder.Expr.step b opst End i d = .next i none (d - 1) := by
  rw [InstructionsDecoder.Expr.step, if_neg (by decide), if_neg (by decide), if_pos rfl]

theorem slice_one {b : List UInt8} {i : ℤ} {x : UInt8} (h : index b i = some x) :
    slice b i (i + 1) = some [x] := by
  have hi := index_some_lt h
  rcases hs : slice b i (i + 1) with _ | code
  · unfold slice at hs
    rw [if_pos ⟨hi.1, by omega, by omega⟩] at hs
    cases hs
  · have hl := slice_length hs
    have hx := index_slice hs 0 (le_refl _) (by omega)
    rw [add_zero, h] at hx
    match code, hl, hx with
    | [y], _, hx =>
      simp [index] at hx
      rw [hx]
    | [], hl, _ => simp at hl
    | _ :: _ :: _, hl, _ => simp at hl; omega

/-- The last byte of a non-empty slice. -/
theorem slice_getLast {b code : List UInt8} {lo hi : ℤ} {x : UInt8}
    (hs : slice b lo hi = some code) (hlt : lo < hi) (hx : index b (hi - 1) = some x) :
    code.getLast? = some x := by
  have hl := slice_length hs
  have hb := slice_some_bounds hs
  have h1 := index_slice hs (hi - 1 - lo) (by omega) (by omega)
  rw [show lo + (hi - 1 - lo) = hi - 1 by ring, hx] at h1
  unfold index at h1
  rw [if_pos (by omega)] at h1
  rw [List.getLast?_eq_getElem?, ← h1]
  congr 1
  omega

/-- The loop of `InstructionsDecoder.Expr` entered at depth `≥ 0` returns
just after an `End`. -/
theorem InstructionsDecoder.Expr_loop_shape (b : List UInt8) (st : ℤ) (f : Nat) :
    ∀ (depth i : ℤ) (code : List UInt8) (j : ℤ), 0 ≤ depth → st ≤ i →
    InstructionsDecoder.Expr.loop b st f depth i = .ok code j →
    st < j ∧ j ≤ b.length ∧ slice b st j = some code ∧ index b (j - 1) = some End := by
  induction f with
  | zero => intro depth i code j _ _ h; simp [InstructionsDecoder.Expr.loop] at h
  | succ f ih =>
    intro depth i code j hd hst h
    rw [InstructionsDecoder.Expr.loop] at h
    split at h
    · simp only at h
      split at h
      · cases h
      · rename_i op hop
        split at h
        · cases h
        · cases h
        · rename_i i2 err d2 hstep
          have hdep := InstructionsDecoder.Expr_step_depth hstep
          split at h
          · cases h
          · rename_i w hw
            have hs := slice_some_bounds hw
            split at h
            · cases h
            · split at h
              · rename_i hneg
                split at h
                · cases h
                · rename_i c hc
                  injection h with h1 h2
                  subst h1 h2
                  have hs2 := slice_some_bounds hc
                  rcases hdep with h3 | h3 | ⟨h3, h4, -, -⟩
                  · omega
                  · omega
                  · subst h3 h4
                    refine ⟨by omega, hs2.2.2, hc, ?_⟩
                    rw [show i + 1 - 1 = i by ring]
                    exact hop
              · rename_i hnn
                exact ih _ _ _ _ (by omega) (by omega) h
    · cases h

/-- C12: whenever `InstructionsDecoder.Expr(b, st)` succeeds with `(code, i)`,
then `st < i ≤ len(b)`, `code` is the sub-slice `b[st:i]`, and the last byte
of `code` is `0x0b` (the terminating `End`, which is `b[i-1]`); and when
`b[st] = 0x0b` the result is the single byte `0b` with `i = st + 1`. -/
theorem expr_output_shape (b : List UInt8) (st : ℤ) :
    (∀ code i, InstructionsDecoder.Expr b st = .ok code i →
      st < i ∧ i ≤ b.length ∧ slice b st i = some code ∧ index b (i - 1) = some 0x0b ∧
        code.getLast? = some 0x0b) ∧
    (index b st = some 0x0b → InstructionsDecoder.Expr b st = .ok [0x0b] (st + 1)) := by
  constructor
  · intro code i h
    unfold InstructionsDecoder.Expr at h
    obtain ⟨h1, h2, h3, h4⟩ :=
      InstructionsDecoder.Expr_loop_shape b st _ 0 st code i (le_refl _) (le_refl _) h
    exact ⟨h1, h2, h3, h4, slice_getLast h3 h1 h4⟩
  · intro hx
    have hi := index_some_lt hx
    have hs := slice_one hx
    unfold InstructionsDecoder.Expr
    rw [InstructionsDecoder.Expr.loop]
    simp only [hi.2, if_true, hx]
    have he := InstructionsDecoder.Expr_step_End b st (st + 1) 0
    unfold End at he
    rw [he]
    simp only [hs]
    rw [if_pos (by norm_num)]

/-- C12 (witness): `block; end; end` followed by a stray byte, walked from
offset 1 of a buffer, and the program of just `End`. -/
theorem expr_output_shape_witness :
    InstructionsDecoder.Expr [0x00, 0x02, 0x0b, 0x0b, 0x1a] 1 = .ok [0x02, 0x0b, 0x0b] 4 ∧
    ((1 : ℤ) < 4 ∧ (4 : ℤ) ≤ ([0x00, 0x02, 0x0b, 0x0b, 0x1a] : List UInt8).length ∧
      slice [0x00, 0x02, 0x0b, 0x0b, 0x1a] 1 4 = some [0x02, 0x0b, 0x0b] ∧
      index [0x00, 0x02, 0x0b, 0x0b, 0x1a] (4 - 1) = some 0x0b ∧
      ([0x02, 0x0b, 0x0b] : List UInt8).getLast? = some 0x0b) ∧
    InstructionsDecoder.Expr [0x41, 0x0b, 0x0b] 2 = .ok [0x0b] (2 + 1) :=
  ⟨by decide,
    (expr_output_shape [0x00, 0x02, 0x0b, 0x0b, 0x1a] 1).1 [0x02, 0x0b, 0x0b] 4 (by decide),
    (expr_output_shape [0x41, 0x0b, 0x0b] 2).2 (by decide)⟩


/-! ## The walk of the instruction decoder up to an opcode -/

/-- An opcode consumed without an error moves the cursor forward. -/
theorem InstructionsDecoder.Expr_step_progress {b : List UInt8} {opst : ℤ} {op : UInt8}
    {i d j d2 : ℤ} (h : InstructionsDecoder.Expr.step b opst op i d = .next j none d2)
    (hi : i = opst + 1) : opst < j := by
  revert h
  refine InstructionsDecoder.Expr_step_elim (fun s => s = .next j none d2 → opst < j)
    b opst op i d ?_ ?_ ?_ ?_ ?_ ?_ ?_ ?_ ?_
  · intro _ h
    injection h with h1 h2 h3
    omega
  · intro _ h
    injection h with h1 h2 h3
    omega
  · intro _ h
    injection h with h1 h2 h3
    omega
  · intro _ h
    unfold InstructionsDecoder.Step.ofInt64 at h
    split at h
    · cases h
    · injection h with h1 h2 h3
      cases h2
    · rename_i v k hk
      have := LowDecoder.Int64_ok hk
      injection h with h1 h2 h3
      omega
  · rintro _ s (rfl | ⟨e, rfl⟩ | ⟨k, hk, _, rfl⟩) h
    · cases h
    · cases h
    · injection h with h1 h2 h3
      omega
  · rintro _ s (rfl | ⟨e, rfl⟩ | ⟨k, hk, _, rfl⟩) h
    · cases h
    · injection h with h1 h2 h3
      cases h2
    · injection h with h1 h2 h3
      omega
  · rintro _ s (rfl | ⟨e, rfl⟩ | ⟨k, hk, _, rfl⟩) h
    · cases h
    · cases h
    · injection h with h1 h2 h3
      omega
  · rintro _ s (rfl | ⟨k, e, rfl⟩ | ⟨_, rfl⟩) h
    · cases h
    · injection h with h1 h2 h3
      cases h2
    · injection h with h1 h2 h3
      omega
  · intro _ h
    injection h with h1 h2 h3
    cases h2

/-- An iteration that goes on is one unfolding of the loop. -/
theorem InstructionsDecoder.Expr_iter_loop {b : List UInt8} {d i d2 i2 : ℤ}
    (h : InstructionsDecoder.Expr.iter b d i = some (d2, i2)) (st : ℤ) (f : Nat) :
    InstructionsDecoder.Expr.loop b st (f + 1) d i = InstructionsDecoder.Expr.loop b st f d2 i2 ∧
      0 ≤ i ∧ i < i2 ∧ i2 ≤ b.length ∧ 0 ≤ d2 := by
  unfold InstructionsDecoder.Expr.iter at h
  by_cases hlt : i < b.length
  · rw [if_pos hlt] at h
    rcases hop : index b i with _ | op
    · rw [hop] at h; cases h
    · rw [hop] at h
      simp only at h
      have hi := index_some_lt hop
      rcases hstep : InstructionsDecoder.Expr.step b i op (i + 1) d with e | ⟨j, err, d3⟩ | _
      · rw [hstep] at h; cases h
      · rw [hstep] at h
        cases err with
        | some e => cases h
        | none =>
          simp only at h
          have hp := InstructionsDecoder.Expr_step_progress hstep rfl
          rcases hsl : slice b i j with _ | w
          · rw [hsl] at h; cases h
          · rw [hsl] at h
            simp only at h
            have hb := slice_some_bounds hsl
            by_cases hd : d3 < 0
            · rw [if_pos hd] at h; cases h
            · rw [if_neg hd] at h
              injection h with h
              injection h with h1 h2
              subst h1 h2
              refine ⟨?_, hi.1, hp, hb.2.2, by omega⟩
              rw [InstructionsDecoder.Expr.loop]
              simp only [hlt, if_true, hop, hstep, hsl]
              rw [if_neg hd]
      · rw [hstep] at h; cases h
  · rw [if_neg hlt] at h; cases h

theorem InstructionsDecoder.Expr_reach_loop (b : List UInt8) (st : ℤ) (n : Nat) :
    ∀ (d p : ℤ), InstructionsDecoder.Expr.reach b st n = some (d, p) →
    (∀ f, InstructionsDecoder.Expr.loop b st (n + f) 0 st = InstructionsDecoder.Expr.loop b st f d p) ∧
      st + n ≤ p ∧ (0 < n → 0 ≤ st) := by
  induction n with
  | zero =>
    intro d p h
    rw [InstructionsDecoder.Expr.reach] at h
    injection h with h
    injection h with h1 h2
    subst h1 h2
    refine ⟨fun f => by rw [Nat.zero_add], by simp, fun h => by omega⟩
  | succ n ih =>
    intro d p h
    rw [InstructionsDecoder.Expr.reach] at h
    rcases hr : InstructionsDecoder.Expr.reach b st n with _ | ⟨d0, p0⟩
    · rw [hr] at h; cases h
    · rw [hr] at h
      simp only at h
      obtain ⟨a1, a2, a3⟩ := ih d0 p0 hr
      refine ⟨?_, ?_, ?_⟩
      · intro f
        obtain ⟨c1, -⟩ := InstructionsDecoder.Expr_iter_loop h st f
        rw [show n + 1 + f = n + (f + 1) by ring, a1 (f + 1), c1]
      · obtain ⟨-, c2, c3, -⟩ := InstructionsDecoder.Expr_iter_loop h st 0
        push_cast
        omega
      · intro _
        obtain ⟨-, c2, c3, -⟩ := InstructionsDecoder.Expr_iter_loop h st 0
        by_cases hn : 0 < n
        · exact a3 hn
        · have hn0 : n = 0 := by omega
          subst hn0
          rw [InstructionsDecoder.Expr.reach] at hr
          injection hr with hr
          injection hr with h1 h2
          omega

/-- The loop of `InstructionsDecoder.Expr` at an opcode outside the
recognised set. -/
theorem InstructionsDecoder.Expr_loop_unsupported (b : List UInt8) (st : ℤ) (f : Nat) (d p : ℤ)
    (op : UInt8) (hop : index b p = some op)
    (hu : (6 ≤ op.toNat ∧ op.toNat ≤ 10) ∨ (18 ≤ op.toNat ∧ op.toNat ≤ 25) ∨
        (28 ≤ op.toNat ∧ op.toNat ≤ 31) ∨ (37 ≤ op.toNat ∧ op.toNat ≤ 39) ∨
        (167 ≤ op.toNat ∧ op.toNat ≤ 251) ∨ 253 ≤ op.toNat) :
    InstructionsDecoder.Expr.loop b st (f + 1) d p
      = .fail p (.Wrap (.UnsupportedOpcodeError op []) "at pos 0x%x" [p]) := by
  have hi := index_some_lt hop
  have hs := slice_one hop
  have hstep : InstructionsDecoder.Expr.step b p op (p + 1) d
      = .next (p + 1) (some (.Wrap (.UnsupportedOpcodeError op []) "at pos 0x%x" [p])) d := by
    refine InstructionsDecoder.Expr_step_elim
      (fun s => s = .next (p + 1) (some (.Wrap (.UnsupportedOpcodeError op []) "at pos 0x%x" [p])) d)
      b p op (p + 1) d ?_ ?_ ?_ ?_ ?_ ?_ ?_ ?_ ?_
    · intro h; omega
    · intro h; omega
    · intro h; omega
    · intro h; omega
    · intro h; omega
    · intro h; omega
    · intro h; omega
    · intro h; omega
    · intro _; rfl
  rw [InstructionsDecoder.Expr.loop]
  simp only [hi.2, if_true, hop, hstep, hs]

/-- C13: whenever the walk of `InstructionsDecoder.Expr(b, st)` reaches an
opcode position `p` (after `n ≥ 0` instructions consumed without an error
and without closing the expression; `p = st` for `n = 0`) at which `b[p]` is
outside the recognised set `{0x00-0x05, 0x0b-0x11, 0x1a, 0x1b, 0x20-0x24,
0x28-0xa6, 0xfc}`, `Expr` fails at offset `p`, with no code, with the
`UnsupportedOpcodeError` for the opcode `b[p]`, annotated with the
position `p`. -/
theorem expr_unsupported_opcode (b : List UInt8) (st : ℤ) (n : Nat) (d p : ℤ) (op : UInt8)
    (hr : InstructionsDecoder.Expr.reach b st n = some (d, p)) (hop : index b p = some op)
    (hu : ¬ (op.toNat ≤ 0x05 ∨ (0x0b ≤ op.toNat ∧ op.toNat ≤ 0x11) ∨ op.toNat = 0x1a ∨
      op.toNat = 0x1b ∨ (0x20 ≤ op.toNat ∧ op.toNat ≤ 0x24) ∨
      (0x28 ≤ op.toNat ∧ op.toNat ≤ 0xa6) ∨ op.toNat = 0xfc)) :
    InstructionsDecoder.Expr b st
        = .fail p (.Wrap (.UnsupportedOpcodeError op []) "at pos 0x%x" [p]) ∧
      Err.cause (.Wrap (.UnsupportedOpcodeError op []) "at pos 0x%x" [p])
        = .UnsupportedOpcodeError op [] := by
  refine ⟨?_, rfl⟩
  obtain ⟨a1, a2, a3⟩ := InstructionsDecoder.Expr_reach_loop b st n d p hr
  have hi := index_some_lt hop
  have hn : n ≤ b.length := by
    by_cases h0 : 0 < n
    · have := a3 h0
      omega
    · omega
  unfold InstructionsDecoder.Expr
  obtain ⟨f, hf⟩ : ∃ f, b.length + 1 = n + (f + 1) := ⟨b.length - n, by omega⟩
  rw [hf, a1 (f + 1)]
  exact InstructionsDecoder.Expr_loop_unsupported b st f d p op hop (by omega)

/-- C13 (witness): in `block; i32.const 5; 0xd5; end` the walk reaches the
byte `0xd5` at position 3 after two instructions, at depth 1. -/
theorem expr_unsupported_opcode_witness :
    InstructionsDecoder.Expr.reach [0x02, 0x41, 0x05, 0xd5, 0x0b] 0 2 = some (1, 3) ∧
    InstructionsDecoder.Expr [0x02, 0x41, 0x05, 0xd5, 0x0b] 0
        = .fail 3 (.Wrap (.UnsupportedOpcodeError 0xd5 []) "at pos 0x%x" [3]) ∧
      Err.cause (.Wrap (.UnsupportedOpcodeError 0xd5 []) "at pos 0x%x" [3])
        = .UnsupportedOpcodeError 0xd5 [] :=
  ⟨by decide,
    expr_unsupported_opcode [0x02, 0x41, 0x05, 0xd5, 0x0b] 0 2 1 3 0xd5 (by decide) (by decide)
      (by decide)⟩


/-! ## Custom sections written by the encoders -/

theorem foldl_Section_append (ps : List (List UInt8 × List UInt8)) : ∀ (init : List UInt8),
    ps.foldl (fun acc p => LowEncoder.Section acc CustomSection (LowEncoder.Name [] p.1 ++ p.2)) init
      = init ++ ps.foldl
          (fun acc p => LowEncoder.Section acc CustomSection (LowEncoder.Name [] p.1 ++ p.2)) [] := by
  induction ps with
  | nil => intro init; simp
  | cons p ps ih =>
    intro init
    rw [List.foldl_cons, List.foldl_cons, ih, ih (LowEncoder.Section [] _ _),
      LowEncoder.Section_append init]
    simp [LowEncoder.Section_append]

theorem foldl_Section_length (ps : List (List UInt8 × List UInt8)) :
    ps.length ≤ (ps.foldl
      (fun acc p => LowEncoder.Section acc CustomSection (LowEncoder.Name [] p.1 ++ p.2)) []).length := by
  induction ps with
  | nil => simp
  | cons p ps ih =>
    rw [List.foldl_cons, foldl_Section_append, LowEncoder.Section_append]
    simp
    omega

/-- The decoder `Decoder.CustomSection` on a custom section written by the
encoders, placed after the bytes `pre` in a buffer shorter than `2^63`
bytes. -/
theorem Decoder.CustomSection_encode (pre rest name data : List UInt8) (m : Wasm.Module)
    (D B : List UInt8)
    (hD : D = LowEncoder.Int [] name.length ++ name ++ data)
    (hB : B = pre ++ ([Wasm.CustomSection] ++ LowEncoder.Int [] D.length ++ D) ++ rest)
    (hlen : B.length < 2 ^ 63) :
    index B pre.length = some Wasm.CustomSection ∧
    LowDecoder.Int B ((pre.length : ℤ) + 1)
      = .ok D.length ((pre ++ [Wasm.CustomSection] ++ LowEncoder.Int [] D.length).length : ℕ) ∧
    addInt ((pre ++ [Wasm.CustomSection] ++ LowEncoder.Int [] D.length).length : ℕ) D.length
      = ((pre ++ ([Wasm.CustomSection] ++ LowEncoder.Int [] D.length ++ D)).length : ℕ) ∧
    Decoder.CustomSection B pre.length m
      = .ok { m with Custom := m.Custom ++ [⟨name, data⟩] }
          ((pre ++ ([Wasm.CustomSection] ++ LowEncoder.Int [] D.length ++ D)).length : ℕ) := by
  have hBlen : B.length
      = pre.length + 1 + (LowEncoder.Int [] (D.length : ℤ)).length + D.length + rest.length := by
    rw [hB]; simp; omega
  have hDlen : D.length = (LowEncoder.Int [] (name.length : ℤ)).length + name.length + data.length := by
    rw [hD]; simp; omega
  have hidx : index B pre.length = some Wasm.CustomSection := by
    have := index_append_right pre (LowEncoder.Int [] D.length ++ D ++ rest) Wasm.CustomSection
    rw [hB]
    simpa using this
  have hsz : LowDecoder.Int B ((pre.length : ℤ) + 1)
      = .ok D.length ((pre ++ [Wasm.CustomSection] ++ LowEncoder.Int [] D.length).length : ℕ) := by
    have := LowDecoder.Int_encode (pre ++ [Wasm.CustomSection]) (D ++ rest) D.length (by omega)
    rw [hB]
    simpa using this
  have hadd : addInt ((pre ++ [Wasm.CustomSection] ++ LowEncoder.Int [] D.length).length : ℕ) D.length
      = ((pre ++ ([Wasm.CustomSection] ++ LowEncoder.Int [] D.length ++ D)).length : ℕ) := by
    rw [addInt_eq _ _ (by omega) (by omega) (by simp; omega)]
    simp
    omega
  have hname : LowDecoder.Name B ((pre ++ [Wasm.CustomSection] ++ LowEncoder.Int [] D.length).length : ℕ)
      = .ok name ((pre ++ [Wasm.CustomSection] ++ LowEncoder.Int [] D.length
          ++ (LowEncoder.Int [] name.length ++ name)).length : ℕ) := by
    have := LowDecoder.Name_encode (pre ++ [Wasm.CustomSection] ++ LowEncoder.Int [] D.length)
      (data ++ rest) name (by simp; omega)
    have e : pre ++ [Wasm.CustomSection] ++ LowEncoder.Int [] (D.length : ℤ)
        ++ (LowEncoder.Int [] (name.length : ℤ) ++ name) ++ (data ++ rest) = B := by
      rw [hB, hD]; simp
    rw [e] at this
    exact this
  have hdata : slice B ((pre ++ [Wasm.CustomSection] ++ LowEncoder.Int [] D.length
          ++ (LowEncoder.Int [] name.length ++ name)).length : ℕ)
        ((pre ++ ([Wasm.CustomSection] ++ LowEncoder.Int [] D.length ++ D)).length : ℕ)
      = some data := by
    have := slice_append (pre ++ [Wasm.CustomSection] ++ LowEncoder.Int [] D.length
          ++ (LowEncoder.Int [] name.length ++ name)) data rest
    have e : pre ++ [Wasm.CustomSection] ++ LowEncoder.Int [] (D.length : ℤ)
        ++ (LowEncoder.Int [] (name.length : ℤ) ++ name) ++ data ++ rest = B := by
      rw [hB, hD]; simp
    rw [e] at this
    rw [← this]
    congr 1
    rw [hD]
    simp
    omega
  refine ⟨hidx, hsz, hadd, ?_⟩
  have hbyte : LowDecoder.Byte B pre.length = .ok Wasm.CustomSection ((pre.length : ℤ) + 1) := by
    unfold LowDecoder.Byte
    simp only
    rw [if_neg (by omega), hidx]
  unfold Decoder.CustomSection Decoder.sectionHeader
  rw [hbyte]
  simp only [ne_eq, not_true_eq_false, if_false]
  rw [hsz]
  simp only
  rw [hname]
  simp only
  rw [hadd, hdata]

/-- The section loop of `Decoder.Module` over custom sections written by
the encoders, which fill the buffer from the position `pre.length` on. -/
theorem Decoder.Module_loop_custom (ps : List (List UInt8 × List UInt8)) :
    ∀ (pre : List UInt8) (m : Wasm.Module) (f : Nat) (B : List UInt8),
    B = pre ++ ps.foldl
      (fun acc p => LowEncoder.Section acc Wasm.CustomSection (LowEncoder.Name [] p.1 ++ p.2)) [] →
    B.length < 2 ^ 63 → ps.length ≤ f →
    Decoder.Module.loop B f pre.length m
      = .ok { m with
              Custom := m.Custom ++ ps.map (fun p => ⟨p.1, p.2⟩),
              Sections := m.Sections ++ ps.map (fun _ => Wasm.CustomSection) }
          (B.length : ℕ) := by
  induction ps with
  | nil =>
    intro pre m f B hB hlen hf
    simp only [List.foldl_nil, List.append_nil] at hB
    subst hB
    rw [Decoder.Module_loop_end]
    simp
  | cons p ps ih =>
    intro pre m f B hB hlen hf
    obtain ⟨f, rfl⟩ : ∃ g, f = g + 1 := ⟨f - 1, by simp at hf; omega⟩
    obtain ⟨D, hD⟩ : ∃ D, D = LowEncoder.Int [] p.1.length ++ p.1 ++ p.2 := ⟨_, rfl⟩
    obtain ⟨R, hR⟩ : ∃ R, R = ps.foldl
      (fun acc p => LowEncoder.Section acc Wasm.CustomSection (LowEncoder.Name [] p.1 ++ p.2)) [] :=
      ⟨_, rfl⟩
    have hB2 : B = pre ++ ([Wasm.CustomSection] ++ LowEncoder.Int [] D.length ++ D) ++ R := by
      rw [hB, List.foldl_cons, foldl_Section_append, ← hR, LowEncoder.Section_append,
        LowEncoder.Name_append, hD]
      simp
    obtain ⟨hidx, hsz, hadd, hC⟩ := Decoder.CustomSection_encode pre R p.1 p.2
      { m with Sections := m.Sections ++ [Wasm.CustomSection] } D B hD hB2 hlen
    have hBlen : B.length
        = (pre ++ ([Wasm.CustomSection] ++ LowEncoder.Int [] (D.length : ℤ) ++ D)).length
          + R.length := by
      rw [hB2]; simp; omega
    have hpos : pre.length
        < (pre ++ ([Wasm.CustomSection] ++ LowEncoder.Int [] (D.length : ℤ) ++ D)).length := by
      simp
    rw [Decoder.Module.loop, if_pos (by omega), hidx]
    simp only
    rw [hsz]
    simp only
    rw [hadd, if_neg (by omega), Decoder.Module.dispatch, if_pos rfl, hC]
    simp only
    rw [ih (pre ++ ([Wasm.CustomSection] ++ LowEncoder.Int [] (D.length : ℤ) ++ D)) _ f B
      (by rw [hB2, hR]) hlen (by simp at hf; omega)]
    simp [Wasm.CustomSection]

/-- C11: for every sequence of `(name, payload)` pairs, the module image
made of the magic, version 1 and one custom section per pair, each written
as `LowEncoder.Section(0, LowEncoder.Name(name) ++ payload)`, decodes into a
fresh module with exactly one `Custom` entry per section, in input order,
with `Name = name` and `Data = payload` (the bytes of the envelope after
the name); `Sections` holds one `0` per section.  The image is a Go slice,
so it is shorter than `2^63` bytes. -/
theorem module_custom_sections_roundtrip (ps : List (List UInt8 × List UInt8))
    (hlen : (ps.foldl
      (fun acc p => LowEncoder.Section acc CustomSection (LowEncoder.Name [] p.1 ++ p.2))
      (Magic ++ [1, 0, 0, 0])).length < 2 ^ 63) :
    Decoder.Module
      (ps.foldl
        (fun acc p => LowEncoder.Section acc CustomSection (LowEncoder.Name [] p.1 ++ p.2))
        (Magic ++ [1, 0, 0, 0]))
      Module.zero
    = .ok { Module.zero with
            Version := 1, Start := -1, DataCount := 0,
            Custom := ps.map (fun p => ⟨p.1, p.2⟩),
            Sections := ps.map (fun _ => CustomSection) } := by
  obtain ⟨R, hR⟩ : ∃ R, R = ps.foldl
    (fun acc p => LowEncoder.Section acc CustomSection (LowEncoder.Name [] p.1 ++ p.2)) [] :=
    ⟨_, rfl⟩
  have hn : ps.length ≤ R.length := by rw [hR]; exact foldl_Section_length ps
  rw [foldl_Section_append, ← hR] at hlen ⊢
  have hH := Decoder.Module_header 1 0 0 0 R Module.zero
  rw [hH, if_neg (by decide)]
  have hpre : ((8 : ℤ)) = ((Magic ++ [1, 0, 0, 0] : List UInt8).length : ℕ) := by simp [Magic]
  rw [hpre, Decoder.Module_loop_custom ps (Magic ++ [1, 0, 0, 0]) _ _ (Magic ++ [1, 0, 0, 0] ++ R)
    (by rw [hR]) hlen (by simp; omega)]
  simp [Decoder.Module.deferred, Module.zero]

/-- C11 (witness): two custom sections, `("a", 01 02)` and `("", )`. -/
theorem module_custom_sections_roundtrip_witness :
    ([([0x61], [0x01, 0x02]), ([], [])] : List (List UInt8 × List UInt8)).foldl
        (fun acc p => LowEncoder.Section acc CustomSection (LowEncoder.Name [] p.1 ++ p.2))
        (Magic ++ [1, 0, 0, 0])
      = [0x00, 0x61, 0x73, 0x6d, 1, 0, 0, 0, 0x00, 0x04, 0x01, 0x61, 0x01, 0x02, 0x00, 0x01, 0x00] ∧
    Decoder.Module
      (([([0x61], [0x01, 0x02]), ([], [])] : List (List UInt8 × List UInt8)).foldl
        (fun acc p => LowEncoder.Section acc CustomSection (LowEncoder.Name [] p.1 ++ p.2))
        (Magic ++ [1, 0, 0, 0]))
      Module.zero
    = .ok { Module.zero with
            Version := 1, Start := -1, DataCount := 0,
            Custom := ([([0x61], [0x01, 0x02]), ([], [])] : List (List UInt8 × List UInt8)).map
              (fun p => ⟨p.1, p.2⟩),
            Sections := ([([0x61], [0x01, 0x02]), ([], [])] : List (List UInt8 × List UInt8)).map
              (fun _ => CustomSection) } :=
  ⟨by decide, module_custom_sections_roundtrip [([0x61], [0x01, 0x02]), ([], [])] (by decide)⟩


/-! ## Inputs on which a slice bound is out of range -/

/-- C29 (failing input): on the nine bytes `ff ff ff ff ff ff ff ff 7f` the
declared length is `2^63 - 1` and the cursor after the prefix is 9, so the
sum `i + l` wraps around to `-2^63 + 8`; the test `i+l > len(b)` does not
fire and `b[i : i+l]` is evaluated with a negative upper bound, a panic
instead of `ErrUnexpectedEOF` at offset 0.  A declared length that does not
wrap (the single byte `7f`: 127 bytes declared, none present) is rejected as
claimed. -/
theorem name_length_wraparound_panics :
    LowDecoder.Int [0xff, 0xff, 0xff, 0xff, 0xff, 0xff, 0xff, 0xff, 0x7f] 0
      = .ok (2 ^ 63 - 1) 9 ∧
    addInt 9 (2 ^ 63 - 1) = -2 ^ 63 + 8 ∧
    LowDecoder.Name [0xff, 0xff, 0xff, 0xff, 0xff, 0xff, 0xff, 0xff, 0x7f] 0 = .panic ∧
    LowDecoder.Name [0x7f] 0 = .fail 0 .ErrUnexpectedEOF := by
  decide

/-- C30 (failing input): on `11 00` (a `CallIndir` with its type index, the
table-index byte missing) the cursor is 3 after the `i++` of the case, and
the slice `b[opst:i] = b[0:3]` built for the log call is out of range for a
buffer of two bytes: a panic instead of `ErrUnexpectedEOF`.  The same
happens on the single byte `11`; with the table-index byte present
(`11 00 00 0b`) the walker returns the four bytes. -/
theorem expr_callindir_truncated_panics :
    InstructionsDecoder.Expr [0x11, 0x00] 0 = .panic ∧
    InstructionsDecoder.Expr [0x11] 0 = .panic ∧
    InstructionsDecoder.Expr [0x11, 0x00, 0x00, 0x0b] 0 = .ok [0x11, 0x00, 0x00, 0x0b] 4 := by
  decide

/-! ## Limits -/

/-- The decoder `LowDecoder.Int` reads back what `LowEncoder.Int` wrote for a
non-negative `int`. -/
theorem LowDecoder.Int_encode_int (p r : List UInt8) (v : ℤ) (h0 : 0 ≤ v) (h1 : v < 2 ^ 63) :
    LowDecoder.Int (p ++ LowEncoder.Int [] v ++ r) p.length
      = .ok v ((p ++ LowEncoder.Int [] v).length : ℕ) := by
  have h := LowDecoder.Int_encode p r v.toNat (by omega)
  rw [Int.toNat_of_nonneg h0] at h
  exact h

/-- C21: for every `lo ≥ 0` and every `hi` that is `-1` or `≥ 0` (Go `int`s,
so below `2^63`), `LowDecoder.Limits` at offset 0 of
`LowEncoder.Limits(empty, lo, hi)` returns no error, the pair `(lo, hi)` and
the length of the encoding as the offset; the first byte of the encoding is
`0x00` exactly when `hi = -1` and `0x01` otherwise. -/
theorem limits_roundtrip (lo hi : ℤ) (h0 : 0 ≤ lo) (h1 : lo < 2 ^ 63)
    (h2 : hi = -1 ∨ (0 ≤ hi ∧ hi < 2 ^ 63)) :
    LowDecoder.Limits (LowEncoder.Limits [] lo hi) 0
        = .ok (lo, hi) ((LowEncoder.Limits [] lo hi).length : ℕ) ∧
      (index (LowEncoder.Limits [] lo hi) 0 = some 0x00 ↔ hi = -1) ∧
      (index (LowEncoder.Limits [] lo hi) 0 = some 0x01 ↔ hi ≠ -1) := by
  rcases h2 with h2 | ⟨h2, h3⟩
  · subst h2
    have he : LowEncoder.Limits [] lo (-1) = [LimitLo] ++ LowEncoder.Int [] lo := by
      unfold LowEncoder.Limits
      rw [if_pos (by norm_num), LowEncoder.Int_append]
      rfl
    have hx : index ([LimitLo] ++ LowEncoder.Int [] lo) 0 = some LimitLo := by
      simp [index]
    have hI := LowDecoder.Int_encode_int [LimitLo] [] lo h0 h1
    simp only [List.append_nil, List.length_singleton, Nat.cast_one] at hI
    rw [he]
    refine ⟨?_, ?_, ?_⟩
    · unfold LowDecoder.Limits LowDecoder.Byte
      simp only
      rw [if_neg (by simp), hx]
      simp only
      rw [if_neg (by decide), zero_add, hI]
      simp only
      rw [if_pos trivial]
    · rw [hx]
      exact ⟨fun _ => rfl, fun _ => rfl⟩
    · rw [hx]
      constructor
      · intro h; exact absurd h (by decide)
      · intro h; exact absurd rfl h
  · have he : LowEncoder.Limits [] lo hi
        = [LimitLoHi] ++ LowEncoder.Int [] lo ++ LowEncoder.Int [] hi := by
      unfold LowEncoder.Limits
      rw [if_neg (by omega), LowEncoder.Int_append, LowEncoder.Int_append ([] ++ [LimitLoHi])]
      rfl
    have hx : index ([LimitLoHi] ++ LowEncoder.Int [] lo ++ LowEncoder.Int [] hi) 0
        = some LimitLoHi := by
      simp [index]
    have hI := LowDecoder.Int_encode_int [LimitLoHi] (LowEncoder.Int [] hi) lo h0 h1
    simp only [List.length_singleton, Nat.cast_one] at hI
    have hJ := LowDecoder.Int_encode_int ([LimitLoHi] ++ LowEncoder.Int [] lo) [] hi h2 h3
    simp only [List.append_nil] at hJ
    rw [he]
    refine ⟨?_, ?_, ?_⟩
    · unfold LowDecoder.Limits LowDecoder.Byte
      simp only
      rw [if_neg (by simp; omega), hx]
      simp only
      rw [if_neg (by decide), zero_add, hI]
      simp only
      rw [if_neg (by decide), hJ]
    · rw [hx]
      constructor
      · intro h; exact absurd h (by decide)
      · intro h; omega
    · rw [hx]
      exact ⟨fun _ => by omega, fun _ => rfl⟩

/-- C21 (witness): the limits `{1, -1}` and `{1, 4}` of the test. -/
theorem limits_roundtrip_witness :
    LowEncoder.Limits [] 1 (-1) = [0x00, 0x01] ∧ LowEncoder.Limits [] 1 4 = [0x01, 0x01, 0x04] ∧
    LowDecoder.Limits (LowEncoder.Limits [] 1 (-1)) 0
        = .ok (1, -1) ((LowEncoder.Limits [] 1 (-1)).length : ℕ) ∧
    LowDecoder.Limits (LowEncoder.Limits [] 1 4) 0
        = .ok (1, 4) ((LowEncoder.Limits [] 1 4).length : ℕ) :=
  ⟨by decide, by decide,
    (limits_roundtrip 1 (-1) (by decide) (by decide) (Or.inl rfl)).1,
    (limits_roundtrip 1 4 (by decide) (by decide) (Or.inr ⟨by decide, by decide⟩)).1⟩


/-! ## Function bodies -/

/-- The loop of `InstructionsDecoder.Func` reads the groups that
`localsGroups` reads and appends, for each of them, `cnt` copies of its type
byte. -/
theorem InstructionsDecoder.Func_loop_groups (b : List UInt8) (k : Nat) :
    ∀ (i : ℤ) (acc locals : List UInt8) (j : ℤ),
    InstructionsDecoder.Func.loop b k i acc = .ok locals j →
    ∃ gs, localsGroups b k i = some (gs, j) ∧ gs.length = k ∧
      locals = acc ++ (gs.map (fun g => List.replicate g.1.toNat g.2)).flatten ∧
      ∀ g ∈ gs, 0 ≤ g.1 := by
  induction k with
  | zero =>
    intro i acc locals j h
    rw [InstructionsDecoder.Func.loop] at h
    injection h with h1 h2
    subst h1 h2
    exact ⟨[], rfl, rfl, by simp, by simp⟩
  | succ k ih =>
    intro i acc locals j h
    rw [InstructionsDecoder.Func.loop] at h
    split at h
    · cases h
    · cases h
    · rename_i cnt i1 hc
      split at h
      · cases h
      · cases h
      · rename_i tp i2 ht
        obtain ⟨gs, g1, g2, g3, g4⟩ := ih _ _ _ _ h
        have hcnt := LowDecoder.Int_ok hc
        refine ⟨(cnt, tp) :: gs, ?_, by simp [g2], ?_, ?_⟩
        · rw [localsGroups, hc]
          simp only
          rw [ht]
          simp only
          rw [g1]
          rfl
        · rw [g3]
          simp
        · intro g hg
          rcases List.mem_cons.mp hg with rfl | hg
          · exact hcnt.2.2.2.1
          · exact g4 g hg

theorem sum_replicate_lengths (gs : List (ℤ × UInt8)) (h : ∀ g ∈ gs, 0 ≤ g.1) :
    (((gs.map (fun g => List.replicate g.1.toNat g.2)).flatten.length : ℕ) : ℤ)
      = (gs.map (fun g => g.1)).sum := by
  induction gs with
  | nil => simp
  | cons g gs ih =>
    have h1 := h g (List.mem_cons_self _ _)
    have h2 := ih (fun x hx => h x (List.mem_cons_of_mem _ hx))
    simp only [List.map_cons, List.flatten_cons, List.length_append, List.length_replicate,
      List.sum_cons, Nat.cast_add]
    rw [h2, Int.toNat_of_nonneg h1]

/-- C22: whenever `InstructionsDecoder.Func` succeeds on a code entry `b`,
`b` starts with an unsigned LEB count `l` followed by `l` groups
`(cnt, tp)`, the returned `Locals` is the concatenation, in group order, of
`cnt` copies of `tp` (its length is the sum of the counts), and the returned
`Expr` is the sub-slice of `b` from the end of the last group to the end of
`b`. -/
theorem func_locals_expansion (b : List UInt8) (f : FuncCode)
    (h : InstructionsDecoder.Func b = .ok f) :
    ∃ (l i : ℤ) (gs : List (ℤ × UInt8)) (j : ℤ),
      LowDecoder.Int b 0 = .ok l i ∧ 0 ≤ l ∧ localsGroups b l.toNat i = some (gs, j) ∧
      (gs.length : ℤ) = l ∧
      f.Locals = (gs.map (fun g => List.replicate g.1.toNat g.2)).flatten ∧
      (f.Locals.length : ℤ) = (gs.map (fun g => g.1)).sum ∧
      slice b j b.length = some f.Expr := by
  unfold InstructionsDecoder.Func at h
  split at h
  · cases h
  · cases h
  · rename_i l i hl
    have hlb := LowDecoder.Int_ok hl
    split at h
    · cases h
    · cases h
    · rename_i locals j hg
      obtain ⟨gs, g1, g2, g3, g4⟩ := InstructionsDecoder.Func_loop_groups b _ _ _ _ _ hg
      split at h
      · cases h
      · cases h
      · rename_i code k he
        have hs := InstructionsDecoder.Expr_ok he
        split at h
        · cases h
        · rename_i hk
          injection h with h
          subst h
          have hk2 : k = (b.length : ℤ) := by
            by_contra hne
            exact hk hne
          refine ⟨l, i, gs, j, hl, hlb.2.2.2.1, g1, by omega, ?_, ?_, ?_⟩
          · simpa using g3
          · rw [g3]
            simpa using sum_replicate_lengths gs g4
          · rw [← hk2]
            exact hs.2.2

/-- C22 (witness): two groups, `2 × i32` and `1 × i64`, then `nop; end`. -/
theorem func_locals_expansion_witness :
    InstructionsDecoder.Func [0x02, 0x02, 0x7f, 0x01, 0x7e, 0x01, 0x0b]
      = .ok ⟨[0x7f, 0x7f, 0x7e], [0x01, 0x0b]⟩ ∧
    localsGroups [0x02, 0x02, 0x7f, 0x01, 0x7e, 0x01, 0x0b] 2 1
      = some ([(2, 0x7f), (1, 0x7e)], 5) ∧
    ∃ (l i : ℤ) (gs : List (ℤ × UInt8)) (j : ℤ),
      LowDecoder.Int [0x02, 0x02, 0x7f, 0x01, 0x7e, 0x01, 0x0b] 0 = .ok l i ∧ 0 ≤ l ∧
      localsGroups [0x02, 0x02, 0x7f, 0x01, 0x7e, 0x01, 0x0b] l.toNat i = some (gs, j) ∧
      (gs.length : ℤ) = l ∧
      (⟨[0x7f, 0x7f, 0x7e], [0x01, 0x0b]⟩ : FuncCode).Locals
        = (gs.map (fun g => List.replicate g.1.toNat g.2)).flatten ∧
      (((⟨[0x7f, 0x7f, 0x7e], [0x01, 0x0b]⟩ : FuncCode).Locals.length : ℕ) : ℤ)
        = (gs.map (fun g => g.1)).sum ∧
      slice [0x02, 0x02, 0x7f, 0x01, 0x7e, 0x01, 0x0b] j
          (([0x02, 0x02, 0x7f, 0x01, 0x7e, 0x01, 0x0b] : List UInt8).length : ℕ)
        = some (⟨[0x7f, 0x7f, 0x7e], [0x01, 0x0b]⟩ : FuncCode).Expr :=
  ⟨by decide, by decide,
    func_locals_expansion [0x02, 0x02, 0x7f, 0x01, 0x7e, 0x01, 0x0b]
      ⟨[0x7f, 0x7f, 0x7e], [0x01, 0x0b]⟩ (by decide)⟩

/-- C23: for every code entry `b` whose group count, locals groups and
expression decode without error, with `k` the cursor of the walker after
the expression: `InstructionsDecoder.Func` succeeds if and only if
`k = len(b)`, and then returns the locals and the expression; otherwise
bytes remain after the closing `End` (`k < len(b)`) and it fails with
`ErrSizeMismatch`. -/
theorem func_framing (b : List UInt8) (l i : ℤ) (locals : List UInt8) (j : ℤ)
    (code : List UInt8) (k : ℤ)
    (hl : LowDecoder.Int b 0 = .ok l i)
    (hg : InstructionsDecoder.Func.loop b l.toNat i [] = .ok locals j)
    (he : InstructionsDecoder.Expr b j = .ok code k) :
    ((∃ f, InstructionsDecoder.Func b = .ok f) ↔ k = b.length) ∧
      (k = b.length → InstructionsDecoder.Func b = .ok ⟨locals, code⟩) ∧
      (k ≠ b.length → k < b.length ∧ InstructionsDecoder.Func b = .fail .ErrSizeMismatch) := by
  have hs := InstructionsDecoder.Expr_ok he
  have hF : InstructionsDecoder.Func b
      = if k ≠ b.length then .fail .ErrSizeMismatch else .ok ⟨locals, code⟩ := by
    unfold InstructionsDecoder.Func
    rw [hl]
    simp only
    rw [hg]
    simp only
    rw [he]
  refine ⟨?_, ?_, ?_⟩
  · constructor
    · rintro ⟨f, hf⟩
      by_contra hne
      rw [hF, if_pos hne] at hf
      cases hf
    · intro hk
      exact ⟨_, by rw [hF, if_neg (by simpa using hk)]⟩
  · intro hk
    rw [hF, if_neg (by simpa using hk)]
  · intro hk
    refine ⟨by omega, ?_⟩
    rw [hF, if_pos hk]

/-- C23 (witness): `00 0b 00`, where one byte remains after the `End`, and
`00 0b`. -/
theorem func_framing_witness :
    InstructionsDecoder.Func [0x00, 0x0b, 0x00] = .fail .ErrSizeMismatch ∧
    InstructionsDecoder.Func [0x00, 0x0b] = .ok ⟨[], [0x0b]⟩ :=
  ⟨((func_framing [0x00, 0x0b, 0x00] 0 1 [] 1 [0x0b] 2 (by decide) (by decide) (by decide)).2.2
      (by decide)).2,
    (func_framing [0x00, 0x0b] 0 1 [] 1 [0x0b] 2 (by decide) (by decide) (by decide)).2.1
      (by decide)⟩


/-! ## The exact outcome of the unsigned LEB128 decoder -/

theorem index_of_lt {b : List UInt8} {i : ℤ} (h0 : 0 ≤ i) (h1 : i < b.length) :
    ∃ x, index b i = some x := by
  unfold index
  rw [if_pos h0]
  have : i.toNat < b.length := by omega
  exact ⟨b[i.toNat], List.getElem?_eq_getElem this⟩

/-- The loop of `LowDecoder.Uint64` entered after `m` groups, when the bytes
up to position `k` have the top bit set and the byte at `k ≤ 8` has it
clear. -/
theorem LowDecoder.Uint64_loop_framed (b : List UInt8) (st : ℤ) (k : Nat) (hk : k ≤ 8) :
    ∀ (gap m f : Nat), m + gap = k → gap < f →
    (∀ j : Nat, m ≤ j → j < k → ∃ x, index b (st + j) = some x ∧ 128 ≤ x.toNat) →
    (∃ x, index b (st + k) = some x ∧ x.toNat < 128) →
    LowDecoder.Uint64.loop b st f (groupSum b st m) (7 * m) (st + m)
      = .ok (groupSum b st (k + 1)) (st + k + 1) := by
  intro gap
  induction gap with
  | zero =>
    intro m f hm hf _ hx
    obtain ⟨f, rfl⟩ : ∃ g, f = g + 1 := ⟨f - 1, by omega⟩
    have hmk : m = k := by omega
    subst hmk
    obtain ⟨x, hx1, hx2⟩ := hx
    rw [LowDecoder.Uint64_loop_step _ _ _ _ _ _ _ hx1, groupSum_or b st m x hk hx1, if_pos hx2]
  | succ gap ih =>
    intro m f hm hf hb hx
    obtain ⟨f, rfl⟩ : ∃ g, f = g + 1 := ⟨f - 1, by omega⟩
    obtain ⟨y, hy1, hy2⟩ := hb m (le_refl _) (by omega)
    rw [LowDecoder.Uint64_loop_step _ _ _ _ _ _ _ hy1, groupSum_or b st m y (by omega) hy1,
      if_neg (by omega), if_neg (by omega)]
    have e1 : 7 * m + 7 = 7 * (m + 1) := by ring
    have e2 : st + (m : ℤ) + 1 = st + ((m + 1 : Nat) : ℤ) := by push_cast; ring
    rw [e1, e2]
    exact ih (m + 1) f (by omega) (by omega) (fun j h1 h2 => hb j (by omega) h2) hx

/-- The loop of `LowDecoder.Uint64` when fewer than nine bytes remain at
`st` and all of them have the top bit set. -/
theorem LowDecoder.Uint64_loop_eof (b : List UInt8) (st : ℤ)
    (hlen : (b.length : ℤ) < st + 9) :
    ∀ (gap m f acc : Nat), (b.length : ℤ) - (st + m) ≤ gap → gap < f →
    (∀ j : Nat, m ≤ j → st + j < b.length → ∃ x, index b (st + j) = some x ∧ 128 ≤ x.toNat) →
    LowDecoder.Uint64.loop b st f acc (7 * m) (st + m) = .fail st .ErrUnexpectedEOF := by
  intro gap
  induction gap with
  | zero =>
    intro m f acc hg hf _
    obtain ⟨f, rfl⟩ : ∃ g, f = g + 1 := ⟨f - 1, by omega⟩
    rw [LowDecoder.Uint64.loop, if_neg (by push_cast at hg; omega)]
  | succ gap ih =>
    intro m f acc hg hf hb
    obtain ⟨f, rfl⟩ : ∃ g, f = g + 1 := ⟨f - 1, by omega⟩
    by_cases hlt : st + m < b.length
    · obtain ⟨y, hy1, hy2⟩ := hb m (le_refl _) hlt
      rw [LowDecoder.Uint64_loop_step _ _ _ _ _ _ _ hy1, if_neg (by omega), if_neg (by omega)]
      have e1 : 7 * m + 7 = 7 * (m + 1) := by ring
      have e2 : st + (m : ℤ) + 1 = st + ((m + 1 : Nat) : ℤ) := by push_cast; ring
      rw [e1, e2]
      exact ih (m + 1) f _ (by push_cast at hg ⊢; omega) (by omega)
        (fun j h1 h2 => hb j (by omega) h2)
    · rw [LowDecoder.Uint64.loop, if_neg hlt]

/-- The three shapes of the bytes at `st`: a byte with the top bit clear
among the first nine, after bytes with the top bit set; nine bytes with the
top bit set; fewer than nine bytes, all with the top bit set. -/
theorem leb_shapes (b : List UInt8) (st : ℤ) (h0 : 0 ≤ st) : ∀ n : Nat,
    (∃ k : Nat, k < n ∧
      (∀ j : Nat, j < k → ∃ x, index b (st + j) = some x ∧ 128 ≤ x.toNat) ∧
      ∃ x, index b (st + k) = some x ∧ x.toNat < 128) ∨
    (∀ j : Nat, j < n → ∃ x, index b (st + j) = some x ∧ 128 ≤ x.toNat) ∨
    ((b.length : ℤ) < st + n ∧
      ∀ j : Nat, st + j < b.length → ∃ x, index b (st + j) = some x ∧ 128 ≤ x.toNat) := by
  intro n
  induction n with
  | zero => exact Or.inr (Or.inl (fun j hj => by omega))
  | succ n ih =>
    rcases ih with ⟨k, hk, h⟩ | hall | ⟨hl, h⟩
    · exact Or.inl ⟨k, by omega, h⟩
    · by_cases hlt : st + n < b.length
      · obtain ⟨x, hx⟩ := index_of_lt (by omega) hlt
        by_cases hx2 : x.toNat < 128
        · exact Or.inl ⟨n, by omega, hall, x, hx, hx2⟩
        · refine Or.inr (Or.inl ?_)
          intro j hj
          by_cases hjn : j = n
          · subst hjn; exact ⟨x, hx, by omega⟩
          · exact hall j (by omega)
      · refine Or.inr (Or.inr ⟨by push_cast; omega, ?_⟩)
        intro j hj
        exact hall j (by omega)
    · exact Or.inr (Or.inr ⟨by push_cast; omega, h⟩)

/-- The result of `LowDecoder.Uint64` in each of the three shapes. -/
theorem LowDecoder.Uint64_cases (b : List UInt8) (st : ℤ) (h0 : 0 ≤ st) :
    (∃ k : Nat, k < 9 ∧
      (∀ j : Nat, j < k → ∃ x, index b (st + j) = some x ∧ 128 ≤ x.toNat) ∧
      (∃ x, index b (st + k) = some x ∧ x.toNat < 128) ∧
      LowDecoder.Uint64 b st = .ok (groupSum b st (k + 1)) (st + k + 1)) ∨
    ((∀ j : Nat, j < 9 → ∃ x, index b (st + j) = some x ∧ 128 ≤ x.toNat) ∧
      LowDecoder.Uint64 b st = .fail st .ErrOverflow) ∨
    ((b.length : ℤ) < st + 9 ∧
      (∀ j : Nat, st + j < b.length → ∃ x, index b (st + j) = some x ∧ 128 ≤ x.toNat) ∧
      LowDecoder.Uint64 b st = .fail st .ErrUnexpectedEOF) := by
  rcases leb_shapes b st h0 9 with ⟨k, hk, hb, hx⟩ | hall | ⟨hl, h⟩
  · refine Or.inl ⟨k, hk, hb, hx, ?_⟩
    have hi : 0 ≤ st + k ∧ st + k < b.length := by
      obtain ⟨x, hx1, -⟩ := hx
      exact index_some_lt hx1
    unfold LowDecoder.Uint64
    have h := LowDecoder.Uint64_loop_framed b st k (by omega) k 0 (b.length + 1) (by omega)
      (by omega) (fun j _ hj => hb j hj) hx
    simpa [groupSum] using h
  · refine Or.inr (Or.inl ⟨hall, ?_⟩)
    obtain ⟨x, hx1, -⟩ := hall 8 (by omega)
    have hi := index_some_lt hx1
    unfold LowDecoder.Uint64
    have h := LowDecoder.Uint64_loop_overflow b st 9 0 (b.length + 1) 0 (by omega) (by omega)
      (by push_cast at hi; omega)
      (fun j hj => by
        obtain ⟨y, hy1, hy2⟩ := hall j hj
        rw [hy1]
        exact hy2)
    simpa using h
  · refine Or.inr (Or.inr ⟨by exact_mod_cast hl, h, ?_⟩)
    unfold LowDecoder.Uint64
    by_cases hst : st ≤ b.length
    · have h2 := LowDecoder.Uint64_loop_eof b st (by exact_mod_cast hl)
        (b.length - st.toNat) 0 (b.length + 1) 0 (by push_cast; omega) (by omega)
        (fun j _ hj => h j hj)
      simpa using h2
    · rw [LowDecoder.Uint64.loop, if_neg (by omega)]

/-- C28: for every buffer `b` and offset `st ≥ 0`, with `r` the bytes of `b`
from `st` on: `LowDecoder.Uint64(b, st)` succeeds if and only if one of the
first nine bytes of `r` has its top bit clear, and then it has consumed up
to and including the first such byte and the value is below `2^63`; it
fails with `ErrOverflow` if and only if `r` has at least nine bytes and the
first nine all have the top bit set; it fails with `ErrUnexpectedEOF` if and
only if `r` has fewer than nine bytes, all with the top bit set; a failure
returns the offset `st`, and there is no other outcome. -/
theorem uint64_decoder_outcome (b : List UInt8) (st : ℤ) (h0 : 0 ≤ st) :
    ((∃ v i, LowDecoder.Uint64 b st = .ok v i) ↔
      ∃ k : Nat, k < 9 ∧ ∃ x, index b (st + k) = some x ∧ x.toNat < 128) ∧
    (∀ v i, LowDecoder.Uint64 b st = .ok v i →
      ∃ k : Nat, k < 9 ∧ i = st + k + 1 ∧ (∃ x, index b (st + k) = some x ∧ x.toNat < 128) ∧
        (∀ j : Nat, j < k → ∃ x, index b (st + j) = some x ∧ 128 ≤ x.toNat) ∧ v < 2 ^ 63) ∧
    ((∃ i, LowDecoder.Uint64 b st = .fail i .ErrOverflow) ↔
      st + 9 ≤ b.length ∧ ∀ j : Nat, j < 9 → ∀ x, index b (st + j) = some x → 128 ≤ x.toNat) ∧
    ((∃ i, LowDecoder.Uint64 b st = .fail i .ErrUnexpectedEOF) ↔
      (b.length : ℤ) < st + 9 ∧ ∀ (j : Nat) (x : UInt8), index b (st + j) = some x → 128 ≤ x.toNat) ∧
    (∀ i e, LowDecoder.Uint64 b st = .fail i e → i = st) ∧
    LowDecoder.Uint64 b st ≠ .panic := by
  rcases LowDecoder.Uint64_cases b st h0 with ⟨k, hk, hb, hx, hr⟩ | ⟨hall, hr⟩ | ⟨hl, hall, hr⟩
  · refine ⟨?_, ?_, ?_, ?_, ?_, ?_⟩
    · exact ⟨fun _ => ⟨k, hk, hx⟩, fun _ => ⟨_, _, hr⟩⟩
    · intro v i h
      have hv := (LowDecoder.Uint64_ok h).2.2.2
      rw [hr] at h
      injection h with h1 h2
      exact ⟨k, hk, h2.symm, hx, hb, hv⟩
    · constructor
      · rintro ⟨i, h⟩
        rw [hr] at h
        cases h
      · rintro ⟨_, h⟩
        obtain ⟨x, hx1, hx2⟩ := hx
        have := h k hk x hx1
        omega
    · constructor
      · rintro ⟨i, h⟩
        rw [hr] at h
        cases h
      · rintro ⟨_, h⟩
        obtain ⟨x, hx1, hx2⟩ := hx
        have := h k x hx1
        omega
    · intro i e h
      rw [hr] at h
      cases h
    · rw [hr]
      exact fun h => by cases h
  · have h8 : st + 9 ≤ b.length := by
      obtain ⟨x, hx1, -⟩ := hall 8 (by omega)
      have := index_some_lt hx1
      push_cast at this
      omega
    refine ⟨?_, ?_, ?_, ?_, ?_, ?_⟩
    · constructor
      · rintro ⟨v, i, h⟩
        rw [hr] at h
        cases h
      · rintro ⟨k, hk, x, hx1, hx2⟩
        obtain ⟨y, hy1, hy2⟩ := hall k hk
        rw [hx1] at hy1
        injection hy1 with hy1
        subst hy1
        omega
    · intro v i h
      rw [hr] at h
      cases h
    · refine ⟨fun _ => ⟨h8, ?_⟩, fun _ => ⟨_, hr⟩⟩
      intro j hj x hx1
      obtain ⟨y, hy1, hy2⟩ := hall j hj
      rw [hx1] at hy1
      injection hy1 with hy1
      subst hy1
      exact hy2
    · constructor
      · rintro ⟨i, h⟩
        rw [hr] at h
        injection h with h1 h2
        cases h2
      · rintro ⟨hl, _⟩
        omega
    · intro i e h
      rw [hr] at h
      injection h with h1 h2
      exact h1.symm
    · rw [hr]
      exact fun h => by cases h
  · refine ⟨?_, ?_, ?_, ?_, ?_, ?_⟩
    · constructor
      · rintro ⟨v, i, h⟩
        rw [hr] at h
        cases h
      · rintro ⟨k, hk, x, hx1, hx2⟩
        have hi := index_some_lt hx1
        obtain ⟨y, hy1, hy2⟩ := hall k hi.2
        rw [hx1] at hy1
        injection hy1 with hy1
        subst hy1
        omega
    · intro v i h
      rw [hr] at h
      cases h
    · constructor
      · rintro ⟨i, h⟩
        rw [hr] at h
        injection h with h1 h2
        cases h2
      · rintro ⟨h9, _⟩
        omega
    · refine ⟨fun _ => ⟨hl, ?_⟩, fun _ => ⟨_, hr⟩⟩
      intro j x hx1
      have hi := index_some_lt hx1
      obtain ⟨y, hy1, hy2⟩ := hall j hi.2
      rw [hx1] at hy1
      injection hy1 with hy1
      subst hy1
      exact hy2
    · intro i e h
      rw [hr] at h
      injection h with h1 h2
      exact h1.symm
    · rw [hr]
      exact fun h => by cases h

/-- C28 (witness): `80 01` decodes to 128; nine bytes `80` overflow; two
bytes `80 80` end too early (from offset 1 of a buffer). -/
theorem uint64_decoder_outcome_witness :
    LowDecoder.Uint64 [0x80, 0x01] 0 = .ok 128 2 ∧
    LowDecoder.Uint64 [0x80, 0x80, 0x80, 0x80, 0x80, 0x80, 0x80, 0x80, 0x80, 0x00] 0
      = .fail 0 .ErrOverflow ∧
    LowDecoder.Uint64 [0x00, 0x80, 0x80] 1 = .fail 1 .ErrUnexpectedEOF ∧
    ((∃ v i, LowDecoder.Uint64 [0x80, 0x01] 0 = .ok v i) ↔
      ∃ k : Nat, k < 9 ∧ ∃ x, index [0x80, 0x01] ((0 : ℤ) + k) = some x ∧ x.toNat < 128) :=
  ⟨by decide, by decide, by decide, (uint64_decoder_outcome [0x80, 0x01] 0 (by decide)).1⟩


/-! ## Opcodes with one signed LEB128 immediate -/

theorem index_append_mid (p t r : List UInt8) (k : Nat) (hk : k < t.length) :
    index (p ++ t ++ r) ((p.length : ℤ) + k) = t[k]? := by
  unfold index
  rw [if_pos (by omega)]
  have e : ((p.length : ℤ) + k).toNat = p.length + k := by omega
  rw [e, List.append_assoc, List.getElem?_append_right (by omega)]
  simp only [Nat.add_sub_cancel_left]
  rw [List.getElem?_append_left hk]

/-- The decoder `LowDecoder.Int64` consumes exactly the bytes that
`LowEncoder.Int64` wrote for a value of `[-2^62, 2^62)`, which are at most
nine. -/
theorem LowDecoder.Int64_encode_offset (p r : List UInt8) (v : ℤ)
    (h1 : -2 ^ 62 ≤ v) (h2 : v < 2 ^ 62) :
    ∃ w, LowDecoder.Int64 (p ++ LowEncoder.Int64 [] v ++ r) p.length
      = .ok w ((p ++ LowEncoder.Int64 [] v).length : ℕ) := by
  have e : LowEncoder.Int64 [] v = LowEncoder.Int64.loop 10 [] v := by
    unfold LowEncoder.Int64
    rw [toInt64_toUint64 v (by norm_num at h1 ⊢; omega) (by norm_num at h2 ⊢; omega)]
  obtain ⟨j, hl, hj, hr1, hr2, hmin, hb⟩ :=
    LowEncoder.Int64_loop_shape 9 v (by norm_num at h1 ⊢; omega) (by norm_num at h2 ⊢; omega)
  rw [← e] at hl hb
  have hj8 : j ≤ 8 := by
    by_contra hgt
    exact hmin 8 (by omega) ⟨by norm_num at h1 ⊢; omega, by norm_num at h2 ⊢; omega⟩
  have hfr : ∀ k : Nat, k ≤ j → ∃ x,
      index (p ++ LowEncoder.Int64 [] v ++ r) ((p.length : ℤ) + k) = some x ∧
        (128 ≤ x.toNat ↔ k < j) := by
    intro k hk
    obtain ⟨x, hx1, hx2⟩ := hb k hk
    refine ⟨x, ?_, ?_⟩
    · rw [index_append_mid p _ r k (by omega)]
      exact hx1
    · split at hx2 <;> omega
  have hU := LowDecoder.Uint64_loop_framed (p ++ LowEncoder.Int64 [] v ++ r) p.length j hj8 j 0
    ((p ++ LowEncoder.Int64 [] v ++ r).length + 1) (by omega)
    (by simp; omega)
    (fun k _ hk => by
      obtain ⟨x, hx1, hx2⟩ := hfr k (by omega)
      exact ⟨x, hx1, hx2.mpr hk⟩)
    (by
      obtain ⟨x, hx1, hx2⟩ := hfr j (le_refl _)
      exact ⟨x, hx1, by omega⟩)
  have hU2 : LowDecoder.Uint64.loop (p ++ LowEncoder.Int64 [] v ++ r) p.length
      ((p ++ LowEncoder.Int64 [] v ++ r).length + 1) 0 0 p.length
      = .ok (groupSum (p ++ LowEncoder.Int64 [] v ++ r) p.length (j + 1)) (p.length + j + 1) := by
    simpa [groupSum] using hU
  obtain ⟨a1, -, -⟩ := LowDecoder.Int64_loop_of_Uint64 (p ++ LowEncoder.Int64 [] v ++ r) p.length
    ((p ++ LowEncoder.Int64 [] v ++ r).length + 1) 0 0 p.length
  have hI := a1 _ _ hU2
  have hoff : (p.length : ℤ) + j + 1 = ((p ++ LowEncoder.Int64 [] v).length : ℕ) := by
    rw [List.length_append, hl]
    push_cast
    ring
  unfold LowDecoder.Int64
  rw [hI, hoff]
  exact ⟨_, rfl⟩

theorem InstructionsDecoder.Expr_step_int64 (b : List UInt8) (opst : ℤ) (op : UInt8) (i d : ℤ)
    (hop : op.toNat = 12 ∨ op.toNat = 13 ∨ op.toNat = 16 ∨ (32 ≤ op.toNat ∧ op.toNat ≤ 36) ∨
      (65 ≤ op.toNat ∧ op.toNat ≤ 68)) :
    InstructionsDecoder.Expr.step b opst op i d
      = InstructionsDecoder.Step.ofInt64 (LowDecoder.Int64 b i) d := by
  refine InstructionsDecoder.Expr_step_elim
    (fun s => s = InstructionsDecoder.Step.ofInt64 (LowDecoder.Int64 b i) d)
    b opst op i d ?_ ?_ ?_ ?_ ?_ ?_ ?_ ?_ ?_
  · intro h; omega
  · intro h; omega
  · intro h; omega
  · intro _; rfl
  · intro h; omega
  · intro h; omega
  · intro h; omega
  · intro h; omega
  · intro h; omega

/-- C27: for every opcode `op` among `Br`, `BrIf`, `Call`,
`LocalGet..GlobalSet` and `I32Const..F64Const`, and every `v` with
`-2^62 ≤ v < 2^62`, `InstructionsDecoder.Expr` at offset 0 of
`[op] ++ LowEncoder.Int64(empty, v) ++ [0x0b]` succeeds and returns the whole
buffer, with its length as the offset. -/
theorem expr_skips_signed_immediate (op : UInt8) (v : ℤ)
    (hop : op.toNat = 0x0c ∨ op.toNat = 0x0d ∨ op.toNat = 0x10 ∨
      (0x20 ≤ op.toNat ∧ op.toNat ≤ 0x24) ∨ (0x41 ≤ op.toNat ∧ op.toNat ≤ 0x44))
    (h1 : -2 ^ 62 ≤ v) (h2 : v < 2 ^ 62) :
    InstructionsDecoder.Expr ([op] ++ LowEncoder.Int64 [] v ++ [0x0b]) 0
      = .ok ([op] ++ LowEncoder.Int64 [] v ++ [0x0b])
          (([op] ++ LowEncoder.Int64 [] v ++ [0x0b]).length : ℕ) := by
  obtain ⟨B, hB⟩ : ∃ B, B = [op] ++ LowEncoder.Int64 [] v ++ [0x0b] := ⟨_, rfl⟩
  obtain ⟨w, hw⟩ := LowDecoder.Int64_encode_offset [op] [0x0b] v h1 h2
  rw [← hB] at hw ⊢
  have hlen : B.length = ([op] ++ LowEncoder.Int64 [] v).length + 1 := by
    rw [hB]; simp
  have hpos : 1 ≤ ([op] ++ LowEncoder.Int64 [] v).length := by simp
  have hx0 : index B 0 = some op := by
    rw [hB]; simp [index]
  have hxe : index B (([op] ++ LowEncoder.Int64 [] v).length : ℕ) = some End := by
    have := index_append_right ([op] ++ LowEncoder.Int64 [] v) [] (0x0b : UInt8)
    rw [hB]
    exact this
  have hstep : InstructionsDecoder.Expr.step B 0 op (0 + 1) 0
      = .next (([op] ++ LowEncoder.Int64 [] v).length : ℕ) none 0 := by
    rw [InstructionsDecoder.Expr_step_int64 B 0 op (0 + 1) 0 hop]
    have e : ((0 : ℤ) + 1) = (([op] : List UInt8).length : ℕ) := by simp
    rw [e, hw]
    rfl
  obtain ⟨c, hc⟩ : ∃ c, slice B 0 (([op] ++ LowEncoder.Int64 [] v).length : ℕ) = some c := by
    unfold slice
    rw [if_pos ⟨le_refl _, by omega, by omega⟩]
    exact ⟨_, rfl⟩
  have hone := slice_one hxe
  have hfull : slice B 0 ((([op] ++ LowEncoder.Int64 [] v).length : ℕ) + 1) = some B := by
    have := slice_full B
    rw [hlen] at this
    push_cast at this ⊢
    exact this
  unfold InstructionsDecoder.Expr
  rw [InstructionsDecoder.Expr.loop]
  simp only [hx0, hstep, hc]
  rw [if_pos (by omega), if_neg (by norm_num), hlen, InstructionsDecoder.Expr.loop]
  simp only [hxe, InstructionsDecoder.Expr_step_End, hone, hfull]
  rw [if_pos (by omega), if_pos (by norm_num)]
  congr 1

/-- C27 (witness): `i32.const -123456; end`. -/
theorem expr_skips_signed_immediate_witness :
    ([0x41] ++ LowEncoder.Int64 [] (-123456) ++ [0x0b] : List UInt8)
      = [0x41, 0xc0, 0xbb, 0x78, 0x0b] ∧
    InstructionsDecoder.Expr ([0x41] ++ LowEncoder.Int64 [] (-123456) ++ [0x0b]) 0
      = .ok ([0x41] ++ LowEncoder.Int64 [] (-123456) ++ [0x0b])
          (([0x41] ++ LowEncoder.Int64 [] (-123456) ++ [0x0b]).length : ℕ) :=
  ⟨by decide,
    expr_skips_signed_immediate 0x41 (-123456)
      (Or.inr (Or.inr (Or.inr (Or.inr ⟨by decide, by decide⟩)))) (by decide) (by decide)⟩


/-! ## The walker over opcodes without immediates -/

/-- The `switch` of `InstructionsDecoder.Expr` for a recognised opcode
without immediates: only the depth changes. -/
theorem InstructionsDecoder.Expr_step_zero (b : List UInt8) (opst : ℤ) (x : UInt8) (i d : ℤ)
    (hz : x.toNat ≤ 5 ∨ x.toNat = 0x0b ∨ x.toNat = 0x0f ∨ x.toNat = 0x1a ∨ x.toNat = 0x1b ∨
      x.toNat = 0x3f ∨ x.toNat = 0x40 ∨ (0x45 ≤ x.toNat ∧ x.toNat ≤ 0xa6)) :
    InstructionsDecoder.Expr.step b opst x i d
      = .next i none
          (d + (if 2 ≤ x.toNat ∧ x.toNat ≤ 4 then 1 else if x.toNat = 11 then -1 else 0)) := by
  refine InstructionsDecoder.Expr_step_elim
    (fun s => s = .next i none
      (d + (if 2 ≤ x.toNat ∧ x.toNat ≤ 4 then 1 else if x.toNat = 11 then -1 else 0)))
    b opst x i d ?_ ?_ ?_ ?_ ?_ ?_ ?_ ?_ ?_
  · intro h
    rw [if_neg (by omega), if_neg (by omega), add_zero]
  · intro h
    rw [if_pos h]
  · intro h
    rw [if_neg (by omega), if_pos h]
    rfl
  · intro h; omega
  · intro h; omega
  · intro h; omega
  · intro h; omega
  · intro h; omega
  · intro h; omega

/-- The loop of `InstructionsDecoder.Expr` over opcodes without immediates,
when the depth `D` first goes below zero after `n` opcodes. -/
theorem InstructionsDecoder.Expr_loop_extent_ok (b : List UInt8) (st : ℤ) (D : Nat → ℤ) (n : Nat)
    (code : List UInt8) (hcode : slice b st (st + n) = some code)
    (hstep : ∀ k : Nat, k < n → ∃ x, index b (st + k) = some x ∧
      (x.toNat ≤ 5 ∨ x.toNat = 0x0b ∨ x.toNat = 0x0f ∨ x.toNat = 0x1a ∨ x.toNat = 0x1b ∨
        x.toNat = 0x3f ∨ x.toNat = 0x40 ∨ (0x45 ≤ x.toNat ∧ x.toNat ≤ 0xa6)) ∧
      D (k + 1) = D k + (if 2 ≤ x.toNat ∧ x.toNat ≤ 4 then 1 else if x.toNat = 11 then -1 else 0))
    (hnn : ∀ k : Nat, k < n → 0 ≤ D k) (hend : D n < 0) :
    ∀ (gap k f : Nat), k + gap = n → 0 < gap → gap ≤ f →
    InstructionsDecoder.Expr.loop b st f (D k) (st + k) = .ok code (st + n) := by
  intro gap
  induction gap with
  | zero => intro k f _ h; omega
  | succ gap ih =>
    intro k f hk _ hf
    obtain ⟨f, rfl⟩ : ∃ g, f = g + 1 := ⟨f - 1, by omega⟩
    obtain ⟨x, hx, hz, hd⟩ := hstep k (by omega)
    have hi := index_some_lt hx
    have hone := slice_one hx
    have e2 : st + (k : ℤ) + 1 = st + ((k + 1 : Nat) : ℤ) := by push_cast; ring
    rw [InstructionsDecoder.Expr.loop]
    simp only [hi.2, if_true, hx, InstructionsDecoder.Expr_step_zero b _ x _ _ hz, hone]
    rw [← hd, e2]
    by_cases hg : gap = 0
    · have hkn : k + 1 = n := by omega
      rw [hkn, if_pos hend, hcode]
    · rw [if_neg (by have := hnn (k + 1) (by omega); omega)]
      exact ih (k + 1) f (by omega) (by omega) (by omega)

/-- The loop of `InstructionsDecoder.Expr` over opcodes without immediates,
when the depth `D` stays at or above zero up to the end of the buffer. -/
theorem InstructionsDecoder.Expr_loop_extent_eof (b : List UInt8) (st : ℤ) (D : Nat → ℤ) (N : Nat)
    (hN : st + N = b.length)
    (hstep : ∀ k : Nat, k < N → ∃ x, index b (st + k) = some x ∧
      (x.toNat ≤ 5 ∨ x.toNat = 0x0b ∨ x.toNat = 0x0f ∨ x.toNat = 0x1a ∨ x.toNat = 0x1b ∨
        x.toNat = 0x3f ∨ x.toNat = 0x40 ∨ (0x45 ≤ x.toNat ∧ x.toNat ≤ 0xa6)) ∧
      D (k + 1) = D k + (if 2 ≤ x.toNat ∧ x.toNat ≤ 4 then 1 else if x.toNat = 11 then -1 else 0))
    (hnn : ∀ k : Nat, k ≤ N → 0 ≤ D k) :
    ∀ (gap k f : Nat), k + gap = N → gap < f →
    InstructionsDecoder.Expr.loop b st f (D k) (st + k) = .fail st .ErrUnexpectedEOF := by
  intro gap
  induction gap with
  | zero =>
    intro k f hk hf
    obtain ⟨f, rfl⟩ : ∃ g, f = g + 1 := ⟨f - 1, by omega⟩
    rw [InstructionsDecoder.Expr.loop, if_neg (by omega)]
  | succ gap ih =>
    intro k f hk hf
    obtain ⟨f, rfl⟩ : ∃ g, f = g + 1 := ⟨f - 1, by omega⟩
    obtain ⟨x, hx, hz, hd⟩ := hstep k (by omega)
    have hi := index_some_lt hx
    have hone := slice_one hx
    have e2 : st + (k : ℤ) + 1 = st + ((k + 1 : Nat) : ℤ) := by push_cast; ring
    rw [InstructionsDecoder.Expr.loop]
    simp only [hi.2, if_true, hx, InstructionsDecoder.Expr_step_zero b _ x _ _ hz, hone]
    rw [← hd, e2, if_neg (by have := hnn (k + 1) (by omega); omega)]
    exact ih (k + 1) f (by omega) (by omega)

theorem count_take_succ (r : List UInt8) (k : Nat) (x a : UInt8) (hx : r[k]? = some x) :
    (r.take (k + 1)).count a = (r.take k).count a + (if x = a then 1 else 0) := by
  rw [List.take_succ, hx, List.count_append]
  simp [List.count_singleton]

theorem index_drop (b : List UInt8) (st : ℤ) (h0 : 0 ≤ st) (k : Nat) :
    index b (st + k) = (b.drop st.toNat)[k]? := by
  unfold index
  rw [if_pos (by omega), List.getElem?_drop]
  congr 1
  omega

theorem slice_drop_take (b : List UInt8) (st : ℤ) (n : Nat) (h0 : 0 ≤ st)
    (hn : st + n ≤ b.length) : slice b st (st + n) = some ((b.drop st.toNat).take n) := by
  unfold slice
  rw [if_pos ⟨h0, by omega, hn⟩]
  congr 2
  omega

/-- The depth after one more opcode, in terms of the counts of `Block`,
`Loop`, `If` and `End` bytes. -/
theorem depth_take_succ (r : List UInt8) (k : Nat) (x : UInt8) (hx : r[k]? = some x) :
    (((r.take (k + 1)).count 0x02 + (r.take (k + 1)).count 0x03
        + (r.take (k + 1)).count 0x04 : ℕ) : ℤ) - ((r.take (k + 1)).count 0x0b : ℕ)
      = (((r.take k).count 0x02 + (r.take k).count 0x03 + (r.take k).count 0x04 : ℕ) : ℤ)
          - ((r.take k).count 0x0b : ℕ)
        + (if 2 ≤ x.toNat ∧ x.toNat ≤ 4 then 1 else if x.toNat = 11 then -1 else 0) := by
  have c2 := count_take_succ r k x 0x02 hx
  have c3 := count_take_succ r k x 0x03 hx
  have c4 := count_take_succ r k x 0x04 hx
  have c11 := count_take_succ r k x 0x0b hx
  have e2 : x = 0x02 ↔ x.toNat = 2 := UInt8.eq_iff_toNat x 0x02
  have e3 : x = 0x03 ↔ x.toNat = 3 := UInt8.eq_iff_toNat x 0x03
  have e4 : x = 0x04 ↔ x.toNat = 4 := UInt8.eq_iff_toNat x 0x04
  have e11 : x = 0x0b ↔ x.toNat = 11 := UInt8.eq_iff_toNat x 0x0b
  simp only [e2, e3, e4, e11] at c2 c3 c4 c11
  rw [c2, c3, c4, c11]
  split_ifs <;> push_cast <;> omega

/-- C26: for every buffer `b` and offset `st ≥ 0` such that every byte of `b`
from `st` on is a recognised opcode without immediates, with `r` the bytes
from `st` on: `InstructionsDecoder.Expr(b, st)` returns the shortest prefix
of `r` in which the `End` bytes (`0x0b`) outnumber the `Block`/`Loop`/`If`
bytes (`0x02`, `0x03`, `0x04`) by one, with the offset just past it (`Else`
and every other byte do not count); if no prefix of `r` is such, it fails
with `ErrUnexpectedEOF` at `st`. -/
theorem expr_depth_extent (b : List UInt8) (st : ℤ) (h0 : 0 ≤ st)
    (hz : ∀ x ∈ b.drop st.toNat,
      x.toNat ≤ 0x05 ∨ x.toNat = 0x0b ∨ x.toNat = 0x0f ∨ x.toNat = 0x1a ∨ x.toNat = 0x1b ∨
        x.toNat = 0x3f ∨ x.toNat = 0x40 ∨ (0x45 ≤ x.toNat ∧ x.toNat ≤ 0xa6)) :
    (∀ n : Nat, n ≤ (b.drop st.toNat).length →
      ((b.drop st.toNat).take n).count 0x0b
        = ((b.drop st.toNat).take n).count 0x02 + ((b.drop st.toNat).take n).count 0x03
          + ((b.drop st.toNat).take n).count 0x04 + 1 →
      (∀ k : Nat, k < n →
        ((b.drop st.toNat).take k).count 0x0b
          ≠ ((b.drop st.toNat).take k).count 0x02 + ((b.drop st.toNat).take k).count 0x03
            + ((b.drop st.toNat).take k).count 0x04 + 1) →
      InstructionsDecoder.Expr b st = .ok ((b.drop st.toNat).take n) (st + n)) ∧
    ((∀ n : Nat, n ≤ (b.drop st.toNat).length →
        ((b.drop st.toNat).take n).count 0x0b
          ≠ ((b.drop st.toNat).take n).count 0x02 + ((b.drop st.toNat).take n).count 0x03
            + ((b.drop st.toNat).take n).count 0x04 + 1) →
      InstructionsDecoder.Expr b st = .fail st .ErrUnexpectedEOF) := by
  obtain ⟨r, hr⟩ : ∃ r, r = b.drop st.toNat := ⟨_, rfl⟩
  rw [← hr] at hz ⊢
  obtain ⟨D, hD⟩ : ∃ D : Nat → ℤ, ∀ k, D k
      = (((r.take k).count 0x02 + (r.take k).count 0x03 + (r.take k).count 0x04 : ℕ) : ℤ)
          - ((r.take k).count 0x0b : ℕ) := ⟨_, fun _ => rfl⟩
  have hD0 : D 0 = 0 := by rw [hD]; simp
  have hrl : r.length = b.length - st.toNat := by rw [hr, List.length_drop]
  have hstep : ∀ k : Nat, k < r.length → ∃ x, index b (st + k) = some x ∧
      (x.toNat ≤ 5 ∨ x.toNat = 0x0b ∨ x.toNat = 0x0f ∨ x.toNat = 0x1a ∨ x.toNat = 0x1b ∨
        x.toNat = 0x3f ∨ x.toNat = 0x40 ∨ (0x45 ≤ x.toNat ∧ x.toNat ≤ 0xa6)) ∧
      D (k + 1)
        = D k + (if 2 ≤ x.toNat ∧ x.toNat ≤ 4 then 1 else if x.toNat = 11 then -1 else 0) := by
    intro k hk
    have hx : r[k]? = some r[k] := List.getElem?_eq_getElem hk
    refine ⟨r[k], ?_, hz _ (List.getElem_mem hk), ?_⟩
    · rw [index_drop b st h0 k, ← hr]
      exact hx
    · rw [hD, hD]
      exact depth_take_succ r k _ hx
  have hlow : ∀ k : Nat, k < r.length → D k - 1 ≤ D (k + 1) := by
    intro k hk
    obtain ⟨x, -, -, hd⟩ := hstep k hk
    rw [hd]
    split_ifs <;> omega
  have hnn : ∀ n : Nat, n ≤ r.length + 1 →
      (∀ k : Nat, 0 < k → k < n → D k ≠ -1) → ∀ k : Nat, k < n → 0 ≤ D k := by
    intro n hn hne k
    induction k with
    | zero => intro _; omega
    | succ k ih =>
      intro hk
      have h1 := ih (by omega)
      have h2 := hlow k (by omega)
      have h3 := hne (k + 1) (by omega) hk
      omega
  constructor
  · intro n hn hcl hmin
    have hend : D n = -1 := by rw [hD]; omega
    have hpos : 0 < n := by
      by_contra h
      have hn0 : n = 0 := by omega
      rw [hn0, hD0] at hend
      omega
    have hk : ∀ k : Nat, k < n → 0 ≤ D k :=
      hnn n (by omega) (fun k _ hk => by
        have := hmin k hk
        rw [hD]
        omega)
    have hlt : st + n ≤ b.length := by omega
    have h := InstructionsDecoder.Expr_loop_extent_ok b st D n (r.take n)
      (by rw [hr]; exact slice_drop_take b st n h0 hlt)
      (fun k hk => hstep k (by omega)) hk (by omega) n 0 (b.length + 1) (by omega) hpos
      (by omega)
    unfold InstructionsDecoder.Expr
    rw [hD0] at h
    simpa using h
  · intro hno
    by_cases hst : st ≤ b.length
    · have hk : ∀ k : Nat, k ≤ r.length → 0 ≤ D k := by
        intro k hk
        exact hnn (r.length + 1) (le_refl _) (fun j _ hj => by
          have := hno j (by omega)
          rw [hD]
          omega) k (by omega)
      have h := InstructionsDecoder.Expr_loop_extent_eof b st D r.length (by omega) hstep hk
        r.length 0 (b.length + 1) (by omega) (by omega)
      unfold InstructionsDecoder.Expr
      rw [hD0] at h
      simpa using h
    · unfold InstructionsDecoder.Expr
      rw [InstructionsDecoder.Expr.loop, if_neg (by omega)]

/-- C26 (witness): `02 40 0b 0b` yields all four bytes; `02 05 0b`, where
the `Block` is not closed, ends too early. -/
theorem expr_depth_extent_witness :
    InstructionsDecoder.Expr [0x02, 0x40, 0x0b, 0x0b] 0 = .ok [0x02, 0x40, 0x0b, 0x0b] 4 ∧
    InstructionsDecoder.Expr [0x02, 0x40, 0x0b, 0x0b] 0
      = .ok ((([0x02, 0x40, 0x0b, 0x0b] : List UInt8).drop (0 : ℤ).toNat).take 4)
          (0 + (4 : ℕ)) ∧
    InstructionsDecoder.Expr [0x02, 0x05, 0x0b] 0 = .fail 0 .ErrUnexpectedEOF :=
  ⟨by decide,
    (expr_depth_extent [0x02, 0x40, 0x0b, 0x0b] 0 (by decide) (by decide)).1 4
      (by decide) (by decide) (by decide),
    (expr_depth_extent [0x02, 0x05, 0x0b] 0 (by decide) (by decide)).2 (by decide)⟩


/-! ## The section loop up to a section boundary -/

/-- The section loop run for `n` iterations and then for `f` more. -/
theorem Decoder.Module_loop_add (b : List UInt8) (n : Nat) :
    ∀ (i : ℤ) (m m1 : Wasm.Module) (s : ℤ), Decoder.Module.loop b n i m = .ok m1 s →
    ∀ f, Decoder.Module.loop b (n + f) i m = Decoder.Module.loop b f s m1 := by
  induction n with
  | zero =>
    intro i m m1 s h f
    rw [Decoder.Module.loop] at h
    injection h with h1 h2
    subst h1 h2
    rw [Nat.zero_add]
  | succ n ih =>
    intro i m m1 s h f
    rw [show n + 1 + f = (n + f) + 1 by ring]
    conv_lhs => rw [Decoder.Module.loop]
    rw [Decoder.Module.loop] at h
    by_cases hlt : i < b.length
    · rw [if_pos hlt] at h ⊢
      cases hid : index b i with
      | none => rw [hid] at h; cases h
      | some id =>
        rw [hid] at h
        simp only at h ⊢
        cases hsz : LowDecoder.Int b (i + 1) with
        | panic => rw [hsz] at h; cases h
        | fail j e => rw [hsz] at h; cases h
        | ok size en0 =>
          rw [hsz] at h
          simp only at h ⊢
          by_cases hen : addInt en0 size > b.length
          · rw [if_pos hen] at h; cases h
          · rw [if_neg hen] at h ⊢
            cases hd : Decoder.Module.dispatch b id i
                { m with Sections := m.Sections ++ [id] } with
            | none => rw [hd] at h; cases h
            | some r =>
              rw [hd] at h
              cases r with
              | panic => cases h
              | fail j e => cases h
              | ok m2 j =>
                simp only at h ⊢
                exact ih _ _ _ _ h f
    · rw [if_neg hlt] at h ⊢
      injection h with h1 h2
      subst h1 h2
      cases f with
      | zero => rw [Decoder.Module.loop]
      | succ f => rw [Decoder.Module.loop, if_neg hlt]

/-- More fuel than the bytes that remain does not change the section loop. -/
theorem Decoder.Module_loop_fuel_add (b : List UInt8) (f : Nat) (i : ℤ) (m : Wasm.Module)
    (hf : (b.length : ℤ) - i ≤ f) :
    ∀ k, Decoder.Module.loop b (f + k) i m = Decoder.Module.loop b f i m := by
  intro k
  induction k with
  | zero => rfl
  | succ k ih =>
    rw [← Nat.add_assoc, Decoder.Module_loop_fuel b (f + k) i m (by push_cast; omega), ih]

/-- The section loop of `Decoder.Module` from offset 8 goes on from every
state that it reaches after `n` iterations. -/
theorem Decoder.Module_loop_reach (b : List UInt8) (n : Nat) (m0 m1 : Wasm.Module) (s : ℤ)
    (h : Decoder.Module.loop b n 8 m0 = .ok m1 s) :
    Decoder.Module.loop b b.length 8 m0 = Decoder.Module.loop b b.length s m1 := by
  rw [← Decoder.Module_loop_fuel_add b b.length 8 m0 (by omega) n, Nat.add_comm,
    Decoder.Module_loop_add b n 8 m0 m1 s h]

theorem Decoder.Module_dispatch_unknown (b : List UInt8) (id : UInt8) (i : ℤ) (m : Wasm.Module)
    (h : 12 < id.toNat) : Decoder.Module.dispatch b id i m = none := by
  have e : ∀ c : UInt8, c.toNat ≤ 12 → ¬ id = c := by
    intro c hc heq
    rw [heq] at h
    omega
  rw [Decoder.Module.dispatch, if_neg (e _ (by decide)), if_neg (e _ (by decide)),
    if_neg (e _ (by decide)), if_neg (e _ (by decide)), if_neg (e _ (by decide)),
    if_neg (e _ (by decide)), if_neg (e _ (by decide)), if_neg (e _ (by decide)),
    if_neg (e _ (by decide)), if_neg (e _ (by decide)), if_neg (e _ (by decide)),
    if_neg (e _ (by decide)), if_neg (e _ (by decide))]

/-- The section loop at an envelope with an id above 12. -/
theorem Decoder.Module_loop_unknown (b : List UInt8) (f : Nat) (s : ℤ) (m : Wasm.Module)
    (id : UInt8) (hid : index b s = some id) (h12 : 12 < id.toNat) :
    (∀ m2 j, Decoder.Module.loop b (f + 1) s m ≠ .ok m2 j) ∧
    (∀ size en, LowDecoder.Int b (s + 1) = .ok size en → addInt en size ≤ b.length →
      Decoder.Module.loop b (f + 1) s m
        = .fail s (.New "unsupported section id: 0x%02x" [id.toNat])) := by
  have hi := index_some_lt hid
  have hd := Decoder.Module_dispatch_unknown b id s { m with Sections := m.Sections ++ [id] } h12
  constructor
  · intro m2 j h
    rw [Decoder.Module.loop, if_pos hi.2, hid] at h
    simp only at h
    cases hsz : LowDecoder.Int b (s + 1) with
    | panic => rw [hsz] at h; cases h
    | fail j e => rw [hsz] at h; cases h
    | ok size en0 =>
      rw [hsz] at h
      simp only at h
      by_cases hen : addInt en0 size > b.length
      · rw [if_pos hen] at h; cases h
      · rw [if_neg hen, hd] at h
        cases h
  · intro size en hsz hen
    rw [Decoder.Module.loop, if_pos hi.2, hid]
    simp only
    rw [hsz]
    simp only
    rw [if_neg (by omega), hd]

/-- C24: for every module image with the magic and a version `≤ 1`, if the
section loop of `Decoder.Module` reaches, after `n` sections decoded without
error, a section boundary `s` (the loop run for `n` iterations from offset 8
is at the cursor `s`) at which the id byte is greater than 12, then
`Decoder.Module` does not succeed; when the size LEB of that envelope
decodes and the envelope fits in the buffer, the failure is the
unsupported-section error for that id, reported at `s`. -/
theorem module_unknown_section (v0 v1 v2 v3 : UInt8) (rest : List UInt8) (m m1 : Wasm.Module)
    (n : Nat) (s : ℤ) (id : UInt8)
    (hv : v0.toNat + 2 ^ 8 * v1.toNat + 2 ^ 16 * v2.toNat + 2 ^ 24 * v3.toNat ≤ 1)
    (hreach : Decoder.Module.loop (Magic ++ [v0, v1, v2, v3] ++ rest) n 8
        { m with
          Version := ((v0.toNat + 2 ^ 8 * v1.toNat + 2 ^ 16 * v2.toNat
            + 2 ^ 24 * v3.toNat : ℕ) : ℤ),
          Start := -1, DataCount := 0 }
      = .ok m1 s)
    (hid : index (Magic ++ [v0, v1, v2, v3] ++ rest) s = some id) (h12 : 12 < id.toNat) :
    (∀ m2, Decoder.Module (Magic ++ [v0, v1, v2, v3] ++ rest) m ≠ .ok m2) ∧
    (∀ size en, LowDecoder.Int (Magic ++ [v0, v1, v2, v3] ++ rest) (s + 1) = .ok size en →
      addInt en size ≤ (Magic ++ [v0, v1, v2, v3] ++ rest).length →
      Decoder.Module (Magic ++ [v0, v1, v2, v3] ++ rest) m
        = .fail (.Wrap (.New "unsupported section id: 0x%02x" [id.toNat]) "at pos 0x%x" [s])) := by
  obtain ⟨B, hB⟩ : ∃ B, B = Magic ++ [v0, v1, v2, v3] ++ rest := ⟨_, rfl⟩
  have hH := Decoder.Module_header v0 v1 v2 v3 rest m
  rw [if_neg (by omega)] at hH
  rw [← hB] at hreach hid hH ⊢
  have hi := index_some_lt hid
  obtain ⟨f, hf⟩ : ∃ f, B.length = f + 1 := ⟨B.length - 1, by omega⟩
  rw [Decoder.Module_loop_reach B n _ m1 s hreach] at hH
  obtain ⟨a1, a2⟩ := Decoder.Module_loop_unknown B f s m1 id hid h12
  rw [← hf] at a1 a2
  constructor
  · intro m2 h
    rw [hH] at h
    unfold Decoder.Module.deferred at h
    split at h
    · cases h
    · cases h
    · rename_i m3 j hl
      exact a1 m3 j hl
  · intro size en hsz hen
    rw [hH, a2 size en hsz hen]
    rfl

/-- C24 (witness): a type section followed by an envelope with the id 13. -/
theorem module_unknown_section_witness :
    Decoder.Module.loop (Magic ++ [1, 0, 0, 0] ++ [0x01, 0x01, 0x00, 0x0d, 0x00]) 1 8
        { Module.zero with
          Version := (((1 : UInt8).toNat + 2 ^ 8 * (0 : UInt8).toNat + 2 ^ 16 * (0 : UInt8).toNat
            + 2 ^ 24 * (0 : UInt8).toNat : ℕ) : ℤ),
          Start := -1, DataCount := 0 }
      = .ok { Module.zero with Version := 1, Start := -1, Sections := [1] } 11 ∧
    Decoder.Module (Magic ++ [1, 0, 0, 0] ++ [0x01, 0x01, 0x00, 0x0d, 0x00]) Module.zero
      = .fail (.Wrap (.New "unsupported section id: 0x%02x" [(0x0d : UInt8).toNat])
          "at pos 0x%x" [11]) :=
  ⟨by decide,
    (module_unknown_section 1 0 0 0 [0x01, 0x01, 0x00, 0x0d, 0x00] Module.zero
      { Module.zero with Version := 1, Start := -1, Sections := [1] } 1 11 0x0d
      (by decide) (by decide) (by decide) (by decide)).2 0 13 (by decide) (by decide)⟩


/-! ## An unsupported opcode in the initializer of a global -/

/-- The walk of `InstructionsDecoder.Expr` that reaches an opcode outside the
recognised set fails there. -/
theorem InstructionsDecoder.Expr_unsupported (b : List UInt8) (st : ℤ) (n : Nat) (d p : ℤ)
    (op : UInt8) (hr : InstructionsDecoder.Expr.reach b st n = some (d, p))
    (hop : index b p = some op)
    (hu : (6 ≤ op.toNat ∧ op.toNat ≤ 10) ∨ (18 ≤ op.toNat ∧ op.toNat ≤ 25) ∨
        (28 ≤ op.toNat ∧ op.toNat ≤ 31) ∨ (37 ≤ op.toNat ∧ op.toNat ≤ 39) ∨
        (167 ≤ op.toNat ∧ op.toNat ≤ 251) ∨ 253 ≤ op.toNat) :
    InstructionsDecoder.Expr b st
      = .fail p (.Wrap (.UnsupportedOpcodeError op []) "at pos 0x%x" [p]) := by
  obtain ⟨a1, a2, a3⟩ := InstructionsDecoder.Expr_reach_loop b st n d p hr
  have hi := index_some_lt hop
  have hn : n ≤ b.length := by
    by_cases h0 : 0 < n
    · have := a3 h0
      omega
    · omega
  unfold InstructionsDecoder.Expr
  obtain ⟨f, hf⟩ : ∃ f, b.length + 1 = n + (f + 1) := ⟨b.length - n, by omega⟩
  rw [hf, a1 (f + 1)]
  exact InstructionsDecoder.Expr_loop_unsupported b st f d p op hop hu

/-- The loop of `Decoder.GlobalSection` run for `k` globals and then for `r`
more. -/
theorem Decoder.GlobalSection_loop_add (b : List UInt8) (k : Nat) :
    ∀ (c : Nat) (i : ℤ) (acc gs : List Global) (j : ℤ),
    Decoder.GlobalSection.loop b k c i acc = .ok gs j →
    ∀ r, Decoder.GlobalSection.loop b (k + r) c i acc
      = Decoder.GlobalSection.loop b r (c + k) j gs := by
  induction k with
  | zero =>
    intro c i acc gs j h r
    rw [Decoder.GlobalSection.loop] at h
    injection h with h1 h2
    subst h1 h2
    rw [Nat.zero_add, Nat.add_zero]
  | succ k ih =>
    intro c i acc gs j h r
    rw [show k + 1 + r = (k + r) + 1 by ring]
    conv_lhs => rw [Decoder.GlobalSection.loop]
    rw [Decoder.GlobalSection.loop] at h
    cases hty : LowDecoder.GlobalType b i with
    | panic => rw [hty] at h; cases h
    | fail j e => rw [hty] at h; cases h
    | ok tm i1 =>
      obtain ⟨tp, mu⟩ := tm
      rw [hty] at h
      simp only at h ⊢
      cases hex : InstructionsDecoder.Expr b i1 with
      | panic => rw [hex] at h; cases h
      | fail j e => rw [hex] at h; cases h
      | ok code i2 =>
        rw [hex] at h
        simp only at h ⊢
        rw [ih _ _ _ _ _ h r, show c + 1 + k = c + (k + 1) by ring]

/-- C25: for every module image with the magic and a version `≤ 1` in which
the section loop reaches (after `n` sections) a global section at `s` whose
header decodes and whose envelope fits in the buffer, and in which the
initializer of the global of index `k` (the `k` globals before it decode)
reaches, at the opcode position `p`, the byte `0xd5`: `Decoder.Module` fails
with an error whose cause is `UnsupportedOpcodeError{Opcode: 0xd5}`, wrapped
by the walker, by the global section (`global code k`), by the section loop
(`section id 6`) and by the deferred wrapper, which annotates it with the
offset `p`. -/
theorem module_global_unsupported_opcode (v0 v1 v2 v3 : UInt8) (rest : List UInt8)
    (m m1 : Wasm.Module) (n : Nat) (s l en i0 : ℤ) (k : Nat) (gs : List Global) (ik : ℤ)
    (tp mu : UInt8) (e : ℤ) (c : Nat) (d p : ℤ)
    (hv : v0.toNat + 2 ^ 8 * v1.toNat + 2 ^ 16 * v2.toNat + 2 ^ 24 * v3.toNat ≤ 1)
    (hreach : Decoder.Module.loop (Magic ++ [v0, v1, v2, v3] ++ rest) n 8
        { m with
          Version := ((v0.toNat + 2 ^ 8 * v1.toNat + 2 ^ 16 * v2.toNat
            + 2 ^ 24 * v3.toNat : ℕ) : ℤ),
          Start := -1, DataCount := 0 }
      = .ok m1 s)
    (hhdr : Decoder.sectionHeaderLen (Magic ++ [v0, v1, v2, v3] ++ rest) s GlobalSection
      = .ok (l, en) i0)
    (hfit : en ≤ (Magic ++ [v0, v1, v2, v3] ++ rest).length)
    (hk : (k : ℤ) < l)
    (hglob : Decoder.GlobalSection.loop (Magic ++ [v0, v1, v2, v3] ++ rest) k 0 i0 []
      = .ok gs ik)
    (hty : LowDecoder.GlobalType (Magic ++ [v0, v1, v2, v3] ++ rest) ik = .ok (tp, mu) e)
    (hexpr : InstructionsDecoder.Expr.reach (Magic ++ [v0, v1, v2, v3] ++ rest) e c = some (d, p))
    (hop : index (Magic ++ [v0, v1, v2, v3] ++ rest) p = some 0xd5) :
    Decoder.Module (Magic ++ [v0, v1, v2, v3] ++ rest) m
      = .fail (.Wrap (.Wrap (.Wrap (.Wrap (.UnsupportedOpcodeError 0xd5 []) "at pos 0x%x" [p])
          "global code %d" [k]) "section id %x" [6]) "at pos 0x%x" [p]) ∧
    Err.cause (.Wrap (.Wrap (.Wrap (.Wrap (.UnsupportedOpcodeError 0xd5 []) "at pos 0x%x" [p])
          "global code %d" [k]) "section id %x" [6]) "at pos 0x%x" [p])
      = .UnsupportedOpcodeError 0xd5 [] := by
  refine ⟨?_, rfl⟩
  obtain ⟨B, hB⟩ : ∃ B, B = Magic ++ [v0, v1, v2, v3] ++ rest := ⟨_, rfl⟩
  have hH := Decoder.Module_header v0 v1 v2 v3 rest m
  rw [if_neg (by omega)] at hH
  rw [← hB] at hreach hhdr hfit hglob hty hexpr hop hH ⊢
  obtain ⟨hid, hl0, hl1, size, i00, hsz, hen, hli⟩ := Decoder.sectionHeaderLen_ok hhdr
  have hi := index_some_lt hid
  obtain ⟨f, hf⟩ : ∃ f, B.length = f + 1 := ⟨B.length - 1, by omega⟩
  have hE := InstructionsDecoder.Expr_unsupported B e c d p 0xd5 hexpr hop (by decide)
  obtain ⟨r, hr⟩ : ∃ r, l.toNat = k + (r + 1) := ⟨l.toNat - k - 1, by omega⟩
  have hG : Decoder.GlobalSection.loop B l.toNat 0 i0 []
      = .fail p (.Wrap (.Wrap (.UnsupportedOpcodeError 0xd5 []) "at pos 0x%x" [p])
          "global code %d" [k]) := by
    rw [hr, Decoder.GlobalSection_loop_add B k 0 i0 [] gs ik hglob (r + 1),
      Decoder.GlobalSection.loop, hty]
    simp only
    rw [hE]
    simp
  have hS : ∀ m2 : Wasm.Module, Decoder.GlobalSection B s m2
      = .fail p (.Wrap (.Wrap (.UnsupportedOpcodeError 0xd5 []) "at pos 0x%x" [p])
          "global code %d" [k]) := by
    intro m2
    unfold Decoder.GlobalSection
    rw [hhdr]
    simp only
    rw [hG]
  have hD : ∀ m2 : Wasm.Module, Decoder.Module.dispatch B GlobalSection s m2
      = some (Decoder.GlobalSection B s m2) := by
    intro m2
    rw [Decoder.Module.dispatch, if_neg (by decide), if_neg (by decide), if_neg (by decide),
      if_neg (by decide), if_neg (by decide), if_neg (by decide), if_pos rfl]
  rw [hH, Decoder.Module_loop_reach B n _ m1 s hreach, hf, Decoder.Module.loop,
    if_pos hi.2, hid]
  simp only
  rw [hsz]
  simp only
  rw [← hen, if_neg (by omega), hD, hS]
  rfl

/-- C25 (witness): a global section with one global `i32` whose initializer
is `i32.const 0; 0xd5; end`: the byte `0xd5` is at offset 15. -/
theorem module_global_unsupported_opcode_witness :
    Decoder.Module
        (Magic ++ [1, 0, 0, 0] ++ [0x06, 0x07, 0x01, 0x7f, 0x00, 0x41, 0x00, 0xd5, 0x0b])
        Module.zero
      = .fail (.Wrap (.Wrap (.Wrap (.Wrap (.UnsupportedOpcodeError 0xd5 []) "at pos 0x%x" [15])
          "global code %d" [(0 : ℕ)]) "section id %x" [6]) "at pos 0x%x" [15]) ∧
    Err.cause (.Wrap (.Wrap (.Wrap (.Wrap (.UnsupportedOpcodeError 0xd5 []) "at pos 0x%x" [15])
          "global code %d" [(0 : ℕ)]) "section id %x" [6]) "at pos 0x%x" [15])
      = .UnsupportedOpcodeError 0xd5 [] :=
  module_global_unsupported_opcode 1 0 0 0 [0x06, 0x07, 0x01, 0x7f, 0x00, 0x41, 0x00, 0xd5, 0x0b]
    Module.zero { Module.zero with Version := 1, Start := -1 } 0 8 1 17 11 0 [] 11 0x7f 0x00 13
    1 0 15 (by decide) (by decide) (by decide) (by decide) (by decide) (by decide) (by decide)
    (by decide) (by decide)

end Wasm
